import Mathlib

/-!
Verification of ninja2wctr: wall-clock-time responsibility of build tasks

A shallow embedding of `ninja2wctr.cpp`.

* `std::chrono::milliseconds` values are integer tick counts (`ℤ`, no overflow).
* `std::chrono::duration<double>` values have two models. In the exact model
  (`SweepState`, `addWctr`, `step`, `sweep`) they are rationals (`ℚ`), measured
  in milliseconds, and no operation rounds: it states what the sweep computes
  in exact arithmetic. The sweep over an arithmetic (`Arith`, `stepIn`,
  `sweepIn`) is the same loop with the operations as a parameter; over
  `exactArith` it is the exact model (`stepIn_exact`), and over `doubleArith`
  every operation rounds to the nearest double (`roundDouble`), in seconds, as
  in the program. A statement on attributed times says which arithmetic it is
  about.
* `std::unordered_map` is an association list with pairwise distinct keys; the
  order of the list is the (unspecified) iteration order of the table, and the
  statements below quantify over every such list.
* `std::sort` is modelled by an insertion sort with the comparator of the call
  site, which keeps the relative order of elements the comparator does not
  separate. The library leaves that order open; `Admissible` describes the
  event orders for which the sweep completes, and the results on attributed
  times hold for every time-ascending order on which it does. Only intervals
  of length zero depend on the order of ties: `zero_length_ties_fail` gives a
  time-ascending order of their events on which the sweep throws.
* The stream of `parseNinjaLog` is a list of characters, read by extractions
  that skip white space; the printed table is the list of its lines.
-/

deriving instance DecidableEq for Except

namespace Ninja2wctr

/-! ## Data model -/

/-- Interval of one task: `struct StartStop`. -/
structure StartStop where
  start : ℤ
  stop : ℤ
deriving DecidableEq

/-- One start or stop occurrence: `struct Event`. -/
structure Event where
  time : ℤ
  output : String
  isStart : Bool
deriving DecidableEq

/-- One attribution record: `struct WallClockTimeResponsibility`. -/
structure WallClockTimeResponsibility where
  time : ℚ
  output : String
deriving DecidableEq

/-- The table `outputToStartStop`, in iteration order. -/
abbrev IntervalMap := List (String × StartStop)

/-- Keys of the table are pairwise distinct. -/
def NodupKeys (m : IntervalMap) : Prop := (m.map Prod.fst).Nodup

/-- Every interval of the table has `start ≤ stop`. -/
def WellFormed (m : IntervalMap) : Prop := ∀ kv ∈ m, kv.2.start ≤ kv.2.stop

instance (m : IntervalMap) : Decidable (NodupKeys m) := by
  unfold NodupKeys; infer_instance

instance (m : IntervalMap) : Decidable (WellFormed m) := by
  unfold WellFormed; infer_instance

/-! ## Interval collector: the loop of `parseNinjaLog` -/

/-- One parsed line of the log: `startMs stopMs restatMtime output hash`. -/
structure LogRecord where
  startMs : ℤ
  stopMs : ℤ
  restatMtime : ℤ
  output : String
  hash : String
deriving DecidableEq

/-- Assignment `table[k] = v` of `std::unordered_map::operator[]`: the value of
an existing key is replaced, a new key gets a new entry. -/
def assign : IntervalMap → String → StartStop → IntervalMap
  | [], k, v => [(k, v)]
  | (k', v') :: rest, k, v =>
    if k' = k then (k', v) :: rest else (k', v') :: assign rest k v

/-- The `while (fin >> ...)` loop of `parseNinjaLog` over the parsed records. -/
def collect (records : List LogRecord) : IntervalMap :=
  records.foldl (fun table r => assign table r.output ⟨r.startMs, r.stopMs⟩) []

/-- The start event pushed for one entry of the table. -/
def startEvent (kv : String × StartStop) : Event := ⟨kv.2.start, kv.1, true⟩

/-- The stop event pushed for one entry of the table. -/
def stopEvent (kv : String × StartStop) : Event := ⟨kv.2.stop, kv.1, false⟩

/-- The `push_back` loop of `createdSortedEvents`: two events per entry. -/
def pushEvents : IntervalMap → List Event
  | [] => []
  | kv :: rest => startEvent kv :: stopEvent kv :: pushEvents rest

/-- Sorted order produced by the comparator `a.time < b.time`: no later element
is strictly smaller than an earlier one. -/
def timeLE (a b : Event) : Prop := a.time ≤ b.time

instance : DecidableRel timeLE := fun a b => by unfold timeLE; infer_instance

instance : IsTotal Event timeLE := ⟨fun a b => le_total a.time b.time⟩

instance : IsTrans Event timeLE := ⟨fun _ _ _ h₁ h₂ => le_trans h₁ h₂⟩

/-- Function `createdSortedEvents`. -/
def createdSortedEvents (m : IntervalMap) : List Event :=
  (pushEvents m).insertionSort timeLE

/-! ## Fair-share apportioner: `processEventsToWallClockTimeResponsibilities` -/

/-- The only exception thrown by the sweep: `task '<output>' not found!`. -/
inductive Failure where
  | taskNotFound (output : String)
deriving DecidableEq

/-- Local variables of the sweep loop. -/
structure SweepState where
  activeTasks : List (String × ℚ)
  finishedTasks : List WallClockTimeResponsibility
  previousTime : ℤ
deriving DecidableEq

/-- State before the first event. -/
def SweepState.init : SweepState := ⟨[], [], 0⟩

/-- Inner loop: every active task receives `elapsed / activeTasks.size()`, in
exact arithmetic; `addWctrIn` is the same loop over an arithmetic that rounds. -/
def addWctr (activeTasks : List (String × ℚ)) (elapsed : ℤ) : List (String × ℚ) :=
  activeTasks.map fun kv => (kv.1, kv.2 + (elapsed : ℚ) / (activeTasks.length : ℚ))

/-- Call `activeTasks.emplace(output, 0s)`: nothing happens when the key is present. -/
def emplace (activeTasks : List (String × ℚ)) (output : String) : List (String × ℚ) :=
  match activeTasks.lookup output with
  | some _ => activeTasks
  | none => activeTasks ++ [(output, 0)]

/-- Call `activeTasks.erase(it)` for the entry found under `output`. -/
def eraseKey (activeTasks : List (String × ℚ)) (output : String) : List (String × ℚ) :=
  activeTasks.filter fun kv => kv.1 != output

/-- Body of the sweep loop for one event. -/
def step (s : SweepState) (e : Event) : Except Failure SweepState :=
  let active := addWctr s.activeTasks (e.time - s.previousTime)
  if e.isStart then
    .ok ⟨emplace active e.output, s.finishedTasks, e.time⟩
  else
    match active.lookup e.output with
    | none => .error (.taskNotFound e.output)
    | some d => .ok ⟨eraseKey active e.output, s.finishedTasks ++ [⟨d, e.output⟩], e.time⟩

/-- The sweep loop over the events, from a given state. -/
def sweep (s : SweepState) : List Event → Except Failure SweepState
  | [] => .ok s
  | e :: rest =>
    match step s e with
    | .error err => .error err
    | .ok s' => sweep s' rest

/-- Sorted order produced by the comparator `a.time > b.time`. -/
def wctrGE (a b : WallClockTimeResponsibility) : Prop := a.time ≥ b.time

instance : DecidableRel wctrGE := fun a b => by unfold wctrGE; infer_instance

instance : IsTotal WallClockTimeResponsibility wctrGE := ⟨fun a b => le_total b.time a.time⟩

instance : IsTrans WallClockTimeResponsibility wctrGE := ⟨fun _ _ _ h₁ h₂ => le_trans h₂ h₁⟩

/-- Function `processEventsToWallClockTimeResponsibilities`. -/
def processEventsToWallClockTimeResponsibilities (sortedEvents : List Event) :
    Except Failure (List WallClockTimeResponsibility) :=
  match sweep SweepState.init sortedEvents with
  | .error err => .error err
  | .ok s => .ok (s.finishedTasks.insertionSort wctrGE)

/-- Time of the first record of `output` in a result list. -/
def attributedTime (result : List WallClockTimeResponsibility) (output : String) : Option ℚ :=
  (result.find? fun w => w.output == output).map (·.time)

/-- Attributed time of an output after the pipeline of `main` on a table:
sequencer, then apportioner; `none` when the sweep throws or the result has no
record of the output. -/
def wctrFor (m : IntervalMap) (output : String) : Option ℚ :=
  match processEventsToWallClockTimeResponsibilities (createdSortedEvents m) with
  | .ok r => attributedTime r output
  | .error _ => none

/-- An event list in which task A starts twice before it stops. -/
def doubleStart : List Event := [⟨0, "A", true⟩, ⟨5, "A", true⟩, ⟨10, "A", false⟩]

/-- The table of the concrete scenario: A=[0,10], B=[0,10], C=[10,20]. -/
def scenarioABC : IntervalMap := [("A", ⟨0, 10⟩), ("B", ⟨0, 10⟩), ("C", ⟨10, 20⟩)]

/-! ## Reference values -/

/-- Number of tasks whose interval covers the gap `[a, b]`. -/
def coverCount (m : IntervalMap) (a b : ℤ) : ℕ :=
  m.countP fun kv => decide (kv.2.start ≤ a ∧ b ≤ kv.2.stop)

/-- Share of the gap `[a, b]` that goes to a task with interval `ss`: the gap
counts when it lies inside the interval, and is divided by the number of tasks
covering it. -/
def gapShare (m : IntervalMap) (ss : StartStop) (a b : ℤ) : ℚ :=
  if ss.start ≤ a ∧ b ≤ ss.stop then ((b - a : ℤ) : ℚ) / (coverCount m a b : ℚ) else 0

/-- Sum of the shares of all gaps between consecutive instants of a list. -/
def gapSum (m : IntervalMap) (ss : StartStop) : List ℤ → ℚ
  | a :: b :: rest => gapShare m ss a b + gapSum m ss (b :: rest)
  | _ => 0

/-- All start and stop instants of the table. -/
def allTimes (m : IntervalMap) : List ℤ :=
  m.map (fun kv => kv.2.start) ++ m.map (fun kv => kv.2.stop)

/-- The distinct event times `t_0 < t_1 < ... < t_m`. -/
def eventTimes (m : IntervalMap) : List ℤ :=
  (allTimes m).dedup.insertionSort (· ≤ ·)

/-- Fair-share reference value of a task with interval `ss`. -/
def fairShare (m : IntervalMap) (ss : StartStop) : ℚ :=
  gapSum m ss (eventTimes m)

/-- Number of tasks running during the millisecond `[t, t + 1]`. -/
def activeCount (m : IntervalMap) (t : ℤ) : ℕ :=
  m.countP fun kv => decide (kv.2.start ≤ t ∧ t < kv.2.stop)

/-- Fair share, millisecond by millisecond: every millisecond of the interval
contributes one over the number of tasks running in it. -/
def cellSum (m : IntervalMap) (ss : StartStop) : ℚ :=
  ∑ t ∈ Finset.Ico ss.start ss.stop, 1 / (activeCount m t : ℚ)

/-- Share of one millisecond `[t, t + 1]` for a task with interval `ss`. -/
def cellShare (m : IntervalMap) (ss : StartStop) (t : ℤ) : ℚ :=
  if ss.start ≤ t ∧ t < ss.stop then 1 / (activeCount m t : ℚ) else 0

/-- The milliseconds `[t, t + 1]` during which at least one task runs: the
union of the intervals of the table. -/
def unionCells : IntervalMap → Finset ℤ
  | [] => ∅
  | kv :: rest => Finset.Ico kv.2.start kv.2.stop ∪ unionCells rest

/-- Total length of the union of all intervals, in milliseconds. -/
def unionLength (m : IntervalMap) : ℕ := (unionCells m).card

/-- Sum of the attributed times of all records of a result. -/
def totalTime (result : List WallClockTimeResponsibility) : ℚ :=
  (result.map fun w => w.time).sum

/-- Task `k` with interval `ss` is solo: no other task is active at an instant
strictly between `ss.start` and `ss.stop`. A task is active from its start to
its stop, both included, so either there is no such instant, or the interval of
the other task ends at or before `ss.start`, or it begins at or after
`ss.stop`; a task of length zero strictly inside the interval of `k` is active
there. `solo_iff_no_instant` states this with the instants. -/
def Solo (m : IntervalMap) (k : String) (ss : StartStop) : Prop :=
  ∀ kv ∈ m, kv.1 ≠ k → ss.stop ≤ ss.start ∨ kv.2.stop ≤ ss.start ∨ ss.stop ≤ kv.2.start

instance (m : IntervalMap) (k : String) (ss : StartStop) : Decidable (Solo m k ss) := by
  unfold Solo; infer_instance

/-- The quotient `wallClockTime / wctr.time` of `printWallClockTimeResponsibilities`,
with `wallClockTime = stop - start`. A zero divisor gives `none`: the
floating-point quotient is then an infinity or not a number. -/
def parallelismFactor (ss : StartStop) (attributed : ℚ) : Option ℚ :=
  if attributed = 0 then none else some (((ss.stop - ss.start : ℤ) : ℚ) / attributed)

/-- A table with a single task of length zero. -/
def zeroLengthTable : IntervalMap := [("Z", ⟨5, 5⟩)]

/-- A table with two tasks over the same interval. -/
def twinTable : IntervalMap := [("A", ⟨0, 10⟩), ("B", ⟨0, 10⟩)]

/-- Nine tasks of length zero at the same instant. -/
def nineZeroLength : IntervalMap :=
  [("t0", ⟨5, 5⟩), ("t1", ⟨5, 5⟩), ("t2", ⟨5, 5⟩), ("t3", ⟨5, 5⟩), ("t4", ⟨5, 5⟩),
    ("t5", ⟨5, 5⟩), ("t6", ⟨5, 5⟩), ("t7", ⟨5, 5⟩), ("t8", ⟨5, 5⟩)]

/-- The arrangement in which the introsort behind `std::sort` in GNU libstdc++
leaves 18 elements that the comparator does not separate: the tenth element,
the elements after it in reverse, the first element, the second to ninth
element in reverse. -/
def tiedOrder18 (l : List Event) : List Event :=
  (l.drop 9).take 1 ++ (l.drop 10).reverse ++ l.take 1 ++ ((l.drop 1).take 8).reverse

/-- The events of the scenario table with the start of C ahead of the stops of
A and B at instant 10. -/
def scenarioStartFirst : List Event :=
  [⟨0, "A", true⟩, ⟨0, "B", true⟩, ⟨10, "C", true⟩, ⟨10, "A", false⟩, ⟨10, "B", false⟩,
    ⟨20, "C", false⟩]

/-- The table with every start and stop moved by `c`. -/
def shift (c : ℤ) (m : IntervalMap) : IntervalMap :=
  m.map fun kv => (kv.1, ⟨kv.2.start + c, kv.2.stop + c⟩)

/-- A table with an interval that stops before it starts. -/
def invertedTable : IntervalMap := [("A", ⟨0, 10⟩), ("X", ⟨7, 3⟩)]

/-! ## Log reader: the head of `parseNinjaLog` -/

/-- The constant `expectedFirstLine`. -/
def expectedFirstLine : String := "# ninja log v5"

/-- The two exceptions thrown by `parseNinjaLog`. -/
inductive ParseFailure where
  | couldNotOpen
  | unexpectedFirstLine (line : String)
deriving DecidableEq

/-- White space skipped by the stream extractions. -/
def isSpace (c : Char) : Bool :=
  c == ' ' || c == '\t' || c == '\n' || c == '\r' || c.toNat == 11 || c.toNat == 12

/-- Call `std::getline(fin, line)`: the characters up to the first line feed,
and the stream after that line feed. -/
def getline (content : List Char) : String × List Char :=
  (String.mk (content.takeWhile fun c => c != '\n'),
    (content.dropWhile fun c => c != '\n').drop 1)

/-- The stream after an optional sign. -/
def afterSign : List Char → List Char
  | '-' :: rest => rest
  | '+' :: rest => rest
  | cs => cs

/-- Whether the number begins with a minus sign. -/
def isNegative : List Char → Bool
  | '-' :: _ => true
  | _ => false

/-- Value of a run of decimal digits. -/
def digitsValue (ds : List Char) : ℕ :=
  ds.foldl (fun acc d => 10 * acc + (d.toNat - 48)) 0

/-- Extraction `fin >> x` for an `int64_t`: white space is skipped, then an
optional sign and at least one digit are read; no digit or a value outside the
64-bit range puts the stream in the failed state (`none`). -/
def readInt64 (cs : List Char) : Option (ℤ × List Char) :=
  let body := afterSign (cs.dropWhile isSpace)
  let ds := body.takeWhile Char.isDigit
  if ds = [] then none
  else
    let v : ℤ := if isNegative (cs.dropWhile isSpace) then -(digitsValue ds : ℤ)
      else (digitsValue ds : ℤ)
    if -(2 : ℤ) ^ 63 ≤ v ∧ v < (2 : ℤ) ^ 63 then some (v, body.dropWhile Char.isDigit) else none

/-- Extraction `fin >> x` for a `std::string`: white space is skipped, then the
characters up to the next white space are read; the extraction fails when there
is none. -/
def readString (cs : List Char) : Option (String × List Char) :=
  let body := cs.dropWhile isSpace
  let tok := body.takeWhile fun c => !isSpace c
  if tok = [] then none else some (String.mk tok, body.dropWhile fun c => !isSpace c)

/-- The condition of the loop: `fin >> startMs >> stopMs >> restatMtime >>
output >> hash`; `none` when one of the extractions fails. -/
def readRecord (cs : List Char) : Option (LogRecord × List Char) :=
  match readInt64 cs with
  | none => none
  | some (startMs, cs₁) =>
    match readInt64 cs₁ with
    | none => none
    | some (stopMs, cs₂) =>
      match readInt64 cs₂ with
      | none => none
      | some (restatMtime, cs₃) =>
        match readString cs₃ with
        | none => none
        | some (output, cs₄) =>
          match readString cs₄ with
          | none => none
          | some (hash, cs₅) => some (⟨startMs, stopMs, restatMtime, output, hash⟩, cs₅)

/-- The records read by the loop until the first extraction that fails; every
record consumes characters, so `fuel` at least the length of the stream is
never used up. -/
def readRecords : ℕ → List Char → List LogRecord
  | 0, _ => []
  | fuel + 1, cs =>
    match readRecord cs with
    | none => []
    | some (r, rest) => r :: readRecords fuel rest

/-- Function `parseNinjaLog`; the argument is the content of `.ninja_log`, or
`none` when the file cannot be opened. -/
def parseNinjaLog (file : Option (List Char)) : Except ParseFailure IntervalMap :=
  match file with
  | none => .error .couldNotOpen
  | some content =>
    if (getline content).1 ≠ expectedFirstLine then
      .error (.unexpectedFirstLine (getline content).1)
    else
      .ok (collect (readRecords (getline content).2.length (getline content).2))

/-- The stream `cs` yields the records `rs` by successive successful
extractions and is then at `final`. -/
inductive ReadsTo : List Char → List LogRecord → List Char → Prop where
  | done (cs : List Char) : ReadsTo cs [] cs
  | step {cs cs' final : List Char} {r : LogRecord} {rs : List LogRecord} :
      readRecord cs = some (r, cs') → ReadsTo cs' rs final → ReadsTo cs (r :: rs) final

/-- The body of a log whose second record does not begin with a number. -/
def malformedBody : List Char := "10 20 0 a.o h1\nxx 30 0 b.o h2\n40 50 0 c.o h3\n".toList

/-- The rest of `malformedBody` after its first record. -/
def malformedTail : List Char := "\nxx 30 0 b.o h2\n40 50 0 c.o h3\n".toList

/-- A log whose second record does not begin with a number. -/
def malformedLog : List Char :=
  "# ninja log v5\n10 20 0 a.o h1\nxx 30 0 b.o h2\n40 50 0 c.o h3\n".toList

/-- A log of an other format version. -/
def oldFormatLog : List Char := "# ninja log v4\n10 20 0 a.o h1\n".toList

/-! ## Result presenter: `printWallClockTimeResponsibilities` -/

/-- The numbers of one printed line: attributed time, wall-clock time of the
task, their quotient, and the output. -/
structure Row where
  wctr : ℚ
  wallClockTime : ℚ
  parallelism : Option ℚ
  output : String
deriving DecidableEq

/-- Body of the printing loop for one record; `none` when the output is not a
key of the table, where the source dereferences the end iterator. -/
def printRow (outputToStartStop : IntervalMap) (wctr : WallClockTimeResponsibility) :
    Option Row :=
  (outputToStartStop.lookup wctr.output).map fun ss =>
    ⟨wctr.time, ((ss.stop - ss.start : ℤ) : ℚ), parallelismFactor ss wctr.time, wctr.output⟩

/-- Function `printWallClockTimeResponsibilities`: the lines after the heading,
one per index `i < numLinesToPrint` after the adjustment of `numLinesToPrint`. -/
def printWallClockTimeResponsibilities
    (wallClockTimeResponsibilities : List WallClockTimeResponsibility)
    (outputToStartStop : IntervalMap) (numLinesToPrint : ℕ) : List (Option Row) :=
  let n := if numLinesToPrint = 0 ∨ numLinesToPrint > wallClockTimeResponsibilities.length
    then wallClockTimeResponsibilities.length else numLinesToPrint
  (List.range n).map fun i =>
    (wallClockTimeResponsibilities[i]?).bind (printRow outputToStartStop)

/-! ## Arithmetic of the accumulated durations -/

/-- The operations of the sweep on values of type `std::chrono::duration<double>`:
the literal `0s` of `emplace`, the conversion `duration<double>(e.time - previousTime)`
of a count of milliseconds, the assignment `+=`, and the division by
`activeTasks.size()`. -/
structure Arith where
  Dur : Type
  zero : Dur
  ofMs : ℤ → Dur
  add : Dur → Dur → Dur
  divSize : Dur → ℕ → Dur

/-- Laws that hold in exact arithmetic and for IEEE doubles alike: no tick
converts to `0s`, adding `0s` to a converted count or a converted count to `0s`
changes nothing, `0s` divided by a positive size is `0s`, and the division of a
converted count by the size 1 changes nothing. -/
structure Lawful (A : Arith) : Prop where
  ofMs_zero : A.ofMs 0 = A.zero
  zero_add : ∀ d, A.add A.zero (A.ofMs d) = A.ofMs d
  add_zero : ∀ d, A.add (A.ofMs d) A.zero = A.ofMs d
  zero_div : ∀ n, 0 < n → A.divSize A.zero n = A.zero
  div_one : ∀ d, A.divSize (A.ofMs d) 1 = A.ofMs d

/-- Exact arithmetic on rationals, in milliseconds: the arithmetic of `addWctr`. -/
abbrev exactArith : Arith :=
  ⟨ℚ, 0, fun d => (d : ℚ), fun a b => a + b, fun a n => a / (n : ℚ)⟩

/-- Position of the leading binary digit of `n`, found by halving at most
`fuel` times. -/
def log2Fuel : ℕ → ℕ → ℕ
  | 0, _ => 0
  | fuel + 1, n => if 2 ≤ n then log2Fuel fuel (n / 2) + 1 else 0

/-- Position of the leading binary digit of a positive natural number. -/
def natLog2 (n : ℕ) : ℕ := log2Fuel n n

/-- Binary exponent of a positive rational `a`: the `e` with `2^e ≤ a < 2^(e+1)`. -/
def floorLog2 (a : ℚ) : ℤ :=
  if (2 : ℚ) ^ ((natLog2 a.num.natAbs : ℤ) - (natLog2 a.den : ℤ)) ≤ a then
    (natLog2 a.num.natAbs : ℤ) - (natLog2 a.den : ℤ)
  else (natLog2 a.num.natAbs : ℤ) - (natLog2 a.den : ℤ) - 1

/-- Nearest integer, a tie going to the even neighbour. -/
def roundHalfEven (q : ℚ) : ℤ :=
  if q - (⌊q⌋ : ℚ) < 1 / 2 then ⌊q⌋
  else if 1 / 2 < q - (⌊q⌋ : ℚ) then ⌊q⌋ + 1
  else if ⌊q⌋ % 2 = 0 then ⌊q⌋ else ⌊q⌋ + 1

/-- Rounding of a positive rational to 53 significant binary digits. -/
def roundPos (x : ℚ) : ℚ :=
  (roundHalfEven (x / (2 : ℚ) ^ (floorLog2 x - 52)) : ℚ) * (2 : ℚ) ^ (floorLog2 x - 52)

/-- The double nearest to a rational, ties to even: the rounding of every
operation on `double` in the default rounding mode. The exponent is not
bounded: overflow and subnormal numbers are left out, and the durations of the
sweep are far from both. A double is the rational it stands for. -/
def roundDouble (x : ℚ) : ℚ :=
  if x = 0 then 0 else if 0 < x then roundPos x else -roundPos (-x)

/-- Conversion `duration<double>(ms)`, in seconds: the count is converted to
`double` and divided by 1000. -/
def doubleOfMs (d : ℤ) : ℚ := roundDouble (roundDouble (d : ℚ) / 1000)

/-- Sum of two doubles, as in `+=`. -/
def doubleAdd (a b : ℚ) : ℚ := roundDouble (a + b)

/-- Division by `activeTasks.size()`: the size is converted to `double`. -/
def doubleDivSize (a : ℚ) (n : ℕ) : ℚ := roundDouble (a / roundDouble (n : ℚ))

/-- The arithmetic of the program: doubles, in seconds. -/
abbrev doubleArith : Arith := ⟨ℚ, 0, doubleOfMs, doubleAdd, doubleDivSize⟩

/-- Local variables of the sweep loop, over an arithmetic `A`; a finished task
is the pair of its time and its output. -/
structure SweepStateIn (A : Arith) where
  activeTasks : List (String × A.Dur)
  finishedTasks : List (A.Dur × String)
  previousTime : ℤ

/-- State before the first event. -/
def SweepStateIn.init (A : Arith) : SweepStateIn A := ⟨[], [], 0⟩

/-- Inner loop over an arithmetic `A`: every active task receives
`duration<double>(elapsed) / activeTasks.size()`. -/
def addWctrIn (A : Arith) (activeTasks : List (String × A.Dur)) (elapsed : ℤ) :
    List (String × A.Dur) :=
  activeTasks.map fun kv => (kv.1, A.add kv.2 (A.divSize (A.ofMs elapsed) activeTasks.length))

/-- Call `activeTasks.emplace(output, 0s)` over an arithmetic `A`. -/
def emplaceIn (A : Arith) (activeTasks : List (String × A.Dur)) (output : String) :
    List (String × A.Dur) :=
  match activeTasks.lookup output with
  | some _ => activeTasks
  | none => activeTasks ++ [(output, A.zero)]

/-- Call `activeTasks.erase(it)` over an arithmetic `A`. -/
def eraseKeyIn (A : Arith) (activeTasks : List (String × A.Dur)) (output : String) :
    List (String × A.Dur) :=
  activeTasks.filter fun kv => kv.1 != output

/-- Body of the sweep loop for one event, over an arithmetic `A`. -/
def stepIn (A : Arith) (s : SweepStateIn A) (e : Event) : Except Failure (SweepStateIn A) :=
  let active := addWctrIn A s.activeTasks (e.time - s.previousTime)
  if e.isStart then
    .ok ⟨emplaceIn A active e.output, s.finishedTasks, e.time⟩
  else
    match active.lookup e.output with
    | none => .error (.taskNotFound e.output)
    | some d => .ok ⟨eraseKeyIn A active e.output, s.finishedTasks ++ [(d, e.output)], e.time⟩

/-- The sweep loop over the events, over an arithmetic `A`. -/
def sweepIn (A : Arith) (s : SweepStateIn A) : List Event → Except Failure (SweepStateIn A)
  | [] => .ok s
  | e :: rest =>
    match stepIn A s e with
    | .error err => .error err
    | .ok s' => sweepIn A s' rest

/-- The finished tasks of `processEventsToWallClockTimeResponsibilities` over an
arithmetic `A`, in the order in which the tasks stop: the final sort only
rearranges them. -/
def finishedIn (A : Arith) (sortedEvents : List Event) : Except Failure (List (A.Dur × String)) :=
  match sweepIn A (SweepStateIn.init A) sortedEvents with
  | .error err => .error err
  | .ok s => .ok s.finishedTasks

/-- Time of the first record of `output` among finished tasks. -/
def attributedIn (A : Arith) (finished : List (A.Dur × String)) (output : String) :
    Option A.Dur :=
  (finished.find? fun w => w.2 == output).map Prod.fst

/-- The quotient `wallClockTime / wctr.time` of `printWallClockTimeResponsibilities`
in doubles, with `wallClockTime = duration<double>(stop - start)`. A zero
divisor gives `none`: the quotient is then an infinity or not a number. -/
def parallelismDouble (ss : StartStop) (attributed : ℚ) : Option ℚ :=
  if attributed = 0 then none
  else some (roundDouble (doubleOfMs (ss.stop - ss.start) / attributed))

/-- A table in which a task of length zero lies inside the interval of another
task: A=[0,300], B=[100,100]. -/
def roundingTable : IntervalMap := [("A", ⟨0, 300⟩), ("B", ⟨100, 100⟩)]

/-- A state of the sweep over an arithmetic `A` and a state of the exact sweep
that went through the same branches: same keys, same outputs, same time. -/
structure Sim (A : Arith) (sA : SweepStateIn A) (s : SweepState) : Prop where
  keys : sA.activeTasks.map Prod.fst = s.activeTasks.map Prod.fst
  outputs : sA.finishedTasks.map Prod.snd = s.finishedTasks.map fun w => w.output
  time : sA.previousTime = s.previousTime

/-- Values of a solo task `k` with interval `ss` during the sweep: `0s` until
the sweep reaches the stop of the task, the converted length of the interval
from then on. -/
structure SoloInv (A : Arith) (k : String) (ss : StartStop) (sA : SweepStateIn A) : Prop where
  active : ∀ v, (k, v) ∈ sA.activeTasks →
    v = if sA.previousTime = ss.stop then A.ofMs (ss.stop - ss.start) else A.zero
  finished : ∀ v, (v, k) ∈ sA.finishedTasks → v = A.ofMs (ss.stop - ss.start)

/-! ## Invariant of the sweep -/

/-- An event list the sequencer may hand to the sweep: the events of the table,
ascending by time, the start of every task ahead of its stop. -/
structure Admissible (m : IntervalMap) (evs : List Event) : Prop where
  nodupKeys : NodupKeys m
  perm : evs.Perm (pushEvents m)
  sorted : evs.Sorted timeLE
  startFirst : ∀ kv ∈ m, ∀ pre post, evs = pre ++ stopEvent kv :: post → startEvent kv ∈ pre

/-- State of the sweep after the events `pre` of the table `m`: the active
tasks are those started and not stopped, the finished ones those stopped, and
every accumulated value is the gap sum over the instants swept so far. -/
structure SweepInv (m : IntervalMap) (pre : List Event) (s : SweepState) : Prop where
  prev : ∀ pre' e₀, pre = pre' ++ [e₀] → s.previousTime = e₀.time
  nodupActive : (s.activeTasks.map Prod.fst).Nodup
  active_sound : ∀ k v, (k, v) ∈ s.activeTasks → ∃ ss, (k, ss) ∈ m ∧
    startEvent (k, ss) ∈ pre ∧ stopEvent (k, ss) ∉ pre ∧ v = gapSum m ss (pre.map Event.time)
  active_complete : ∀ kv ∈ m, startEvent kv ∈ pre → stopEvent kv ∉ pre →
    kv.1 ∈ s.activeTasks.map Prod.fst
  nodupFinished : (s.finishedTasks.map fun w => w.output).Nodup
  finished_sound : ∀ w ∈ s.finishedTasks, ∃ ss, (w.output, ss) ∈ m ∧
    stopEvent (w.output, ss) ∈ pre ∧ w.time = gapSum m ss (pre.map Event.time)
  finished_complete : ∀ kv ∈ m, stopEvent kv ∈ pre →
    kv.1 ∈ s.finishedTasks.map fun w => w.output

/-! ## Gap sums and millisecond sums -/

theorem gapSum_cons_cons (m : IntervalMap) (ss : StartStop) (a b : ℤ) (rest : List ℤ) :
    gapSum m ss (a :: b :: rest) = gapShare m ss a b + gapSum m ss (b :: rest) := rfl

theorem gapSum_singleton (m : IntervalMap) (ss : StartStop) (a : ℤ) :
    gapSum m ss [a] = 0 := rfl

theorem gapSum_nil (m : IntervalMap) (ss : StartStop) : gapSum m ss [] = 0 := rfl

/-- A gap with no start or stop instant strictly inside is shared like each of
its milliseconds. -/
theorem gapShare_eq_sum_cellShare (m : IntervalMap) (ss : StartStop) (a b : ℤ) (hab : a ≤ b)
    (hgap : ∀ kv ∈ m, (kv.2.start ≤ a ∨ b ≤ kv.2.start) ∧ (kv.2.stop ≤ a ∨ b ≤ kv.2.stop))
    (hss : (ss.start ≤ a ∨ b ≤ ss.start) ∧ (ss.stop ≤ a ∨ b ≤ ss.stop)) :
    gapShare m ss a b = ∑ t ∈ Finset.Ico a b, cellShare m ss t := by
  have hcell : ∀ t ∈ Finset.Ico a b, cellShare m ss t =
      if ss.start ≤ a ∧ b ≤ ss.stop then 1 / (coverCount m a b : ℚ) else 0 := by
    intro t ht
    rw [Finset.mem_Ico] at ht
    have hcount : activeCount m t = coverCount m a b := by
      unfold activeCount coverCount
      apply List.countP_congr
      intro kv hkv
      have := hgap kv hkv
      simp only [decide_eq_true_eq]
      constructor <;> rintro ⟨h₁, h₂⟩ <;> constructor <;> omega
    unfold cellShare
    rw [hcount]
    have hiff : (ss.start ≤ t ∧ t < ss.stop) ↔ (ss.start ≤ a ∧ b ≤ ss.stop) := by
      constructor <;> rintro ⟨h₁, h₂⟩ <;> constructor <;> omega
    simp only [hiff]
  rw [Finset.sum_congr rfl hcell, Finset.sum_const, Int.card_Ico, gapShare]
  split_ifs with h
  · rw [nsmul_eq_mul, Int.cast_sub]
    have : (((b - a).toNat : ℕ) : ℚ) = (b : ℚ) - (a : ℚ) := by
      have h1 : (((b - a).toNat : ℕ) : ℤ) = b - a := Int.toNat_of_nonneg (by omega)
      have h2 : ((((b - a).toNat : ℕ) : ℤ) : ℚ) = ((b - a : ℤ) : ℚ) := by rw [h1]
      rw [Int.cast_natCast, Int.cast_sub] at h2
      exact h2
    rw [this, div_eq_mul_one_div]
  · simp

theorem mem_allTimes {m : IntervalMap} {x : ℤ} :
    x ∈ allTimes m ↔ ∃ kv ∈ m, kv.2.start = x ∨ kv.2.stop = x := by
  unfold allTimes
  simp only [List.mem_append, List.mem_map]
  constructor
  · rintro (⟨kv, hkv, rfl⟩ | ⟨kv, hkv, rfl⟩)
    · exact ⟨kv, hkv, Or.inl rfl⟩
    · exact ⟨kv, hkv, Or.inr rfl⟩
  · rintro ⟨kv, hkv, h | h⟩
    · exact Or.inl ⟨kv, hkv, h⟩
    · exact Or.inr ⟨kv, hkv, h⟩

theorem sum_Ico_int_consecutive (f : ℤ → ℚ) {a b c : ℤ} (hab : a ≤ b) (hbc : b ≤ c) :
    ∑ t ∈ Finset.Ico a b, f t + ∑ t ∈ Finset.Ico b c, f t = ∑ t ∈ Finset.Ico a c, f t := by
  rw [← Finset.sum_union (Finset.Ico_disjoint_Ico_consecutive a b c),
    Finset.Ico_union_Ico_eq_Ico hab hbc]

theorem le_getLastD_of_sorted :
    ∀ (L : List ℤ) (a : ℤ), (a :: L).Sorted (· ≤ ·) → ∀ x ∈ a :: L, x ≤ L.getLastD a := by
  intro L
  induction L with
  | nil =>
    intro a _ x hx
    simp only [List.mem_singleton] at hx
    simp [hx]
  | cons b rest ih =>
    intro a hs x hx
    rw [List.getLastD_cons]
    have hs' : (b :: rest).Sorted (· ≤ ·) := hs.of_cons
    rcases List.mem_cons.1 hx with rfl | hx'
    · exact le_trans (List.rel_of_sorted_cons hs b (List.mem_cons_self _ _))
        (ih b hs' b (List.mem_cons_self _ _))
    · exact ih b hs' x hx'

/-- Over an ascending list of instants that contains every start and stop
instant from its head on, the gap sum is the millisecond sum between the first
and the last instant. -/
theorem gapSum_eq_sum_Ico (m : IntervalMap) (ss : StartStop) (hss : ∃ k, (k, ss) ∈ m) :
    ∀ (L : List ℤ) (a : ℤ), (a :: L).Sorted (· ≤ ·) →
      (∀ x ∈ allTimes m, a ≤ x → x ∈ a :: L) →
      gapSum m ss (a :: L) = ∑ t ∈ Finset.Ico a (L.getLastD a), cellShare m ss t := by
  intro L
  induction L with
  | nil =>
    intro a _ _
    simp [gapSum_singleton]
  | cons b rest ih =>
    intro a hs hT
    have hs' : (b :: rest).Sorted (· ≤ ·) := hs.of_cons
    have hab : a ≤ b := List.rel_of_sorted_cons hs b (List.mem_cons_self _ _)
    have hnone : ∀ x ∈ allTimes m, x ≤ a ∨ b ≤ x := by
      intro x hx
      by_cases hax : a ≤ x
      · rcases List.mem_cons.1 (hT x hx hax) with h | h
        · exact Or.inl (le_of_eq h)
        · exact Or.inr (by
            rcases List.mem_cons.1 h with h' | h'
            · exact le_of_eq h'.symm
            · exact List.rel_of_sorted_cons hs' x h')
      · exact Or.inl (le_of_lt (not_le.1 hax))
    have hgap : ∀ kv ∈ m, (kv.2.start ≤ a ∨ b ≤ kv.2.start) ∧ (kv.2.stop ≤ a ∨ b ≤ kv.2.stop) :=
      fun kv hkv => ⟨hnone _ (mem_allTimes.2 ⟨kv, hkv, Or.inl rfl⟩),
        hnone _ (mem_allTimes.2 ⟨kv, hkv, Or.inr rfl⟩)⟩
    obtain ⟨k, hk⟩ := hss
    have hT' : ∀ x ∈ allTimes m, b ≤ x → x ∈ b :: rest := by
      intro x hx hbx
      rcases List.mem_cons.1 (hT x hx (le_trans hab hbx)) with h | h
      · have : x = b := le_antisymm (h ▸ hab) hbx
        exact this ▸ List.mem_cons_self _ _
      · exact h
    rw [gapSum_cons_cons, gapShare_eq_sum_cellShare m ss a b hab hgap (hgap (k, ss) hk),
      ih b hs' hT', List.getLastD_cons]
    exact sum_Ico_int_consecutive _ hab
      (le_getLastD_of_sorted rest b hs' b (List.mem_cons_self _ _))

/-- Over an ascending list of instants that contains every start and stop
instant of the table, the gap sum of a task is its millisecond sum. -/
theorem gapSum_eq_cellSum (m : IntervalMap) (k : String) (ss : StartStop) (hk : (k, ss) ∈ m)
    (L : List ℤ) (hs : L.Sorted (· ≤ ·)) (hL : ∀ x ∈ allTimes m, x ∈ L) :
    gapSum m ss L = cellSum m ss := by
  have hstart : ss.start ∈ L := hL _ (mem_allTimes.2 ⟨(k, ss), hk, Or.inl rfl⟩)
  have hstop : ss.stop ∈ L := hL _ (mem_allTimes.2 ⟨(k, ss), hk, Or.inr rfl⟩)
  cases L with
  | nil => simp at hstart
  | cons a L =>
    rw [gapSum_eq_sum_Ico m ss ⟨k, hk⟩ L a hs (fun x hx _ => hL x hx)]
    have h1 : a ≤ ss.start := by
      rcases List.mem_cons.1 hstart with h | h
      · exact le_of_eq h.symm
      · exact List.rel_of_sorted_cons hs _ h
    have h2 : ss.stop ≤ L.getLastD a := le_getLastD_of_sorted L a hs _ hstop
    unfold cellSum cellShare
    rw [← Finset.sum_filter]
    apply Finset.sum_congr _ (fun _ _ => rfl)
    ext t
    simp only [Finset.mem_filter, Finset.mem_Ico]
    constructor
    · rintro ⟨_, h⟩; exact h
    · rintro ⟨h3, h4⟩; exact ⟨⟨by omega, by omega⟩, h3, h4⟩

theorem sorted_eventTimes (m : IntervalMap) : (eventTimes m).Sorted (· ≤ ·) :=
  List.sorted_insertionSort _ _

theorem mem_eventTimes {m : IntervalMap} {x : ℤ} : x ∈ eventTimes m ↔ x ∈ allTimes m := by
  unfold eventTimes
  rw [List.mem_insertionSort, List.mem_dedup]

/-- The distinct event times are strictly ascending. -/
theorem eventTimes_strictly_sorted (m : IntervalMap) : (eventTimes m).Sorted (· < ·) := by
  apply (sorted_eventTimes m).lt_of_le
  unfold eventTimes
  exact (List.perm_insertionSort _ _).nodup_iff.2 (List.nodup_dedup _)

/-- The fair-share reference value of a task is its millisecond sum. -/
theorem fairShare_eq_cellSum (m : IntervalMap) (k : String) (ss : StartStop) (hk : (k, ss) ∈ m) :
    fairShare m ss = cellSum m ss :=
  gapSum_eq_cellSum m k ss hk _ (sorted_eventTimes m) (fun _ hx => mem_eventTimes.2 hx)

/-! ## Events of a table -/

theorem mem_pushEvents {m : IntervalMap} {e : Event} :
    e ∈ pushEvents m ↔ ∃ kv ∈ m, e = startEvent kv ∨ e = stopEvent kv := by
  induction m with
  | nil => simp [pushEvents]
  | cons kv rest ih =>
    simp only [pushEvents, List.mem_cons, ih]
    constructor
    · rintro (h | h | ⟨kv', hkv', h⟩)
      · exact ⟨kv, Or.inl rfl, Or.inl h⟩
      · exact ⟨kv, Or.inl rfl, Or.inr h⟩
      · exact ⟨kv', Or.inr hkv', h⟩
    · rintro ⟨kv', rfl | hkv', h⟩
      · rcases h with h | h
        · exact Or.inl h
        · exact Or.inr (Or.inl h)
      · exact Or.inr (Or.inr ⟨kv', hkv', h⟩)

theorem length_pushEvents (m : IntervalMap) : (pushEvents m).length = 2 * m.length := by
  induction m with
  | nil => rfl
  | cons kv rest ih => simp only [pushEvents, List.length_cons, ih]; omega

theorem startEvent_ne_stopEvent (kv kv' : String × StartStop) : startEvent kv ≠ stopEvent kv' := by
  intro h
  have := congrArg Event.isStart h
  simp [startEvent, stopEvent] at this

theorem nodupKeys_eq {m : IntervalMap} (hnd : NodupKeys m) {kv kv' : String × StartStop}
    (h : kv ∈ m) (h' : kv' ∈ m) (hk : kv.1 = kv'.1) : kv = kv' :=
  List.inj_on_of_nodup_map hnd h h' hk

theorem nodup_pushEvents {m : IntervalMap} (hnd : NodupKeys m) : (pushEvents m).Nodup := by
  induction m with
  | nil => simp [pushEvents]
  | cons kv rest ih =>
    have hnd' : NodupKeys rest := (List.nodup_cons.1 hnd).2
    have hk : kv.1 ∉ rest.map Prod.fst := (List.nodup_cons.1 hnd).1
    have hfresh : ∀ e ∈ pushEvents rest, e.output ≠ kv.1 := by
      intro e he heq
      obtain ⟨kv', hkv', h | h⟩ := mem_pushEvents.1 he
      · exact hk (List.mem_map.2 ⟨kv', hkv', by rw [← heq, h]; rfl⟩)
      · exact hk (List.mem_map.2 ⟨kv', hkv', by rw [← heq, h]; rfl⟩)
    simp only [pushEvents, List.nodup_cons, List.mem_cons, not_or]
    exact ⟨⟨startEvent_ne_stopEvent kv kv, fun h => hfresh _ h rfl⟩, fun h => hfresh _ h rfl, ih hnd'⟩

/-! ## Operations on the active set -/

theorem keys_addWctr (act : List (String × ℚ)) (d : ℤ) :
    (addWctr act d).map Prod.fst = act.map Prod.fst := by
  unfold addWctr
  rw [List.map_map]
  rfl

theorem mem_addWctr {act : List (String × ℚ)} {d : ℤ} {k : String} {v : ℚ} :
    (k, v) ∈ addWctr act d ↔ ∃ v₀, (k, v₀) ∈ act ∧ v = v₀ + (d : ℚ) / (act.length : ℚ) := by
  unfold addWctr
  simp only [List.mem_map, Prod.mk.injEq, Prod.exists]
  constructor
  · rintro ⟨k', v₀, hmem, rfl, rfl⟩
    exact ⟨v₀, hmem, rfl⟩
  · rintro ⟨v₀, hmem, rfl⟩
    exact ⟨k, v₀, hmem, rfl, rfl⟩

theorem lookup_eq_none_iff_keys {β : Type} {act : List (String × β)} {k : String} :
    act.lookup k = none ↔ k ∉ act.map Prod.fst := by
  rw [List.lookup_eq_none_iff]
  simp only [List.mem_map, Prod.exists, exists_and_right, exists_eq_right, not_exists, bne_iff_ne,
    ne_eq, Prod.forall]
  constructor
  · intro h v hv
    exact h k v hv rfl
  · intro h k' v hv hk
    exact h v (hk ▸ hv)

theorem mem_of_lookup_eq_some {β : Type} {act : List (String × β)} {k : String} {v : β}
    (h : act.lookup k = some v) : (k, v) ∈ act := by
  obtain ⟨l₁, l₂, rfl, _⟩ := List.lookup_eq_some_iff.1 h
  simp

theorem emplace_of_not_mem {act : List (String × ℚ)} {k : String}
    (h : k ∉ act.map Prod.fst) : emplace act k = act ++ [(k, 0)] := by
  unfold emplace
  rw [lookup_eq_none_iff_keys.2 h]

theorem emplace_of_mem {act : List (String × ℚ)} {k : String}
    (h : k ∈ act.map Prod.fst) : emplace act k = act := by
  unfold emplace
  cases hl : act.lookup k with
  | none => exact absurd h (lookup_eq_none_iff_keys.1 hl)
  | some v => rfl

theorem mem_eraseKey {act : List (String × ℚ)} {k : String} {kv : String × ℚ} :
    kv ∈ eraseKey act k ↔ kv ∈ act ∧ kv.1 ≠ k := by
  unfold eraseKey
  simp [List.mem_filter]

theorem keys_eraseKey (act : List (String × ℚ)) (k : String) :
    (eraseKey act k).map Prod.fst = (act.map Prod.fst).filter (fun k' => k' != k) := by
  unfold eraseKey
  rw [List.filter_map]
  rfl

/-! ## Gap sums along the sweep -/

theorem gapSum_append_pair (m : IntervalMap) (ss : StartStop) (a b : ℤ) :
    ∀ l : List ℤ, gapSum m ss (l ++ [a, b]) = gapSum m ss (l ++ [a]) + gapShare m ss a b := by
  intro l
  induction l with
  | nil => simp [gapSum_cons_cons, gapSum_singleton]
  | cons x l ih =>
    cases l with
    | nil =>
      simp only [List.nil_append, List.cons_append, gapSum_cons_cons, gapSum_singleton] at ih ⊢
      ring
    | cons y l =>
      simp only [List.cons_append, gapSum_cons_cons] at ih ⊢
      rw [ih]
      ring

theorem gapSum_eq_zero_of_le_start (m : IntervalMap) (ss : StartStop) :
    ∀ L : List ℤ, L.Sorted (· ≤ ·) → (∀ x ∈ L, x ≤ ss.start) → gapSum m ss L = 0 := by
  intro L
  induction L with
  | nil => intro _ _; rfl
  | cons a L ih =>
    intro hs hle
    cases L with
    | nil => rfl
    | cons b rest =>
      have hab : a ≤ b := List.rel_of_sorted_cons hs b (List.mem_cons_self _ _)
      have hb : b ≤ ss.start := hle b (by simp)
      rw [gapSum_cons_cons, ih hs.of_cons (fun x hx => hle x (List.mem_cons_of_mem _ hx)), add_zero]
      unfold gapShare
      split_ifs with h
      · have : b - a = 0 := by omega
        rw [this]; simp
      · rfl

theorem sorted_map_time {evs : List Event} (h : evs.Sorted timeLE) :
    (evs.map Event.time).Sorted (· ≤ ·) := by
  unfold List.Sorted at h ⊢
  rw [List.pairwise_map]
  exact h

theorem Admissible.nodup {m : IntervalMap} {evs : List Event} (hc : Admissible m evs) :
    evs.Nodup :=
  hc.perm.nodup_iff.2 (nodup_pushEvents hc.nodupKeys)

theorem Admissible.mem_iff {m : IntervalMap} {evs : List Event} (hc : Admissible m evs)
    {e : Event} : e ∈ evs ↔ ∃ kv ∈ m, e = startEvent kv ∨ e = stopEvent kv := by
  rw [hc.perm.mem_iff, mem_pushEvents]

theorem Admissible.not_mem_pre {m : IntervalMap} {pre post : List Event} {e : Event}
    (hc : Admissible m (pre ++ e :: post)) : e ∉ pre := by
  intro h
  have := (List.nodup_append.1 hc.nodup).2.2
  exact this h (List.mem_cons_self _ _)

theorem Admissible.pre_le {m : IntervalMap} {pre post : List Event} {e : Event}
    (hc : Admissible m (pre ++ e :: post)) : ∀ x ∈ pre, x.time ≤ e.time := by
  intro x hx
  exact (List.pairwise_append.1 hc.sorted).2.2 x hx e (List.mem_cons_self _ _)

theorem Admissible.post_ge {m : IntervalMap} {pre post : List Event} {e : Event}
    (hc : Admissible m (pre ++ e :: post)) : ∀ x ∈ post, e.time ≤ x.time := by
  intro x hx
  have h := (List.pairwise_append.1 hc.sorted).2.1
  exact List.rel_of_sorted_cons h x hx

theorem Admissible.pre_sorted {m : IntervalMap} {pre post : List Event} {e : Event}
    (hc : Admissible m (pre ++ e :: post)) : (pre ++ [e]).Sorted timeLE := by
  have h : (pre ++ [e] ++ post).Sorted timeLE := by
    rw [List.append_assoc]; exact hc.sorted
  exact (List.pairwise_append.1 h).1

/-- An event of the table that is not yet swept is not earlier than the next event. -/
theorem Admissible.time_ge_of_not_mem_pre {m : IntervalMap} {pre post : List Event} {e : Event}
    (hc : Admissible m (pre ++ e :: post)) {x : Event} (hx : x ∈ pre ++ e :: post)
    (hpre : x ∉ pre) : e.time ≤ x.time := by
  rcases List.mem_append.1 hx with h | h
  · exact absurd h hpre
  · rcases List.mem_cons.1 h with rfl | h'
    · exact le_refl _
    · exact hc.post_ge x h'

theorem SweepInv.prev_ge {m : IntervalMap} {pre post : List Event} {e : Event} {s : SweepState}
    (hc : Admissible m (pre ++ e :: post)) (hinv : SweepInv m pre s) :
    ∀ x ∈ pre, x.time ≤ s.previousTime := by
  intro x hx
  rcases List.eq_nil_or_concat pre with rfl | ⟨pre', e₀, rfl⟩
  · simp at hx
  · rw [List.concat_eq_append] at hx hc hinv
    rw [hinv.prev pre' e₀ rfl]
    have hs : (pre' ++ [e₀]).Sorted timeLE := by
      have := hc.pre_sorted
      exact (List.pairwise_append.1 this).1
    rcases List.mem_append.1 hx with h | h
    · exact (List.pairwise_append.1 hs).2.2 x h e₀ (List.mem_singleton_self _)
    · rw [List.mem_singleton.1 h]

theorem SweepInv.prev_le {m : IntervalMap} {pre post : List Event} {e : Event} {s : SweepState}
    (hc : Admissible m (pre ++ e :: post)) (hinv : SweepInv m pre s) (hne : pre ≠ []) :
    s.previousTime ≤ e.time := by
  rcases List.eq_nil_or_concat pre with rfl | ⟨pre', e₀, rfl⟩
  · exact absurd rfl hne
  · rw [List.concat_eq_append] at hc hinv
    rw [hinv.prev pre' e₀ rfl]
    exact hc.pre_le e₀ (by simp)

/-- Appending one instant to a non-empty sweep adds the share of the last gap. -/
theorem SweepInv.gapSum_snoc {m : IntervalMap} {pre : List Event} {s : SweepState}
    (hinv : SweepInv m pre s) (hne : pre ≠ []) (ss : StartStop) (e : Event) :
    gapSum m ss ((pre ++ [e]).map Event.time) =
      gapSum m ss (pre.map Event.time) + gapShare m ss s.previousTime e.time := by
  rcases List.eq_nil_or_concat pre with rfl | ⟨pre', e₀, rfl⟩
  · exact absurd rfl hne
  · rw [List.concat_eq_append] at hinv ⊢
    rw [hinv.prev pre' e₀ rfl]
    simp only [List.map_append, List.map_cons, List.map_nil, List.append_assoc,
      List.singleton_append]
    exact gapSum_append_pair m ss e₀.time e.time _

/-- While time advances, the active set has as many entries as tasks cover the gap. -/
theorem SweepInv.length_active {m : IntervalMap} {pre post : List Event} {e : Event}
    {s : SweepState} (hc : Admissible m (pre ++ e :: post)) (hinv : SweepInv m pre s)
    (hlt : s.previousTime < e.time) :
    s.activeTasks.length = coverCount m s.previousTime e.time := by
  unfold coverCount
  rw [List.countP_eq_length_filter, ← List.length_map s.activeTasks Prod.fst,
    ← List.length_map (List.filter _ m) Prod.fst]
  apply List.Perm.length_eq
  have hnd2 : ((m.filter fun kv => decide (kv.2.start ≤ s.previousTime ∧ e.time ≤ kv.2.stop)).map
      Prod.fst).Nodup := by
    have : List.Sublist ((m.filter fun kv =>
        decide (kv.2.start ≤ s.previousTime ∧ e.time ≤ kv.2.stop)).map Prod.fst)
        (m.map Prod.fst) := (List.filter_sublist m).map _
    exact this.nodup hc.nodupKeys
  rw [List.perm_ext_iff_of_nodup hinv.nodupActive hnd2]
  intro k
  simp only [List.mem_map, List.mem_filter, decide_eq_true_eq, Prod.exists, exists_and_right,
    exists_eq_right]
  constructor
  · rintro ⟨v, hv⟩
    obtain ⟨ss, hm, hstart, hstop, _⟩ := hinv.active_sound k v hv
    refine ⟨ss, hm, ?_, ?_⟩
    · exact hinv.prev_ge hc _ hstart
    · exact hc.time_ge_of_not_mem_pre (hc.mem_iff.2 ⟨(k, ss), hm, Or.inr rfl⟩) hstop
  · rintro ⟨ss, hm, h₁, h₂⟩
    have hstart : startEvent (k, ss) ∈ pre := by
      by_contra hcon
      have := hc.time_ge_of_not_mem_pre (hc.mem_iff.2 ⟨(k, ss), hm, Or.inl rfl⟩) hcon
      have h3 : (startEvent (k, ss)).time = ss.start := rfl
      omega
    have hstop : stopEvent (k, ss) ∉ pre := by
      intro hcon
      have := hinv.prev_ge hc _ hcon
      have h3 : (stopEvent (k, ss)).time = ss.stop := rfl
      omega
    have := hinv.active_complete (k, ss) hm hstart hstop
    simpa using this

/-- The amount the inner loop adds to an active task is the share of the last gap. -/
theorem SweepInv.active_value {m : IntervalMap} {pre post : List Event} {e : Event}
    {s : SweepState} (hc : Admissible m (pre ++ e :: post)) (hinv : SweepInv m pre s)
    {k : String} {ss : StartStop} (hm : (k, ss) ∈ m) (hstart : startEvent (k, ss) ∈ pre)
    (hstop : stopEvent (k, ss) ∉ pre) :
    gapSum m ss ((pre ++ [e]).map Event.time) = gapSum m ss (pre.map Event.time) +
      ((e.time - s.previousTime : ℤ) : ℚ) / (s.activeTasks.length : ℚ) := by
  have hne : pre ≠ [] := List.ne_nil_of_mem hstart
  rw [hinv.gapSum_snoc hne]
  congr 1
  have h₁ : ss.start ≤ s.previousTime := hinv.prev_ge hc _ hstart
  have h₂ : e.time ≤ ss.stop :=
    hc.time_ge_of_not_mem_pre (hc.mem_iff.2 ⟨(k, ss), hm, Or.inr rfl⟩) hstop
  have h₃ : s.previousTime ≤ e.time := hinv.prev_le hc hne
  unfold gapShare
  rw [if_pos ⟨h₁, h₂⟩]
  rcases lt_or_eq_of_le h₃ with hlt | heq
  · rw [hinv.length_active hc hlt]
  · rw [heq]; simp

/-- A finished task receives nothing from later gaps. -/
theorem SweepInv.finished_value {m : IntervalMap} {pre post : List Event} {e : Event}
    {s : SweepState} (hc : Admissible m (pre ++ e :: post)) (hinv : SweepInv m pre s)
    {k : String} {ss : StartStop} (hstop : stopEvent (k, ss) ∈ pre) :
    gapSum m ss ((pre ++ [e]).map Event.time) = gapSum m ss (pre.map Event.time) := by
  have hne : pre ≠ [] := List.ne_nil_of_mem hstop
  rw [hinv.gapSum_snoc hne]
  have h₁ : ss.stop ≤ s.previousTime := hinv.prev_ge hc _ hstop
  have h₃ : s.previousTime ≤ e.time := hinv.prev_le hc hne
  unfold gapShare
  split_ifs with h
  · have : e.time - s.previousTime = 0 := by omega
    rw [this]; simp
  · simp

/-- A task that starts now has received nothing yet. -/
theorem Admissible.started_value {m : IntervalMap} {pre post : List Event}
    {kv : String × StartStop} (hc : Admissible m (pre ++ startEvent kv :: post)) :
    gapSum m kv.2 ((pre ++ [startEvent kv]).map Event.time) = 0 := by
  apply gapSum_eq_zero_of_le_start m kv.2 _ (sorted_map_time hc.pre_sorted)
  intro x hx
  obtain ⟨y, hy, rfl⟩ := List.mem_map.1 hx
  rcases List.mem_append.1 hy with h | h
  · exact hc.pre_le y h
  · rw [List.mem_singleton.1 h]; exact le_refl _

/-- The stop of a task is not swept before its start. -/
theorem Admissible.stop_not_mem_pre {m : IntervalMap} {pre post : List Event}
    {kv : String × StartStop} (hc : Admissible m (pre ++ startEvent kv :: post))
    (hkv : kv ∈ m) : stopEvent kv ∉ pre := by
  intro hcon
  obtain ⟨a, b, rfl⟩ := List.append_of_mem hcon
  have h := hc.startFirst kv hkv a (b ++ startEvent kv :: post) (by simp)
  exact hc.not_mem_pre (List.mem_append_left _ h)

theorem append_singleton_last {pre pre' : List Event} {e e₀ : Event}
    (h : pre ++ [e] = pre' ++ [e₀]) : e = e₀ := by
  have := congrArg List.getLast? h
  simpa using this

/-! ## One step of the sweep keeps the invariant -/

theorem step_startEvent (s : SweepState) (kv : String × StartStop) :
    step s (startEvent kv) = .ok ⟨emplace (addWctr s.activeTasks (kv.2.start - s.previousTime)) kv.1,
      s.finishedTasks, kv.2.start⟩ := rfl

theorem step_stopEvent (s : SweepState) (kv : String × StartStop) :
    step s (stopEvent kv) =
      match (addWctr s.activeTasks (kv.2.stop - s.previousTime)).lookup kv.1 with
      | none => .error (.taskNotFound kv.1)
      | some d => .ok ⟨eraseKey (addWctr s.activeTasks (kv.2.stop - s.previousTime)) kv.1,
          s.finishedTasks ++ [⟨d, kv.1⟩], kv.2.stop⟩ := rfl

theorem step_start_inv {m : IntervalMap} {pre post : List Event} {kv : String × StartStop}
    {s : SweepState} (hc : Admissible m (pre ++ startEvent kv :: post)) (hkv : kv ∈ m)
    (hinv : SweepInv m pre s) :
    ∃ s', step s (startEvent kv) = .ok s' ∧ SweepInv m (pre ++ [startEvent kv]) s' := by
  have hfresh : kv.1 ∉ (addWctr s.activeTasks (kv.2.start - s.previousTime)).map Prod.fst := by
    rw [keys_addWctr]
    intro hcon
    obtain ⟨⟨k, v⟩, hmem, hk⟩ := List.mem_map.1 hcon
    simp only at hk
    obtain ⟨ss, hm, hstart, _, _⟩ := hinv.active_sound k v hmem
    have : (k, ss) = kv := nodupKeys_eq hc.nodupKeys hm hkv hk
    rw [this] at hstart
    exact hc.not_mem_pre hstart
  refine ⟨_, step_startEvent s kv, ?_⟩
  rw [emplace_of_not_mem hfresh]
  constructor
  · intro pre' e₀ h
    rw [← append_singleton_last h]
    rfl
  · show ((addWctr s.activeTasks _ ++ [(kv.1, 0)]).map Prod.fst).Nodup
    rw [List.map_append, List.nodup_append]
    refine ⟨by rw [keys_addWctr]; exact hinv.nodupActive, by simp, ?_⟩
    intro k hk hk'
    simp only [List.map_cons, List.map_nil, List.mem_singleton] at hk'
    exact hfresh (hk' ▸ hk)
  · intro k v hmem
    rcases List.mem_append.1 hmem with h | h
    · obtain ⟨v₀, hv₀, rfl⟩ := mem_addWctr.1 h
      obtain ⟨ss, hm, hstart, hstop, hval⟩ := hinv.active_sound k v₀ hv₀
      refine ⟨ss, hm, List.mem_append_left _ hstart, ?_, ?_⟩
      · intro hcon
        rcases List.mem_append.1 hcon with h' | h'
        · exact hstop h'
        · exact startEvent_ne_stopEvent _ _ (List.mem_singleton.1 h').symm
      · rw [hinv.active_value hc hm hstart hstop, hval]
        rfl
    · simp only [List.mem_singleton, Prod.mk.injEq] at h
      obtain ⟨rfl, rfl⟩ := h
      refine ⟨kv.2, hkv, List.mem_append_right _ (List.mem_singleton_self _), ?_, ?_⟩
      · intro hcon
        rcases List.mem_append.1 hcon with h' | h'
        · exact hc.stop_not_mem_pre hkv h'
        · exact startEvent_ne_stopEvent _ _ (List.mem_singleton.1 h').symm
      · exact hc.started_value.symm
  · intro kv' hkv' hstart hstop
    show kv'.1 ∈ (addWctr s.activeTasks _ ++ [(kv.1, 0)]).map Prod.fst
    rw [List.map_append, keys_addWctr, List.mem_append]
    rcases List.mem_append.1 hstart with h | h
    · exact Or.inl (hinv.active_complete kv' hkv' h (fun hc' => hstop (List.mem_append_left _ hc')))
    · right
      have := congrArg Event.output (List.mem_singleton.1 h)
      simp only [startEvent] at this
      simp [this]
  · exact hinv.nodupFinished
  · intro w hw
    obtain ⟨ss, hm, hstop, hval⟩ := hinv.finished_sound w hw
    exact ⟨ss, hm, List.mem_append_left _ hstop, by rw [hinv.finished_value hc hstop, hval]⟩
  · intro kv' hkv' hstop
    rcases List.mem_append.1 hstop with h | h
    · exact hinv.finished_complete kv' hkv' h
    · exact absurd (List.mem_singleton.1 h).symm (startEvent_ne_stopEvent _ _)

theorem step_stop_inv {m : IntervalMap} {pre post : List Event} {kv : String × StartStop}
    {s : SweepState} (hc : Admissible m (pre ++ stopEvent kv :: post)) (hkv : kv ∈ m)
    (hinv : SweepInv m pre s) :
    ∃ s', step s (stopEvent kv) = .ok s' ∧ SweepInv m (pre ++ [stopEvent kv]) s' := by
  have hstart : startEvent kv ∈ pre := hc.startFirst kv hkv pre post rfl
  have hstop : stopEvent kv ∉ pre := hc.not_mem_pre
  have hkey : kv.1 ∈ s.activeTasks.map Prod.fst := hinv.active_complete kv hkv hstart hstop
  have hother : ∀ kv' ∈ m, stopEvent kv' ∉ pre ++ [stopEvent kv] → kv'.1 ≠ kv.1 := by
    intro kv' hkv' hnot heq
    have : kv' = kv := nodupKeys_eq hc.nodupKeys hkv' hkv heq
    exact hnot (this ▸ List.mem_append_right _ (List.mem_singleton_self _))
  rw [step_stopEvent]
  cases hl : (addWctr s.activeTasks (kv.2.stop - s.previousTime)).lookup kv.1 with
  | none =>
    exact absurd (by rw [keys_addWctr]; exact hkey) (lookup_eq_none_iff_keys.1 hl)
  | some d =>
    obtain ⟨v₀, hv₀, hd⟩ := mem_addWctr.1 (mem_of_lookup_eq_some hl)
    obtain ⟨ss, hm, hstart', hstop', hval⟩ := hinv.active_sound kv.1 v₀ hv₀
    have hss : (kv.1, ss) = kv := nodupKeys_eq hc.nodupKeys hm hkv rfl
    have hdval : d = gapSum m kv.2 ((pre ++ [stopEvent kv]).map Event.time) := by
      have h2 : ss = kv.2 := congrArg Prod.snd hss
      have hav := hinv.active_value hc (show (kv.1, kv.2) ∈ m from hkv) hstart hstop
      rw [hd, hval, h2, hav]
      rfl
    refine ⟨_, rfl, ?_⟩
    constructor
    · intro pre' e₀ h
      rw [← append_singleton_last h]
      rfl
    · show ((eraseKey (addWctr s.activeTasks _) kv.1).map Prod.fst).Nodup
      rw [keys_eraseKey, keys_addWctr]
      exact hinv.nodupActive.filter _
    · intro k v hmem
      obtain ⟨hmem', hne⟩ := mem_eraseKey.1 hmem
      obtain ⟨v₁, hv₁, rfl⟩ := mem_addWctr.1 hmem'
      obtain ⟨ss₁, hm₁, hstart₁, hstop₁, hval₁⟩ := hinv.active_sound k v₁ hv₁
      refine ⟨ss₁, hm₁, List.mem_append_left _ hstart₁, ?_, ?_⟩
      · intro hcon
        rcases List.mem_append.1 hcon with h' | h'
        · exact hstop₁ h'
        · exact hne (congrArg Event.output (List.mem_singleton.1 h'))
      · rw [hinv.active_value hc hm₁ hstart₁ hstop₁, hval₁]
        rfl
    · intro kv' hkv' hstart₁ hstop₁
      show kv'.1 ∈ (eraseKey (addWctr s.activeTasks _) kv.1).map Prod.fst
      rw [keys_eraseKey, keys_addWctr, List.mem_filter]
      refine ⟨?_, by simpa using hother kv' hkv' hstop₁⟩
      rcases List.mem_append.1 hstart₁ with h | h
      · exact hinv.active_complete kv' hkv' h (fun hc' => hstop₁ (List.mem_append_left _ hc'))
      · exact absurd (List.mem_singleton.1 h) (startEvent_ne_stopEvent _ _)
    · show ((s.finishedTasks ++ [(⟨d, kv.1⟩ : WallClockTimeResponsibility)]).map
        fun w => w.output).Nodup
      rw [List.map_append, List.nodup_append]
      refine ⟨hinv.nodupFinished, by simp, ?_⟩
      intro k hk hk'
      simp only [List.map_cons, List.map_nil, List.mem_singleton] at hk'
      obtain ⟨w, hw, hwk⟩ := List.mem_map.1 hk
      obtain ⟨ss₁, hm₁, hstop₁, _⟩ := hinv.finished_sound w hw
      have : (w.output, ss₁) = kv := nodupKeys_eq hc.nodupKeys hm₁ hkv (by simp [hwk, hk'])
      rw [this] at hstop₁
      exact hstop hstop₁
    · intro w hw
      rcases List.mem_append.1 hw with h | h
      · obtain ⟨ss₁, hm₁, hstop₁, hval₁⟩ := hinv.finished_sound w h
        exact ⟨ss₁, hm₁, List.mem_append_left _ hstop₁,
          by rw [hinv.finished_value hc hstop₁, hval₁]⟩
      · rw [List.mem_singleton.1 h]
        exact ⟨kv.2, hkv, List.mem_append_right _ (List.mem_singleton_self _), hdval⟩
    · intro kv' hkv' hstop₁
      show kv'.1 ∈ (s.finishedTasks ++ [(⟨d, kv.1⟩ : WallClockTimeResponsibility)]).map
        fun w => w.output
      rw [List.map_append, List.mem_append]
      rcases List.mem_append.1 hstop₁ with h | h
      · exact Or.inl (hinv.finished_complete kv' hkv' h)
      · right
        have := congrArg Event.output (List.mem_singleton.1 h)
        simp only [stopEvent] at this
        simp [this]

/-- Every step of the sweep over an admissible event list succeeds and keeps the invariant. -/
theorem step_inv {m : IntervalMap} {pre post : List Event} {e : Event} {s : SweepState}
    (hc : Admissible m (pre ++ e :: post)) (hinv : SweepInv m pre s) :
    ∃ s', step s e = .ok s' ∧ SweepInv m (pre ++ [e]) s' := by
  obtain ⟨kv, hkv, rfl | rfl⟩ := hc.mem_iff.1 (List.mem_append_right pre (List.mem_cons_self e post))
  · exact step_start_inv hc hkv hinv
  · exact step_stop_inv hc hkv hinv

theorem sweepInv_init (m : IntervalMap) : SweepInv m [] SweepState.init := by
  constructor
  · intro pre' e₀ h; simp at h
  · exact List.nodup_nil
  · intro k v h; simp [SweepState.init] at h
  · intro kv _ h; simp at h
  · exact List.nodup_nil
  · intro w h; simp [SweepState.init] at h
  · intro kv _ h; simp at h

/-- The sweep over the rest of an admissible event list succeeds and ends in a
state that satisfies the invariant for the whole list. -/
theorem sweep_inv {m : IntervalMap} :
    ∀ (post pre : List Event) (s : SweepState), Admissible m (pre ++ post) → SweepInv m pre s →
      ∃ s', sweep s post = .ok s' ∧ SweepInv m (pre ++ post) s' := by
  intro post
  induction post with
  | nil =>
    intro pre s _ hinv
    exact ⟨s, rfl, by rw [List.append_nil]; exact hinv⟩
  | cons e post ih =>
    intro pre s hc hinv
    obtain ⟨s₁, hstep, hinv₁⟩ := step_inv hc hinv
    have hc' : Admissible m ((pre ++ [e]) ++ post) := by
      rw [List.append_assoc]; exact hc
    obtain ⟨s', hsweep, hinv'⟩ := ih (pre ++ [e]) s₁ hc' hinv₁
    refine ⟨s', ?_, ?_⟩
    · simp only [sweep, hstep]
      exact hsweep
    · rw [List.append_assoc] at hinv'
      exact hinv'

/-! ## The event list of the sequencer is admissible -/

theorem pair_sublist_pushEvents {m : IntervalMap} {kv : String × StartStop} (hkv : kv ∈ m) :
    List.Sublist [startEvent kv, stopEvent kv] (pushEvents m) := by
  induction m with
  | nil => simp at hkv
  | cons kv' rest ih =>
    rcases List.mem_cons.1 hkv with rfl | h
    · simp only [pushEvents]
      exact (List.Sublist.cons₂ _ (List.Sublist.cons₂ _ (List.nil_sublist _)))
    · simp only [pushEvents]
      exact List.Sublist.cons _ (List.Sublist.cons _ (ih h))

/-- In a duplicate-free list, the first element of a two-element sublist stands
ahead of the place of the second. -/
theorem mem_pre_of_pair_sublist {a b : Event} {pre post : List Event}
    (hsub : List.Sublist [a, b] (pre ++ b :: post)) (hnd : (pre ++ b :: post).Nodup) :
    a ∈ pre := by
  obtain ⟨l₁, l₂, hl, h₁, h₂⟩ := List.sublist_append_iff.1 hsub
  have hbpost : b ∉ post := (List.nodup_cons.1 (List.nodup_append.1 hnd).2.1).1
  have hab : a ≠ b := by
    have := hsub.nodup hnd
    simp only [List.nodup_cons, List.mem_singleton] at this
    exact this.1
  cases l₁ with
  | nil =>
    simp only [List.nil_append] at hl
    subst hl
    exfalso
    rcases List.sublist_cons_iff.1 h₂ with h | ⟨r, hr, _⟩
    · exact hbpost (h.subset (by simp))
    · simp only [List.cons.injEq] at hr
      exact hab hr.1
  | cons x l₁ =>
    simp only [List.cons_append, List.cons.injEq] at hl
    rw [hl.1]
    exact h₁.subset (List.mem_cons_self _ _)

theorem admissible_createdSortedEvents {m : IntervalMap} (hnd : NodupKeys m)
    (hwf : WellFormed m) : Admissible m (createdSortedEvents m) := by
  refine ⟨hnd, List.perm_insertionSort _ _, List.sorted_insertionSort _ _, ?_⟩
  intro kv hkv pre post hsplit
  have hsub : List.Sublist [startEvent kv, stopEvent kv] (createdSortedEvents m) :=
    List.pair_sublist_insertionSort (hwf kv hkv) (pair_sublist_pushEvents hkv)
  have hnodup : (createdSortedEvents m).Nodup :=
    (List.perm_insertionSort _ _).nodup_iff.2 (nodup_pushEvents hnd)
  rw [hsplit] at hsub hnodup
  exact mem_pre_of_pair_sublist hsub hnodup

/-- When every interval has start < stop, every time-ascending arrangement of
the events has the start of each task ahead of its stop. -/
theorem admissible_of_strict {m : IntervalMap} (hnd : NodupKeys m)
    (hstrict : ∀ kv ∈ m, kv.2.start < kv.2.stop) {evs : List Event}
    (hperm : evs.Perm (pushEvents m)) (hsorted : evs.Sorted timeLE) : Admissible m evs := by
  refine ⟨hnd, hperm, hsorted, ?_⟩
  intro kv hkv pre post hsplit
  have hmem : startEvent kv ∈ evs :=
    hperm.mem_iff.2 (mem_pushEvents.2 ⟨kv, hkv, Or.inl rfl⟩)
  rw [hsplit] at hmem hsorted
  rcases List.mem_append.1 hmem with h | h
  · exact h
  · exfalso
    rcases List.mem_cons.1 h with h' | h'
    · exact startEvent_ne_stopEvent _ _ h'
    · have hle : timeLE (stopEvent kv) (startEvent kv) :=
        List.rel_of_sorted_cons (List.pairwise_append.1 hsorted).2.1 _ h'
      have := hstrict kv hkv
      unfold timeLE at hle
      simp only [startEvent, stopEvent] at hle
      omega

/-! ## Result of the apportioner on an admissible event list -/

theorem process_of_sweep_ok {evs : List Event} {s : SweepState}
    (h : sweep SweepState.init evs = .ok s) :
    processEventsToWallClockTimeResponsibilities evs =
      .ok (s.finishedTasks.insertionSort wctrGE) := by
  unfold processEventsToWallClockTimeResponsibilities
  rw [h]

theorem all_times_mem_of_admissible {m : IntervalMap} {evs : List Event}
    (hc : Admissible m evs) : ∀ x ∈ allTimes m, x ∈ evs.map Event.time := by
  intro x hx
  obtain ⟨kv, hkv, h | h⟩ := mem_allTimes.1 hx
  · exact List.mem_map.2 ⟨startEvent kv, hc.mem_iff.2 ⟨kv, hkv, Or.inl rfl⟩, h⟩
  · exact List.mem_map.2 ⟨stopEvent kv, hc.mem_iff.2 ⟨kv, hkv, Or.inr rfl⟩, h⟩

/-- On an admissible event list the apportioner returns one record per task of
the table, in non-increasing order of time, each with the millisecond sum of
its task. -/
theorem process_admissible {m : IntervalMap} {evs : List Event} (hc : Admissible m evs) :
    ∃ r, processEventsToWallClockTimeResponsibilities evs = .ok r ∧ r.Sorted wctrGE ∧
      (r.map fun w => w.output).Perm (m.map Prod.fst) ∧
      ∀ w ∈ r, ∃ ss, (w.output, ss) ∈ m ∧ w.time = cellSum m ss := by
  obtain ⟨s, hsweep, hinv⟩ := sweep_inv evs [] SweepState.init (by simpa using hc)
    (sweepInv_init m)
  rw [List.nil_append] at hinv
  refine ⟨_, process_of_sweep_ok hsweep, List.sorted_insertionSort _ _, ?_, ?_⟩
  · refine ((List.perm_insertionSort wctrGE s.finishedTasks).map _).trans ?_
    rw [List.perm_ext_iff_of_nodup hinv.nodupFinished hc.nodupKeys]
    intro k
    constructor
    · intro hk
      obtain ⟨w, hw, rfl⟩ := List.mem_map.1 hk
      obtain ⟨ss, hm, _, _⟩ := hinv.finished_sound w hw
      exact List.mem_map.2 ⟨_, hm, rfl⟩
    · intro hk
      obtain ⟨kv, hkv, rfl⟩ := List.mem_map.1 hk
      exact hinv.finished_complete kv hkv (hc.mem_iff.2 ⟨kv, hkv, Or.inr rfl⟩)
  · intro w hw
    obtain ⟨ss, hm, _, hval⟩ := hinv.finished_sound w ((List.mem_insertionSort _).1 hw)
    refine ⟨ss, hm, ?_⟩
    rw [hval]
    exact gapSum_eq_cellSum m _ ss hm _ (sorted_map_time hc.sorted)
      (all_times_mem_of_admissible hc)

/-- In a result with one record per task, the time found for a task is the
time of its record. -/
theorem attributedTime_eq {m : IntervalMap} {r : List WallClockTimeResponsibility}
    (f : StartStop → ℚ) (hnd : NodupKeys m)
    (hperm : (r.map fun w => w.output).Perm (m.map Prod.fst))
    (hval : ∀ w ∈ r, ∃ ss, (w.output, ss) ∈ m ∧ w.time = f ss)
    {k : String} {ss : StartStop} (hk : (k, ss) ∈ m) :
    attributedTime r k = some (f ss) := by
  have hmem : k ∈ r.map fun w => w.output :=
    hperm.mem_iff.2 (List.mem_map.2 ⟨(k, ss), hk, rfl⟩)
  obtain ⟨w, hw, hwk⟩ := List.mem_map.1 hmem
  unfold attributedTime
  cases hf : r.find? fun w => w.output == k with
  | none =>
    have := List.find?_eq_none.1 hf w hw
    simp [hwk] at this
  | some w' =>
    have hout : w'.output = k := by
      have := List.find?_some hf
      simpa using this
    obtain ⟨ss', hm', hv⟩ := hval w' (List.mem_of_find?_eq_some hf)
    rw [hout] at hm'
    have : (k, ss') = (k, ss) := nodupKeys_eq hnd hm' hk rfl
    simp only [Prod.mk.injEq, true_and] at this
    rw [Option.map_some', hv, this]

/-! ## Sweeps that complete -/

theorem sweep_cons (s : SweepState) (e : Event) (rest : List Event) :
    sweep s (e :: rest) =
      match step s e with
      | .error err => .error err
      | .ok s' => sweep s' rest := rfl

theorem sweep_append (a b : List Event) : ∀ s : SweepState,
    sweep s (a ++ b) =
      match sweep s a with
      | .error err => .error err
      | .ok s' => sweep s' b := by
  induction a with
  | nil => intro s; rfl
  | cons e a ih =>
    intro s
    rw [List.cons_append, sweep_cons, sweep_cons]
    cases step s e with
    | error err => rfl
    | ok s' => exact ih s'

theorem sweep_append_ok {a b : List Event} {s s' : SweepState}
    (h : sweep s (a ++ b) = .ok s') : ∃ s₁, sweep s a = .ok s₁ ∧ sweep s₁ b = .ok s' := by
  rw [sweep_append] at h
  cases hs : sweep s a with
  | error err => rw [hs] at h; cases h
  | ok s₁ => rw [hs] at h; exact ⟨s₁, rfl, h⟩

theorem sweep_cons_ok {e : Event} {rest : List Event} {s s' : SweepState}
    (h : sweep s (e :: rest) = .ok s') : ∃ s₁, step s e = .ok s₁ ∧ sweep s₁ rest = .ok s' := by
  rw [sweep_cons] at h
  cases hs : step s e with
  | error err => rw [hs] at h; cases h
  | ok s₁ => rw [hs] at h; exact ⟨s₁, rfl, h⟩

theorem keys_emplace {act : List (String × ℚ)} {o k : String}
    (h : k ∈ (emplace act o).map Prod.fst) : k ∈ act.map Prod.fst ∨ k = o := by
  by_cases ho : o ∈ act.map Prod.fst
  · rw [emplace_of_mem ho] at h; exact Or.inl h
  · rw [emplace_of_not_mem ho, List.map_append, List.mem_append] at h
    rcases h with h | h
    · exact Or.inl h
    · exact Or.inr (by simpa using h)

/-- A step only adds the task of a start event to the active set. -/
theorem step_keys {s s' : SweepState} {e : Event} (h : step s e = .ok s') :
    ∀ k ∈ s'.activeTasks.map Prod.fst,
      k ∈ s.activeTasks.map Prod.fst ∨ (e.isStart = true ∧ e.output = k) := by
  intro k hk
  unfold step at h
  by_cases hstart : e.isStart = true
  · simp only [hstart, if_true, Except.ok.injEq] at h
    subst h
    rcases keys_emplace hk with h' | h'
    · rw [keys_addWctr] at h'; exact Or.inl h'
    · exact Or.inr ⟨hstart, h'.symm⟩
  · simp only [hstart, Bool.false_eq_true, if_false] at h
    cases hl : (addWctr s.activeTasks (e.time - s.previousTime)).lookup e.output with
    | none => rw [hl] at h; cases h
    | some d =>
      rw [hl] at h
      simp only [Except.ok.injEq] at h
      subst h
      rw [keys_eraseKey, keys_addWctr] at hk
      exact Or.inl (List.mem_filter.1 hk).1

/-- Every active task was active at the beginning or has been started since. -/
theorem sweep_keys : ∀ (pre : List Event) (s₀ s : SweepState), sweep s₀ pre = .ok s →
    ∀ k ∈ s.activeTasks.map Prod.fst,
      k ∈ s₀.activeTasks.map Prod.fst ∨ ∃ e ∈ pre, e.isStart = true ∧ e.output = k := by
  intro pre
  induction pre with
  | nil =>
    intro s₀ s h k hk
    simp only [sweep, Except.ok.injEq] at h
    exact Or.inl (h ▸ hk)
  | cons e pre ih =>
    intro s₀ s h k hk
    obtain ⟨s₁, hstep, hrest⟩ := sweep_cons_ok h
    rcases ih s₁ s hrest k hk with h' | ⟨e', he', h'⟩
    · rcases step_keys hstep k h' with h'' | h''
      · exact Or.inl h''
      · exact Or.inr ⟨e, List.mem_cons_self _ _, h''⟩
    · exact Or.inr ⟨e', List.mem_cons_of_mem _ he', h'⟩

/-- A stop event is only accepted for an active task. -/
theorem step_stop_ok {s s' : SweepState} {e : Event} (h : step s e = .ok s')
    (hstop : e.isStart = false) : e.output ∈ s.activeTasks.map Prod.fst := by
  unfold step at h
  simp only [hstop, Bool.false_eq_true, if_false] at h
  cases hl : (addWctr s.activeTasks (e.time - s.previousTime)).lookup e.output with
  | none => rw [hl] at h; cases h
  | some d =>
    have := mem_of_lookup_eq_some hl
    rw [← keys_addWctr s.activeTasks (e.time - s.previousTime)]
    exact List.mem_map.2 ⟨_, this, rfl⟩

/-- A time-ordered arrangement of the events of a table on which the sweep
completes has the start of every task ahead of its stop. -/
theorem admissible_of_sweep_ok {m : IntervalMap} {evs : List Event} (hnd : NodupKeys m)
    (hperm : evs.Perm (pushEvents m)) (hsorted : evs.Sorted timeLE) {s : SweepState}
    (hok : sweep SweepState.init evs = .ok s) : Admissible m evs := by
  refine ⟨hnd, hperm, hsorted, ?_⟩
  intro kv hkv pre post hsplit
  rw [hsplit] at hok
  obtain ⟨s₁, hpre, hrest⟩ := sweep_append_ok hok
  obtain ⟨s₂, hstep, _⟩ := sweep_cons_ok hrest
  have hkey := step_stop_ok hstep rfl
  rcases sweep_keys pre _ _ hpre _ hkey with h | ⟨e, he, hstart, hout⟩
  · simp [SweepState.init] at h
  · have hmem : e ∈ pushEvents m := hperm.mem_iff.1 (hsplit ▸ List.mem_append_left _ he)
    obtain ⟨kv', hkv', h | h⟩ := mem_pushEvents.1 hmem
    · have hkeq : kv' = kv := nodupKeys_eq hnd hkv' hkv (by rw [h] at hout; exact hout)
      rw [h, hkeq] at he
      exact he
    · rw [h] at hstart
      simp [stopEvent] at hstart

/-- Whatever the order among events of equal time, a sweep that completes
returns one record per task with the millisecond sum of the task. -/
theorem process_sorted_perm {m : IntervalMap} {evs : List Event} (hnd : NodupKeys m)
    (hperm : evs.Perm (pushEvents m)) (hsorted : evs.Sorted timeLE)
    {r : List WallClockTimeResponsibility}
    (hok : processEventsToWallClockTimeResponsibilities evs = .ok r) :
    r.Sorted wctrGE ∧ (r.map fun w => w.output).Perm (m.map Prod.fst) ∧
      ∀ w ∈ r, ∃ ss, (w.output, ss) ∈ m ∧ w.time = cellSum m ss := by
  have hadm : Admissible m evs := by
    unfold processEventsToWallClockTimeResponsibilities at hok
    cases hs : sweep SweepState.init evs with
    | error err => rw [hs] at hok; cases hok
    | ok s => exact admissible_of_sweep_ok hnd hperm hsorted hs
  obtain ⟨r', hr', h⟩ := process_admissible hadm
  rw [hok] at hr'
  cases hr'
  exact h

/-! ## Fair share (C1) -/

/-- The reference values at the scenario table: the gap [0, 10] is covered by
A and B, the gap [10, 20] by C alone, and the union of the intervals is [0, 20]. -/
theorem reference_values_scenarioABC :
    eventTimes scenarioABC = [0, 10, 20] ∧
    fairShare scenarioABC ⟨0, 10⟩ = 5 ∧ fairShare scenarioABC ⟨10, 20⟩ = 10 ∧
    unionLength scenarioABC = 20 := by
  decide!

/-- C1. For a table with start ≤ stop for every task, the pipeline returns a
result in which the time of task `k` is the fair-share reference value: the sum,
over the gaps between consecutive distinct event times inside the interval of
`k`, of the gap length divided by the number of tasks covering the gap. The
value is the same for every order of the events of equal time on which the sweep
completes. -/
theorem fair_share_attribution (m : IntervalMap) (hnd : NodupKeys m) (hwf : WellFormed m)
    (k : String) (ss : StartStop) (hk : (k, ss) ∈ m) :
    (∃ r, processEventsToWallClockTimeResponsibilities (createdSortedEvents m) = .ok r ∧
      attributedTime r k = some (fairShare m ss)) ∧
    (∀ evs r, evs.Perm (pushEvents m) → evs.Sorted timeLE →
      processEventsToWallClockTimeResponsibilities evs = .ok r →
      attributedTime r k = some (fairShare m ss)) := by
  rw [fairShare_eq_cellSum m k ss hk]
  constructor
  · obtain ⟨r, hr, _, hperm, hval⟩ := process_admissible (admissible_createdSortedEvents hnd hwf)
    exact ⟨r, hr, attributedTime_eq (cellSum m) hnd hperm hval hk⟩
  · intro evs r hperm hsorted hok
    obtain ⟨_, hp, hval⟩ := process_sorted_perm hnd hperm hsorted hok
    exact attributedTime_eq (cellSum m) hnd hp hval hk

/-- C1 at the scenario table, task C. -/
theorem fair_share_attribution_witness :
    (∃ r, processEventsToWallClockTimeResponsibilities (createdSortedEvents scenarioABC) = .ok r ∧
      attributedTime r "C" = some (fairShare scenarioABC ⟨10, 20⟩)) ∧
    (∀ evs r, evs.Perm (pushEvents scenarioABC) → evs.Sorted timeLE →
      processEventsToWallClockTimeResponsibilities evs = .ok r →
      attributedTime r "C" = some (fairShare scenarioABC ⟨10, 20⟩)) :=
  fair_share_attribution scenarioABC (by decide) (by decide) "C" ⟨10, 20⟩ (by decide)

/-! ## Conservation (C2) -/

theorem mem_unionCells {m : IntervalMap} {t : ℤ} :
    t ∈ unionCells m ↔ ∃ kv ∈ m, kv.2.start ≤ t ∧ t < kv.2.stop := by
  induction m with
  | nil => simp [unionCells]
  | cons kv rest ih =>
    simp only [unionCells, Finset.mem_union, Finset.mem_Ico, ih, List.mem_cons, exists_eq_or_imp]

theorem sum_map_ite_const {α : Type} (l : List α) (p : α → Bool) (c : ℚ) :
    (l.map fun x => if p x = true then c else 0).sum = (l.countP p : ℚ) * c := by
  induction l with
  | nil => simp
  | cons x l ih =>
    rw [List.map_cons, List.sum_cons, ih, List.countP_cons]
    by_cases hx : p x = true
    · simp only [hx, if_true]; push_cast; ring
    · simp only [hx, Bool.false_eq_true, if_false]; push_cast; ring

theorem sum_map_finset_sum {α : Type} (l : List α) (U : Finset ℤ) (g : α → ℤ → ℚ) :
    (l.map fun x => ∑ t ∈ U, g x t).sum = ∑ t ∈ U, (l.map fun x => g x t).sum := by
  induction l with
  | nil => simp
  | cons x l ih =>
    simp only [List.map_cons, List.sum_cons, ih, Finset.sum_add_distrib]

/-- The millisecond sum of a task, written as a sum over the union of all intervals. -/
theorem cellSum_eq_sum_unionCells {m : IntervalMap} {kv : String × StartStop} (hkv : kv ∈ m) :
    cellSum m kv.2 = ∑ t ∈ unionCells m,
      if decide (kv.2.start ≤ t ∧ t < kv.2.stop) = true then 1 / (activeCount m t : ℚ) else 0 := by
  unfold cellSum
  rw [← Finset.sum_filter]
  apply Finset.sum_congr _ (fun _ _ => rfl)
  ext t
  simp only [Finset.mem_Ico, Finset.mem_filter, decide_eq_true_eq, mem_unionCells]
  constructor
  · intro h; exact ⟨⟨kv, hkv, h⟩, h⟩
  · intro h; exact h.2

/-- The millisecond sums of all tasks add up to the length of the union of the intervals. -/
theorem sum_cellSum_eq_unionLength (m : IntervalMap) :
    (m.map fun kv => cellSum m kv.2).sum = (unionLength m : ℚ) := by
  have h₁ : (m.map fun kv => cellSum m kv.2) = m.map fun kv => ∑ t ∈ unionCells m,
      if decide (kv.2.start ≤ t ∧ t < kv.2.stop) = true then 1 / (activeCount m t : ℚ) else 0 :=
    List.map_congr_left fun kv hkv => cellSum_eq_sum_unionCells hkv
  rw [h₁, sum_map_finset_sum m (unionCells m) fun kv t =>
    if decide (kv.2.start ≤ t ∧ t < kv.2.stop) = true then 1 / (activeCount m t : ℚ) else 0]
  have h₂ : ∀ t ∈ unionCells m, (m.map fun kv =>
      if decide (kv.2.start ≤ t ∧ t < kv.2.stop) = true then 1 / (activeCount m t : ℚ)
      else 0).sum = 1 := by
    intro t ht
    rw [sum_map_ite_const m (fun kv => decide (kv.2.start ≤ t ∧ t < kv.2.stop))]
    have hpos : 0 < activeCount m t := by
      unfold activeCount
      rw [List.countP_pos_iff]
      obtain ⟨kv, hkv, h⟩ := mem_unionCells.1 ht
      exact ⟨kv, hkv, by simpa using h⟩
    have hne : (activeCount m t : ℚ) ≠ 0 := by
      exact_mod_cast (Nat.pos_iff_ne_zero.1 hpos)
    show (activeCount m t : ℚ) * (1 / (activeCount m t : ℚ)) = 1
    field_simp
  rw [Finset.sum_congr rfl h₂]
  simp [unionLength]

/-- The records of a result, as pairs, are the pairs of the table with their
millisecond sums, up to order. -/
theorem records_perm {m : IntervalMap} {r : List WallClockTimeResponsibility}
    (hnd : NodupKeys m) (hperm : (r.map fun w => w.output).Perm (m.map Prod.fst))
    (hval : ∀ w ∈ r, ∃ ss, (w.output, ss) ∈ m ∧ w.time = cellSum m ss) :
    (r.map fun w => (w.output, w.time)).Perm (m.map fun kv => (kv.1, cellSum m kv.2)) := by
  have hn₁ : (r.map fun w => (w.output, w.time)).Nodup := by
    apply List.Nodup.of_map Prod.fst
    rw [List.map_map]
    exact hperm.nodup_iff.2 hnd
  have hn₂ : (m.map fun kv => (kv.1, cellSum m kv.2)).Nodup := by
    apply List.Nodup.of_map Prod.fst
    rw [List.map_map]
    exact hnd
  rw [List.perm_ext_iff_of_nodup hn₁ hn₂]
  rintro ⟨k, v⟩
  simp only [List.mem_map, Prod.mk.injEq]
  constructor
  · rintro ⟨w, hw, rfl, rfl⟩
    obtain ⟨ss, hm, hv⟩ := hval w hw
    exact ⟨(w.output, ss), hm, rfl, hv.symm⟩
  · rintro ⟨kv, hkv, rfl, rfl⟩
    have hmem : kv.1 ∈ r.map fun w => w.output :=
      hperm.mem_iff.2 (List.mem_map.2 ⟨kv, hkv, rfl⟩)
    obtain ⟨w, hw, hwk⟩ := List.mem_map.1 hmem
    obtain ⟨ss, hm, hv⟩ := hval w hw
    have : (w.output, ss) = kv := nodupKeys_eq hnd hm hkv hwk
    refine ⟨w, hw, hwk, ?_⟩
    rw [hv, ← this]

theorem totalTime_eq {m : IntervalMap} {r : List WallClockTimeResponsibility}
    (hnd : NodupKeys m) (hperm : (r.map fun w => w.output).Perm (m.map Prod.fst))
    (hval : ∀ w ∈ r, ∃ ss, (w.output, ss) ∈ m ∧ w.time = cellSum m ss) :
    totalTime r = (unionLength m : ℚ) := by
  have h := ((records_perm hnd hperm hval).map Prod.snd).sum_eq
  rw [List.map_map, List.map_map] at h
  rw [← sum_cellSum_eq_unionLength m]
  exact h

/-- C2. Conservation: for a table with start ≤ stop for every task, the
pipeline returns a result whose attributed times add up to the total length of
the union of all intervals; the same holds for every order of the events of
equal time on which the sweep completes. -/
theorem conservation (m : IntervalMap) (hnd : NodupKeys m) (hwf : WellFormed m) :
    (∃ r, processEventsToWallClockTimeResponsibilities (createdSortedEvents m) = .ok r ∧
      totalTime r = (unionLength m : ℚ)) ∧
    (∀ evs r, evs.Perm (pushEvents m) → evs.Sorted timeLE →
      processEventsToWallClockTimeResponsibilities evs = .ok r →
      totalTime r = (unionLength m : ℚ)) := by
  constructor
  · obtain ⟨r, hr, _, hperm, hval⟩ := process_admissible (admissible_createdSortedEvents hnd hwf)
    exact ⟨r, hr, totalTime_eq hnd hperm hval⟩
  · intro evs r hperm hsorted hok
    obtain ⟨_, hp, hval⟩ := process_sorted_perm hnd hperm hsorted hok
    exact totalTime_eq hnd hp hval

/-- C2 at the scenario table. -/
theorem conservation_witness :
    (∃ r, processEventsToWallClockTimeResponsibilities (createdSortedEvents scenarioABC) = .ok r ∧
      totalTime r = (unionLength scenarioABC : ℚ)) ∧
    (∀ evs r, evs.Perm (pushEvents scenarioABC) → evs.Sorted timeLE →
      processEventsToWallClockTimeResponsibilities evs = .ok r →
      totalTime r = (unionLength scenarioABC : ℚ)) :=
  conservation scenarioABC (by decide) (by decide)

/-! ## The sweep over an arithmetic -/

theorem keys_addWctrIn (A : Arith) (act : List (String × A.Dur)) (d : ℤ) :
    (addWctrIn A act d).map Prod.fst = act.map Prod.fst := by
  unfold addWctrIn
  rw [List.map_map]
  rfl

theorem mem_addWctrIn {A : Arith} {act : List (String × A.Dur)} {d : ℤ} {k : String}
    {v : A.Dur} :
    (k, v) ∈ addWctrIn A act d ↔
      ∃ v₀, (k, v₀) ∈ act ∧ v = A.add v₀ (A.divSize (A.ofMs d) act.length) := by
  unfold addWctrIn
  simp only [List.mem_map, Prod.mk.injEq, Prod.exists]
  constructor
  · rintro ⟨k', v₀, hmem, rfl, rfl⟩
    exact ⟨v₀, hmem, rfl⟩
  · rintro ⟨v₀, hmem, rfl⟩
    exact ⟨k, v₀, hmem, rfl, rfl⟩

theorem emplaceIn_of_not_mem {A : Arith} {act : List (String × A.Dur)} {k : String}
    (h : k ∉ act.map Prod.fst) : emplaceIn A act k = act ++ [(k, A.zero)] := by
  unfold emplaceIn
  rw [lookup_eq_none_iff_keys.2 h]

theorem emplaceIn_of_mem {A : Arith} {act : List (String × A.Dur)} {k : String}
    (h : k ∈ act.map Prod.fst) : emplaceIn A act k = act := by
  unfold emplaceIn
  cases hl : act.lookup k with
  | none => exact absurd h (lookup_eq_none_iff_keys.1 hl)
  | some v => rfl

theorem mem_eraseKeyIn {A : Arith} {act : List (String × A.Dur)} {k : String}
    {kv : String × A.Dur} : kv ∈ eraseKeyIn A act k ↔ kv ∈ act ∧ kv.1 ≠ k := by
  unfold eraseKeyIn
  simp [List.mem_filter]

theorem keys_eraseKeyIn (A : Arith) (act : List (String × A.Dur)) (k : String) :
    (eraseKeyIn A act k).map Prod.fst = (act.map Prod.fst).filter (fun k' => k' != k) := by
  unfold eraseKeyIn
  rw [List.filter_map]
  rfl

/-- The sweep over an arithmetic and the exact sweep take the same branch at
every event. -/
theorem stepIn_sim {A : Arith} {sA : SweepStateIn A} {s : SweepState} (h : Sim A sA s)
    (e : Event) :
    (∃ sA' s', stepIn A sA e = .ok sA' ∧ step s e = .ok s' ∧ Sim A sA' s') ∨
    (∃ err, stepIn A sA e = .error err ∧ step s e = .error err) := by
  have hk : (addWctrIn A sA.activeTasks (e.time - sA.previousTime)).map Prod.fst =
      (addWctr s.activeTasks (e.time - s.previousTime)).map Prod.fst := by
    rw [keys_addWctrIn, keys_addWctr, h.keys]
  unfold stepIn step
  by_cases hstart : e.isStart = true
  · left
    simp only [hstart, if_true]
    refine ⟨_, _, rfl, rfl, ?_, h.outputs, rfl⟩
    by_cases hmem : e.output ∈ (addWctr s.activeTasks (e.time - s.previousTime)).map Prod.fst
    · rw [emplace_of_mem hmem, emplaceIn_of_mem (hk ▸ hmem)]
      exact hk
    · rw [emplace_of_not_mem hmem, emplaceIn_of_not_mem (hk ▸ hmem), List.map_append,
        List.map_append, hk]
      rfl
  · simp only [hstart, Bool.false_eq_true, if_false]
    cases hl : (addWctr s.activeTasks (e.time - s.previousTime)).lookup e.output with
    | none =>
      right
      have hn : (addWctrIn A sA.activeTasks (e.time - sA.previousTime)).lookup e.output = none := by
        rw [lookup_eq_none_iff_keys, hk]
        exact lookup_eq_none_iff_keys.1 hl
      rw [hn]
      exact ⟨_, rfl, rfl⟩
    | some d =>
      left
      cases hl' : (addWctrIn A sA.activeTasks (e.time - sA.previousTime)).lookup e.output with
      | none =>
        exfalso
        have := lookup_eq_none_iff_keys.1 hl'
        rw [hk] at this
        exact this (List.mem_map.2 ⟨_, mem_of_lookup_eq_some hl, rfl⟩)
      | some d' =>
        refine ⟨_, _, rfl, rfl, ?_, ?_, rfl⟩
        · rw [keys_eraseKeyIn, keys_eraseKey, hk]
        · simp only [List.map_append, List.map_cons, List.map_nil, h.outputs]

theorem sweepIn_cons (A : Arith) (s : SweepStateIn A) (e : Event) (rest : List Event) :
    sweepIn A s (e :: rest) =
      match stepIn A s e with
      | .error err => .error err
      | .ok s' => sweepIn A s' rest := rfl

/-- The sweep over an arithmetic completes exactly when the exact sweep does. -/
theorem sweepIn_sim {A : Arith} : ∀ (evs : List Event) {sA : SweepStateIn A} {s : SweepState},
    Sim A sA s →
    (∃ sA' s', sweepIn A sA evs = .ok sA' ∧ sweep s evs = .ok s' ∧ Sim A sA' s') ∨
    (∃ err, sweepIn A sA evs = .error err ∧ sweep s evs = .error err) := by
  intro evs
  induction evs with
  | nil => intro sA s h; exact Or.inl ⟨sA, s, rfl, rfl, h⟩
  | cons e rest ih =>
    intro sA s h
    rw [sweepIn_cons, sweep_cons]
    rcases stepIn_sim h e with ⟨sA', s', h₁, h₂, hsim⟩ | ⟨err, h₁, h₂⟩
    · rw [h₁, h₂]
      exact ih hsim
    · rw [h₁, h₂]
      exact Or.inr ⟨err, rfl, rfl⟩

theorem sim_init (A : Arith) : Sim A (SweepStateIn.init A) SweepState.init :=
  ⟨rfl, rfl, rfl⟩

theorem stepIn_previousTime {A : Arith} {sA sA' : SweepStateIn A} {e : Event}
    (h : stepIn A sA e = .ok sA') : sA'.previousTime = e.time := by
  unfold stepIn at h
  by_cases hstart : e.isStart = true
  · simp only [hstart, if_true, Except.ok.injEq] at h
    rw [← h]
  · simp only [hstart, Bool.false_eq_true, if_false] at h
    cases hl : (addWctrIn A sA.activeTasks (e.time - sA.previousTime)).lookup e.output with
    | none => rw [hl] at h; cases h
    | some d =>
      rw [hl] at h
      simp only [Except.ok.injEq] at h
      rw [← h]

/-- An active task after a step was active before and has received its share
of the elapsed time, or it is the task of a start event and has the value `0s`. -/
theorem stepIn_active {A : Arith} {sA sA' : SweepStateIn A} {e : Event}
    (h : stepIn A sA e = .ok sA') {k : String} {v : A.Dur} (hv : (k, v) ∈ sA'.activeTasks) :
    (∃ v₀, (k, v₀) ∈ sA.activeTasks ∧
      v = A.add v₀ (A.divSize (A.ofMs (e.time - sA.previousTime)) sA.activeTasks.length)) ∨
    (e.isStart = true ∧ e.output = k ∧ v = A.zero) := by
  unfold stepIn at h
  by_cases hstart : e.isStart = true
  · simp only [hstart, if_true, Except.ok.injEq] at h
    subst h
    simp only at hv
    by_cases hmem : e.output ∈ (addWctrIn A sA.activeTasks (e.time - sA.previousTime)).map Prod.fst
    · rw [emplaceIn_of_mem hmem] at hv
      exact Or.inl (mem_addWctrIn.1 hv)
    · rw [emplaceIn_of_not_mem hmem, List.mem_append] at hv
      rcases hv with hv | hv
      · exact Or.inl (mem_addWctrIn.1 hv)
      · simp only [List.mem_singleton, Prod.mk.injEq] at hv
        exact Or.inr ⟨hstart, hv.1.symm, hv.2⟩
  · simp only [hstart, Bool.false_eq_true, if_false] at h
    cases hl : (addWctrIn A sA.activeTasks (e.time - sA.previousTime)).lookup e.output with
    | none => rw [hl] at h; cases h
    | some d =>
      rw [hl] at h
      simp only [Except.ok.injEq] at h
      subst h
      simp only at hv
      exact Or.inl (mem_addWctrIn.1 (mem_eraseKeyIn.1 hv).1)

/-- A finished task after a step was finished before, or it is the task of a
stop event and was active with its share of the elapsed time. -/
theorem stepIn_finished {A : Arith} {sA sA' : SweepStateIn A} {e : Event}
    (h : stepIn A sA e = .ok sA') {k : String} {v : A.Dur} (hv : (v, k) ∈ sA'.finishedTasks) :
    (v, k) ∈ sA.finishedTasks ∨
    (e.isStart = false ∧ e.output = k ∧ ∃ v₀, (k, v₀) ∈ sA.activeTasks ∧
      v = A.add v₀ (A.divSize (A.ofMs (e.time - sA.previousTime)) sA.activeTasks.length)) := by
  unfold stepIn at h
  by_cases hstart : e.isStart = true
  · simp only [hstart, if_true, Except.ok.injEq] at h
    subst h
    exact Or.inl hv
  · simp only [hstart, Bool.false_eq_true, if_false] at h
    cases hl : (addWctrIn A sA.activeTasks (e.time - sA.previousTime)).lookup e.output with
    | none => rw [hl] at h; cases h
    | some d =>
      rw [hl] at h
      simp only [Except.ok.injEq] at h
      subst h
      simp only [List.mem_append, List.mem_singleton, Prod.mk.injEq] at hv
      rcases hv with hv | ⟨rfl, rfl⟩
      · exact Or.inl hv
      · exact Or.inr ⟨by simpa using hstart, rfl, mem_addWctrIn.1 (mem_of_lookup_eq_some hl)⟩

/-- Induction along the sweep over an arithmetic, side by side with the exact
sweep and its invariant: a property of the states that every step keeps holds
at the end, and both sweeps complete. -/
theorem sweepIn_inv {A : Arith} {m : IntervalMap} (J : SweepStateIn A → Prop)
    (hstep : ∀ (pre post : List Event) (e : Event) (s : SweepState) (sA sA' : SweepStateIn A),
      Admissible m (pre ++ e :: post) → SweepInv m pre s → Sim A sA s → J sA →
      stepIn A sA e = .ok sA' → J sA') :
    ∀ (post pre : List Event) (s : SweepState) (sA : SweepStateIn A),
      Admissible m (pre ++ post) → SweepInv m pre s → Sim A sA s → J sA →
      ∃ s' sA', sweep s post = .ok s' ∧ sweepIn A sA post = .ok sA' ∧
        SweepInv m (pre ++ post) s' ∧ Sim A sA' s' ∧ J sA' := by
  intro post
  induction post with
  | nil =>
    intro pre s sA _ hinv hsim hJ
    exact ⟨s, sA, rfl, rfl, by rw [List.append_nil]; exact hinv, hsim, hJ⟩
  | cons e post ih =>
    intro pre s sA hc hinv hsim hJ
    obtain ⟨s₁, hs₁, hinv₁⟩ := step_inv hc hinv
    rcases stepIn_sim hsim e with ⟨sA₁, s₁', h₁, h₂, hsim₁⟩ | ⟨err, _, h₂⟩
    · rw [hs₁] at h₂
      cases h₂
      have hc' : Admissible m ((pre ++ [e]) ++ post) := by
        rw [List.append_assoc]; exact hc
      obtain ⟨s', sA', hsweep, hsweepA, hinv', hsim', hJ'⟩ :=
        ih (pre ++ [e]) s₁ sA₁ hc' hinv₁ hsim₁ (hstep pre post e s sA sA₁ hc hinv hsim hJ h₁)
      refine ⟨s', sA', ?_, ?_, ?_, hsim', hJ'⟩
      · rw [sweep_cons, hs₁]; exact hsweep
      · rw [sweepIn_cons, h₁]; exact hsweepA
      · rw [List.append_assoc] at hinv'; exact hinv'
    · rw [hs₁] at h₂
      cases h₂

/-! ## A solo task receives a single increment -/

/-- A task is solo exactly when no instant strictly between its start and its
stop lies in the interval, ends included, of another task. -/
theorem solo_iff_no_instant {m : IntervalMap} (hwf : WellFormed m) (k : String)
    (ss : StartStop) :
    Solo m k ss ↔ ∀ kv ∈ m, kv.1 ≠ k →
      ¬ ∃ t : ℚ, (ss.start : ℚ) < t ∧ t < (ss.stop : ℚ) ∧
        (kv.2.start : ℚ) ≤ t ∧ t ≤ (kv.2.stop : ℚ) := by
  constructor
  · rintro h kv hkv hne ⟨t, h₁, h₂, h₃, h₄⟩
    rcases h kv hkv hne with h' | h' | h'
    · have : (ss.stop : ℚ) ≤ (ss.start : ℚ) := by exact_mod_cast h'
      linarith
    · have : (kv.2.stop : ℚ) ≤ (ss.start : ℚ) := by exact_mod_cast h'
      linarith
    · have : (ss.stop : ℚ) ≤ (kv.2.start : ℚ) := by exact_mod_cast h'
      linarith
  · intro h kv hkv hne
    by_contra hcon
    have hw := hwf kv hkv
    have c₁ : ss.start < ss.stop := by omega
    have c₂ : ss.start < kv.2.stop := by omega
    have c₃ : kv.2.start < ss.stop := by omega
    have q₁ : (ss.start : ℚ) < (ss.stop : ℚ) := by exact_mod_cast c₁
    have q₂ : (ss.start : ℚ) < (kv.2.stop : ℚ) := by exact_mod_cast c₂
    have q₃ : (kv.2.start : ℚ) < (ss.stop : ℚ) := by exact_mod_cast c₃
    have q₄ : (kv.2.start : ℚ) ≤ (kv.2.stop : ℚ) := by exact_mod_cast hw
    apply h kv hkv hne
    by_cases hlt : ss.start < kv.2.start
    · have q₅ : (ss.start : ℚ) < (kv.2.start : ℚ) := by exact_mod_cast hlt
      exact ⟨(kv.2.start : ℚ), q₅, q₃, le_refl _, q₄⟩
    · have q₅ : (kv.2.start : ℚ) ≤ (ss.start : ℚ) := by exact_mod_cast not_lt.1 hlt
      refine ⟨((ss.start : ℚ) + min (ss.stop : ℚ) (kv.2.stop : ℚ)) / 2, ?_, ?_, ?_, ?_⟩
      · have := lt_min q₁ q₂
        linarith
      · have := lt_min q₁ q₂
        have := min_le_left (ss.stop : ℚ) (kv.2.stop : ℚ)
        linarith
      · have := lt_min q₁ q₂
        linarith
      · have := lt_min q₁ q₂
        have := min_le_right (ss.stop : ℚ) (kv.2.stop : ℚ)
        linarith

/-- No event of the table lies strictly inside the interval of a solo task. -/
theorem solo_time_outside {m : IntervalMap} (hnd : NodupKeys m) (hwf : WellFormed m)
    {k : String} {ss : StartStop} (hk : (k, ss) ∈ m) (hsolo : Solo m k ss) {x : Event}
    (hx : x ∈ pushEvents m) : x.time ≤ ss.start ∨ ss.stop ≤ x.time := by
  obtain ⟨kv, hkv, h | h⟩ := mem_pushEvents.1 hx
  · by_cases hkey : kv.1 = k
    · have := nodupKeys_eq hnd hkv hk hkey
      subst this
      exact Or.inl (by rw [h]; exact le_refl _)
    · have h₁ := hsolo kv hkv hkey
      have h₂ := hwf kv hkv
      have h₃ : x.time = kv.2.start := by rw [h]; rfl
      omega
  · by_cases hkey : kv.1 = k
    · have := nodupKeys_eq hnd hkv hk hkey
      subst this
      exact Or.inr (by rw [h]; exact le_refl _)
    · have h₁ := hsolo kv hkv hkey
      have h₂ := hwf kv hkv
      have h₃ : x.time = kv.2.stop := by rw [h]; rfl
      omega

theorem length_eq_one_of_all_eq {l : List String} (hnd : l.Nodup) {k : String} (hk : k ∈ l)
    (hall : ∀ x ∈ l, x = k) : l.length = 1 := by
  match l, hnd, hk, hall with
  | [], _, hk, _ => simp at hk
  | [a], _, _, _ => rfl
  | a :: b :: t, hnd, _, hall =>
    exfalso
    have ha : a = k := hall a (by simp)
    have hb : b = k := hall b (by simp)
    have := (List.nodup_cons.1 hnd).1
    rw [ha, hb] at this
    exact this (by simp)

/-- The value of an active solo task after the next event: every event at the
same instant adds `0s`, and the first event at the stop of the task adds the
converted length of the interval, divided by the size 1, to `0s`. -/
theorem solo_update {A : Arith} (hA : Lawful A) {m : IntervalMap} (hwf : WellFormed m)
    {k : String} {ss : StartStop} (hk : (k, ss) ∈ m) (hsolo : Solo m k ss)
    {pre post : List Event} {e : Event} {s : SweepState} {sA : SweepStateIn A}
    (hc : Admissible m (pre ++ e :: post)) (hinv : SweepInv m pre s) (hsim : Sim A sA s)
    (hJ : SoloInv A k ss sA) {v₀ : A.Dur} (hv₀ : (k, v₀) ∈ sA.activeTasks) :
    A.add v₀ (A.divSize (A.ofMs (e.time - sA.previousTime)) sA.activeTasks.length) =
      if e.time = ss.stop then A.ofMs (ss.stop - ss.start) else A.zero := by
  have hnd := hc.nodupKeys
  have hkeyA : k ∈ sA.activeTasks.map Prod.fst := List.mem_map.2 ⟨_, hv₀, rfl⟩
  rw [hsim.keys] at hkeyA
  obtain ⟨⟨k', v⟩, hmem, hkk⟩ := List.mem_map.1 hkeyA
  simp only at hkk
  subst hkk
  obtain ⟨ss', hss', hstart, hstop, _⟩ := hinv.active_sound k' v hmem
  have hss : ss' = ss := by
    have := nodupKeys_eq hnd hss' hk rfl
    exact congrArg Prod.snd this
  subst hss
  have hne : pre ≠ [] := by
    intro h
    rw [h] at hstart
    simp at hstart
  have hp1 : ss'.start ≤ s.previousTime := hinv.prev_ge hc _ hstart
  have hp2 : s.previousTime ≤ e.time := hinv.prev_le hc hne
  have hp3 : e.time ≤ ss'.stop :=
    hc.time_ge_of_not_mem_pre
      (hc.perm.mem_iff.2 (mem_pushEvents.2 ⟨(k', ss'), hk, Or.inr rfl⟩)) hstop
  have hmemAll : ∀ x ∈ pre ++ e :: post, x.time ≤ ss'.start ∨ ss'.stop ≤ x.time := fun x hx =>
    solo_time_outside hnd hwf hk hsolo (hc.perm.mem_iff.1 hx)
  have hpo : s.previousTime ≤ ss'.start ∨ ss'.stop ≤ s.previousTime := by
    rcases List.eq_nil_or_concat pre with h | ⟨pre', e₀, h⟩
    · exact absurd h hne
    · rw [List.concat_eq_append] at h
      rw [hinv.prev pre' e₀ h]
      exact hmemAll e₀ (by rw [h]; simp)
  have heo : e.time ≤ ss'.start ∨ ss'.stop ≤ e.time := hmemAll e (by simp)
  have hlen : sA.activeTasks.length = s.activeTasks.length := by
    have := congrArg List.length hsim.keys
    simpa using this
  have hpos : 0 < s.activeTasks.length := List.length_pos_of_mem hmem
  have hzz : A.add A.zero A.zero = A.zero := by
    have := hA.zero_add 0
    rw [hA.ofMs_zero] at this
    exact this
  have hval := hJ.active v₀ hv₀
  rw [hsim.time] at hval ⊢
  rw [hlen]
  by_cases heq : e.time = s.previousTime
  · rw [heq, sub_self, hA.ofMs_zero, hA.zero_div _ hpos, hval]
    by_cases hst : s.previousTime = ss'.stop
    · rw [if_pos hst, hA.add_zero]
    · rw [if_neg hst, hzz]
  · have h₁ : s.previousTime = ss'.start := by omega
    have h₂ : e.time = ss'.stop := by omega
    have h₃ : s.previousTime ≠ ss'.stop := by omega
    have hone : s.activeTasks.length = 1 := by
      have hall : ∀ x ∈ s.activeTasks.map Prod.fst, x = k' := by
        intro x hx
        obtain ⟨⟨k₂, v₂⟩, hmem₂, hk₂⟩ := List.mem_map.1 hx
        simp only at hk₂
        subst hk₂
        obtain ⟨ss₂, hss₂, hstart₂, hstop₂, _⟩ := hinv.active_sound k₂ v₂ hmem₂
        by_contra hne₂
        have q₁ : ss₂.start ≤ s.previousTime := hinv.prev_ge hc _ hstart₂
        have q₂ : e.time ≤ ss₂.stop :=
          hc.time_ge_of_not_mem_pre
            (hc.perm.mem_iff.2 (mem_pushEvents.2 ⟨(k₂, ss₂), hss₂, Or.inr rfl⟩)) hstop₂
        have q₃ := hsolo (k₂, ss₂) hss₂ hne₂
        simp only at q₃
        omega
      have := length_eq_one_of_all_eq hinv.nodupActive hkeyA hall
      simpa using this
    rw [hval, if_neg h₃, if_pos h₂, hone, h₂, h₁, hA.div_one, hA.zero_add]

/-- Every step of the sweep keeps the values of a solo task. -/
theorem solo_step {A : Arith} (hA : Lawful A) {m : IntervalMap} (hwf : WellFormed m)
    {k : String} {ss : StartStop} (hk : (k, ss) ∈ m) (hsolo : Solo m k ss)
    (pre post : List Event) (e : Event) (s : SweepState) (sA sA' : SweepStateIn A)
    (hc : Admissible m (pre ++ e :: post)) (hinv : SweepInv m pre s) (hsim : Sim A sA s)
    (hJ : SoloInv A k ss sA) (hstep : stepIn A sA e = .ok sA') : SoloInv A k ss sA' := by
  have hnd := hc.nodupKeys
  have he : e ∈ pushEvents m := hc.perm.mem_iff.1 (by simp)
  constructor
  · intro v hv
    rw [stepIn_previousTime hstep]
    rcases stepIn_active hstep hv with ⟨v₀, hv₀, rfl⟩ | ⟨hstart, hout, rfl⟩
    · exact solo_update hA hwf hk hsolo hc hinv hsim hJ hv₀
    · obtain ⟨kv, hkv, h | h⟩ := mem_pushEvents.1 he
      · have hkv' : kv = (k, ss) := nodupKeys_eq hnd hkv hk (by rw [h] at hout; exact hout)
        have ht : e.time = ss.start := by rw [h, hkv']; rfl
        rw [ht]
        by_cases hz : ss.start = ss.stop
        · rw [if_pos hz, hz, sub_self, hA.ofMs_zero]
        · rw [if_neg hz]
      · rw [h] at hstart
        simp [stopEvent] at hstart
  · intro v hv
    rcases stepIn_finished hstep hv with hold | ⟨hstop, hout, v₀, hv₀, rfl⟩
    · exact hJ.finished v hold
    · rw [solo_update hA hwf hk hsolo hc hinv hsim hJ hv₀]
      obtain ⟨kv, hkv, h | h⟩ := mem_pushEvents.1 he
      · rw [h] at hstop
        simp [startEvent] at hstop
      · have hkv' : kv = (k, ss) := nodupKeys_eq hnd hkv hk (by rw [h] at hout; exact hout)
        have ht : e.time = ss.stop := by rw [h, hkv']; rfl
        rw [if_pos ht]

theorem finishedIn_ok {A : Arith} {evs : List Event} {fin : List (A.Dur × String)}
    (h : finishedIn A evs = .ok fin) :
    ∃ sA, sweepIn A (SweepStateIn.init A) evs = .ok sA ∧ sA.finishedTasks = fin := by
  unfold finishedIn at h
  cases hs : sweepIn A (SweepStateIn.init A) evs with
  | error err => rw [hs] at h; cases h
  | ok sA =>
    rw [hs] at h
    simp only [Except.ok.injEq] at h
    exact ⟨sA, rfl, h⟩

/-- A sweep over an arithmetic that accepts a time-ascending arrangement of the
events of a table has the start of every task ahead of its stop. -/
theorem admissible_of_sweepIn_ok {A : Arith} {m : IntervalMap} {evs : List Event}
    (hnd : NodupKeys m) (hperm : evs.Perm (pushEvents m)) (hsorted : evs.Sorted timeLE)
    {sA : SweepStateIn A} (hok : sweepIn A (SweepStateIn.init A) evs = .ok sA) :
    Admissible m evs := by
  rcases sweepIn_sim evs (sim_init A) with ⟨_, s', _, h₂, _⟩ | ⟨err, h₁, _⟩
  · exact admissible_of_sweep_ok hnd hperm hsorted h₂
  · rw [hok] at h₁
    cases h₁

/-- The sweep over an arithmetic accepts every admissible event list. -/
theorem finishedIn_completes (A : Arith) {m : IntervalMap} {evs : List Event}
    (hc : Admissible m evs) : ∃ fin, finishedIn A evs = .ok fin := by
  obtain ⟨s', sA', _, hA', _⟩ := sweepIn_inv (fun _ => True)
    (fun _ _ _ _ _ _ _ _ _ _ _ => trivial) evs [] SweepState.init (SweepStateIn.init A)
    (by simpa using hc) (sweepInv_init m) (sim_init A) trivial
  exact ⟨sA'.finishedTasks, by unfold finishedIn; rw [hA']⟩

/-- Over every lawful arithmetic, a sweep that accepts a time-ascending
arrangement of the events of a table attributes to a solo task the converted
length of its interval: the value `wallClockTime` of the presenter. -/
theorem solo_finishedIn {A : Arith} (hA : Lawful A) {m : IntervalMap} (hnd : NodupKeys m)
    (hwf : WellFormed m) {k : String} {ss : StartStop} (hk : (k, ss) ∈ m) (hsolo : Solo m k ss)
    {evs : List Event} (hperm : evs.Perm (pushEvents m)) (hsorted : evs.Sorted timeLE)
    {fin : List (A.Dur × String)} (hok : finishedIn A evs = .ok fin) :
    attributedIn A fin k = some (A.ofMs (ss.stop - ss.start)) := by
  obtain ⟨sA, hsA, rfl⟩ := finishedIn_ok hok
  have hc := admissible_of_sweepIn_ok hnd hperm hsorted hsA
  obtain ⟨s', sA', _, hA', hinv, hsim, hJ⟩ := sweepIn_inv (SoloInv A k ss)
    (solo_step hA hwf hk hsolo) evs [] SweepState.init (SweepStateIn.init A)
    (by simpa using hc) (sweepInv_init m) (sim_init A)
    ⟨fun v hv => by simp [SweepStateIn.init] at hv, fun v hv => by simp [SweepStateIn.init] at hv⟩
  rw [hsA] at hA'
  cases hA'
  simp only [List.nil_append] at hinv
  have hmem : k ∈ sA.finishedTasks.map Prod.snd := by
    rw [hsim.outputs]
    exact hinv.finished_complete (k, ss) hk
      (hperm.mem_iff.2 (mem_pushEvents.2 ⟨(k, ss), hk, Or.inr rfl⟩))
  unfold attributedIn
  cases hfind : sA.finishedTasks.find? (fun w => w.2 == k) with
  | none =>
    exfalso
    obtain ⟨w, hw, hwk⟩ := List.mem_map.1 hmem
    have := List.find?_eq_none.1 hfind w hw
    simp [hwk] at this
  | some w =>
    have hw := List.mem_of_find?_eq_some hfind
    have hp := List.find?_some hfind
    have hwk : w.2 = k := by simpa using hp
    have : w = (w.1, k) := by rw [← hwk]
    rw [this] at hw
    rw [Option.map_some', hJ.finished w.1 hw]

/-- A sweep over an arithmetic that accepts a time-ascending arrangement of the
events of a table finishes every task of the table. -/
theorem attributedIn_isSome {A : Arith} {m : IntervalMap} (hnd : NodupKeys m) {k : String}
    {ss : StartStop} (hk : (k, ss) ∈ m) {evs : List Event} (hperm : evs.Perm (pushEvents m))
    (hsorted : evs.Sorted timeLE) {fin : List (A.Dur × String)}
    (hok : finishedIn A evs = .ok fin) : ∃ a, attributedIn A fin k = some a := by
  obtain ⟨sA, hsA, rfl⟩ := finishedIn_ok hok
  have hc := admissible_of_sweepIn_ok hnd hperm hsorted hsA
  obtain ⟨s', sA', _, hA', hinv, hsim, _⟩ := sweepIn_inv (fun _ => True)
    (fun _ _ _ _ _ _ _ _ _ _ _ => trivial) evs [] SweepState.init (SweepStateIn.init A)
    (by simpa using hc) (sweepInv_init m) (sim_init A) trivial
  rw [hsA] at hA'
  cases hA'
  simp only [List.nil_append] at hinv
  have hmem : k ∈ sA.finishedTasks.map Prod.snd := by
    rw [hsim.outputs]
    exact hinv.finished_complete (k, ss) hk
      (hperm.mem_iff.2 (mem_pushEvents.2 ⟨(k, ss), hk, Or.inr rfl⟩))
  unfold attributedIn
  cases hfind : sA.finishedTasks.find? (fun w => w.2 == k) with
  | none =>
    exfalso
    obtain ⟨w, hw, hwk⟩ := List.mem_map.1 hmem
    have := List.find?_eq_none.1 hfind w hw
    simp [hwk] at this
  | some w => exact ⟨w.1, rfl⟩

/-- Over exact arithmetic the sweep is the sweep `step` of the exact model. -/
theorem stepIn_exact (s : SweepState) (e : Event) :
    stepIn exactArith
        ⟨s.activeTasks, s.finishedTasks.map fun w => (w.time, w.output), s.previousTime⟩ e =
      match step s e with
      | .error err => .error err
      | .ok s' =>
        .ok ⟨s'.activeTasks, s'.finishedTasks.map fun w => (w.time, w.output), s'.previousTime⟩ := by
  have hadd : ∀ (act : List (String × ℚ)) (d : ℤ), addWctrIn exactArith act d = addWctr act d :=
    fun _ _ => rfl
  have hemp : ∀ (act : List (String × ℚ)) (o : String),
      emplaceIn exactArith act o = emplace act o := by
    intro act o
    unfold emplaceIn emplace
    cases act.lookup o <;> rfl
  have hera : ∀ (act : List (String × ℚ)) (o : String), eraseKeyIn exactArith act o = eraseKey act o :=
    fun _ _ => rfl
  unfold stepIn step
  simp only [hadd, hemp, hera]
  by_cases hstart : e.isStart = true
  · simp only [hstart, if_true]
  · simp only [hstart, Bool.false_eq_true, if_false]
    cases hl : (addWctr s.activeTasks (e.time - s.previousTime)).lookup e.output with
    | none => rfl
    | some d => simp

/-- Over exact arithmetic the finished tasks are those of the exact sweep. -/
theorem sweepIn_exact : ∀ (evs : List Event) (s : SweepState),
    sweepIn exactArith
        ⟨s.activeTasks, s.finishedTasks.map fun w => (w.time, w.output), s.previousTime⟩ evs =
      match sweep s evs with
      | .error err => .error err
      | .ok s' =>
        .ok ⟨s'.activeTasks, s'.finishedTasks.map fun w => (w.time, w.output), s'.previousTime⟩ := by
  intro evs
  induction evs with
  | nil => intro s; rfl
  | cons e rest ih =>
    intro s
    rw [sweepIn_cons, sweep_cons, stepIn_exact]
    cases step s e with
    | error err => rfl
    | ok s' => exact ih s'

/-! ## Rounding to the nearest double -/

theorem log2Fuel_spec : ∀ (fuel n : ℕ), n ≤ fuel → 1 ≤ n →
    2 ^ log2Fuel fuel n ≤ n ∧ n < 2 ^ (log2Fuel fuel n + 1) := by
  intro fuel
  induction fuel with
  | zero => intro n h₁ h₂; omega
  | succ fuel ih =>
    intro n h₁ h₂
    unfold log2Fuel
    by_cases h : 2 ≤ n
    · rw [if_pos h]
      obtain ⟨ih₁, ih₂⟩ := ih (n / 2) (by omega) (by omega)
      rw [pow_succ] at ih₂ ⊢
      rw [pow_succ (2 : ℕ) (log2Fuel fuel (n / 2) + 1), pow_succ]
      constructor <;> omega
    · rw [if_neg h]
      constructor <;> simp <;> omega

theorem natLog2_spec {n : ℕ} (h : 1 ≤ n) : 2 ^ natLog2 n ≤ n ∧ n < 2 ^ (natLog2 n + 1) :=
  log2Fuel_spec n n (le_refl n) h

theorem two_zpow_pos (e : ℤ) : (0 : ℚ) < (2 : ℚ) ^ e := zpow_pos (by norm_num) e

theorem two_zpow_succ (e : ℤ) : (2 : ℚ) ^ (e + 1) = 2 * (2 : ℚ) ^ e := by
  rw [zpow_add₀ (by norm_num : (2 : ℚ) ≠ 0), zpow_one, mul_comm]

/-- The binary exponent brackets a positive rational. -/
theorem floorLog2_spec {a : ℚ} (ha : 0 < a) :
    (2 : ℚ) ^ floorLog2 a ≤ a ∧ a < (2 : ℚ) ^ (floorLog2 a + 1) := by
  have hnum : 0 < a.num := Rat.num_pos.2 ha
  have hN : 1 ≤ a.num.natAbs := by omega
  have hD : 1 ≤ a.den := a.den_pos
  obtain ⟨n₁, n₂⟩ := natLog2_spec hN
  obtain ⟨d₁, d₂⟩ := natLog2_spec hD
  have hcast : ((a.num.natAbs : ℕ) : ℚ) = (a.num : ℚ) := by
    rw [← Int.cast_natCast, Int.natAbs_of_nonneg (le_of_lt hnum)]
  have ha' : a = ((a.num.natAbs : ℕ) : ℚ) / (a.den : ℚ) := by
    rw [hcast]; exact (Rat.num_div_den a).symm
  have hDpos : (0 : ℚ) < (a.den : ℚ) := by exact_mod_cast hD
  have n₁' : (2 : ℚ) ^ (natLog2 a.num.natAbs) ≤ ((a.num.natAbs : ℕ) : ℚ) := by exact_mod_cast n₁
  have n₂' : ((a.num.natAbs : ℕ) : ℚ) < (2 : ℚ) ^ (natLog2 a.num.natAbs + 1) := by
    exact_mod_cast n₂
  have d₁' : (2 : ℚ) ^ (natLog2 a.den) ≤ (a.den : ℚ) := by exact_mod_cast d₁
  have d₂' : (a.den : ℚ) < (2 : ℚ) ^ (natLog2 a.den + 1) := by exact_mod_cast d₂
  have hl : (2 : ℚ) ^ ((natLog2 a.num.natAbs : ℤ) - (natLog2 a.den : ℤ)) =
      (2 : ℚ) ^ (natLog2 a.num.natAbs) / (2 : ℚ) ^ (natLog2 a.den) := by
    rw [zpow_sub₀ (by norm_num : (2 : ℚ) ≠ 0), zpow_natCast, zpow_natCast]
  have hPn : (0 : ℚ) < (2 : ℚ) ^ (natLog2 a.num.natAbs) := by positivity
  have hPd : (0 : ℚ) < (2 : ℚ) ^ (natLog2 a.den) := by positivity
  -- upper bound: a < 2 * 2^l
  have hup : a < 2 * ((2 : ℚ) ^ (natLog2 a.num.natAbs) / (2 : ℚ) ^ (natLog2 a.den)) := by
    refine lt_of_eq_of_lt ha' ?_
    rw [div_lt_iff₀ hDpos]
    rw [pow_succ] at n₂'
    calc ((a.num.natAbs : ℕ) : ℚ) < (2 : ℚ) ^ (natLog2 a.num.natAbs) * 2 := n₂'
      _ = 2 * ((2 : ℚ) ^ (natLog2 a.num.natAbs) / (2 : ℚ) ^ (natLog2 a.den)) *
            (2 : ℚ) ^ (natLog2 a.den) := by field_simp; ring
      _ ≤ 2 * ((2 : ℚ) ^ (natLog2 a.num.natAbs) / (2 : ℚ) ^ (natLog2 a.den)) * (a.den : ℚ) := by
          apply mul_le_mul_of_nonneg_left d₁'
          positivity
  -- lower bound: 2^l / 2 ≤ a
  have hlow : (2 : ℚ) ^ (natLog2 a.num.natAbs) / (2 : ℚ) ^ (natLog2 a.den) / 2 ≤ a := by
    refine le_of_le_of_eq ?_ ha'.symm
    rw [le_div_iff₀ hDpos]
    rw [pow_succ] at d₂'
    calc (2 : ℚ) ^ (natLog2 a.num.natAbs) / (2 : ℚ) ^ (natLog2 a.den) / 2 * (a.den : ℚ)
        ≤ (2 : ℚ) ^ (natLog2 a.num.natAbs) / (2 : ℚ) ^ (natLog2 a.den) / 2 *
            ((2 : ℚ) ^ (natLog2 a.den) * 2) := by
          apply mul_le_mul_of_nonneg_left (le_of_lt d₂')
          positivity
      _ = (2 : ℚ) ^ (natLog2 a.num.natAbs) := by field_simp
      _ ≤ ((a.num.natAbs : ℕ) : ℚ) := n₁'
  unfold floorLog2
  by_cases hle : (2 : ℚ) ^ ((natLog2 a.num.natAbs : ℤ) - (natLog2 a.den : ℤ)) ≤ a
  · rw [if_pos hle]
    refine ⟨hle, ?_⟩
    rw [two_zpow_succ, hl]
    exact hup
  · rw [if_neg hle, sub_add_cancel]
    refine ⟨?_, lt_of_not_le hle⟩
    have : (2 : ℚ) ^ ((natLog2 a.num.natAbs : ℤ) - (natLog2 a.den : ℤ) - 1) =
        (2 : ℚ) ^ (natLog2 a.num.natAbs) / (2 : ℚ) ^ (natLog2 a.den) / 2 := by
      rw [zpow_sub₀ (by norm_num : (2 : ℚ) ≠ 0), hl, zpow_one]
    rw [this]
    exact hlow

/-- The binary exponent is the only one that brackets the rational. -/
theorem floorLog2_unique {a : ℚ} {e : ℤ} (h₁ : (2 : ℚ) ^ e ≤ a) (h₂ : a < (2 : ℚ) ^ (e + 1)) :
    floorLog2 a = e := by
  have ha : 0 < a := lt_of_lt_of_le (two_zpow_pos e) h₁
  obtain ⟨s₁, s₂⟩ := floorLog2_spec ha
  have q₁ : (2 : ℚ) ^ e < (2 : ℚ) ^ (floorLog2 a + 1) := lt_of_le_of_lt h₁ s₂
  have q₂ : (2 : ℚ) ^ floorLog2 a < (2 : ℚ) ^ (e + 1) := lt_of_le_of_lt s₁ h₂
  have r₁ := (zpow_lt_zpow_iff_right₀ (by norm_num : (1 : ℚ) < 2)).1 q₁
  have r₂ := (zpow_lt_zpow_iff_right₀ (by norm_num : (1 : ℚ) < 2)).1 q₂
  omega

theorem roundHalfEven_intCast (n : ℤ) : roundHalfEven (n : ℚ) = n := by
  unfold roundHalfEven
  rw [Int.floor_intCast, sub_self, if_pos (by norm_num)]

theorem roundHalfEven_bounds (q : ℚ) : ⌊q⌋ ≤ roundHalfEven q ∧ roundHalfEven q ≤ ⌊q⌋ + 1 := by
  unfold roundHalfEven
  split_ifs <;> constructor <;> omega

theorem two_zpow_split (f : ℤ) (c : ℤ) : (2 : ℚ) ^ (f + c) = (2 : ℚ) ^ c * (2 : ℚ) ^ f := by
  rw [zpow_add₀ (by norm_num : (2 : ℚ) ≠ 0), mul_comm]

/-- A number with a significand of exactly 53 binary digits is its own rounding. -/
theorem roundPos_int {M f : ℤ} (h₁ : 2 ^ 52 ≤ M) (h₂ : M < 2 ^ 53) :
    roundPos ((M : ℚ) * (2 : ℚ) ^ (f - 52)) = (M : ℚ) * (2 : ℚ) ^ (f - 52) := by
  have hp := two_zpow_pos (f - 52)
  have c₁ : ((2 : ℚ) ^ (52 : ℤ)) ≤ (M : ℚ) := by
    have : ((2 ^ 52 : ℤ) : ℚ) ≤ (M : ℚ) := Int.cast_le.2 h₁
    norm_num at this ⊢
    exact this
  have c₂ : (M : ℚ) < ((2 : ℚ) ^ (53 : ℤ)) := by
    have : (M : ℚ) < ((2 ^ 53 : ℤ) : ℚ) := Int.cast_lt.2 h₂
    norm_num at this ⊢
    exact this
  have e₁ : (2 : ℚ) ^ f = (2 : ℚ) ^ (52 : ℤ) * (2 : ℚ) ^ (f - 52) := by
    rw [← two_zpow_split]; congr 1; ring
  have e₂ : (2 : ℚ) ^ (f + 1) = (2 : ℚ) ^ (53 : ℤ) * (2 : ℚ) ^ (f - 52) := by
    rw [← two_zpow_split]; congr 1; ring
  have hfl : floorLog2 ((M : ℚ) * (2 : ℚ) ^ (f - 52)) = f := by
    apply floorLog2_unique
    · rw [e₁]; exact mul_le_mul_of_nonneg_right c₁ (le_of_lt hp)
    · rw [e₂]; exact mul_lt_mul_of_pos_right c₂ hp
  unfold roundPos
  rw [hfl, mul_div_cancel_right₀ _ (ne_of_gt hp), roundHalfEven_intCast]

/-- The rounding of a positive rational has a significand of 53 binary digits,
or is the next power of two. -/
theorem roundPos_form {x : ℚ} (hx : 0 < x) :
    ∃ M : ℤ, 2 ^ 52 ≤ M ∧ M ≤ 2 ^ 53 ∧
      roundPos x = (M : ℚ) * (2 : ℚ) ^ (floorLog2 x - 52) := by
  obtain ⟨s₁, s₂⟩ := floorLog2_spec hx
  have hp := two_zpow_pos (floorLog2 x - 52)
  have e₁ : (2 : ℚ) ^ floorLog2 x = (2 : ℚ) ^ (52 : ℤ) * (2 : ℚ) ^ (floorLog2 x - 52) := by
    rw [← two_zpow_split]; congr 1; ring
  have e₂ : (2 : ℚ) ^ (floorLog2 x + 1) =
      (2 : ℚ) ^ (53 : ℤ) * (2 : ℚ) ^ (floorLog2 x - 52) := by
    rw [← two_zpow_split]; congr 1; ring
  have q₁ : ((2 ^ 52 : ℤ) : ℚ) ≤ x / (2 : ℚ) ^ (floorLog2 x - 52) := by
    rw [le_div_iff₀ hp]
    rw [e₁] at s₁
    norm_num at s₁ ⊢
    exact s₁
  have q₂ : x / (2 : ℚ) ^ (floorLog2 x - 52) < ((2 ^ 53 : ℤ) : ℚ) := by
    rw [div_lt_iff₀ hp]
    rw [e₂] at s₂
    norm_num at s₂ ⊢
    exact s₂
  have f₁ : (2 ^ 52 : ℤ) ≤ ⌊x / (2 : ℚ) ^ (floorLog2 x - 52)⌋ := Int.le_floor.2 q₁
  have f₂ : ⌊x / (2 : ℚ) ^ (floorLog2 x - 52)⌋ < (2 ^ 53 : ℤ) := Int.floor_lt.2 q₂
  obtain ⟨b₁, b₂⟩ := roundHalfEven_bounds (x / (2 : ℚ) ^ (floorLog2 x - 52))
  exact ⟨roundHalfEven (x / (2 : ℚ) ^ (floorLog2 x - 52)), by omega, by omega, rfl⟩

theorem roundPos_pos {x : ℚ} (hx : 0 < x) : 0 < roundPos x := by
  obtain ⟨M, h₁, _, h⟩ := roundPos_form hx
  rw [h]
  have : (0 : ℚ) < (M : ℚ) := by
    have : (0 : ℤ) < M := by omega
    exact_mod_cast this
  exact mul_pos this (two_zpow_pos _)

theorem roundPos_idem {x : ℚ} (hx : 0 < x) : roundPos (roundPos x) = roundPos x := by
  obtain ⟨M, h₁, h₂, h⟩ := roundPos_form hx
  rw [h]
  by_cases hM : M < 2 ^ 53
  · exact roundPos_int h₁ hM
  · have hM' : M = 2 ^ 53 := by omega
    have e : (M : ℚ) * (2 : ℚ) ^ (floorLog2 x - 52) =
        ((2 ^ 52 : ℤ) : ℚ) * (2 : ℚ) ^ ((floorLog2 x + 1) - 52) := by
      rw [hM']
      have : (2 : ℚ) ^ (floorLog2 x + 1 - 52) = 2 * (2 : ℚ) ^ (floorLog2 x - 52) := by
        rw [← two_zpow_succ]; congr 1; ring
      rw [this]
      push_cast
      ring
    rw [e]
    exact roundPos_int (le_refl _) (by norm_num)

theorem roundDouble_zero : roundDouble 0 = 0 := by
  unfold roundDouble
  rw [if_pos rfl]

theorem roundDouble_of_pos {x : ℚ} (hx : 0 < x) : roundDouble x = roundPos x := by
  unfold roundDouble
  rw [if_neg (ne_of_gt hx), if_pos hx]

theorem roundDouble_of_neg {x : ℚ} (hx : x < 0) : roundDouble x = -roundPos (-x) := by
  unfold roundDouble
  rw [if_neg (ne_of_lt hx), if_neg (not_lt.2 (le_of_lt hx))]

theorem roundDouble_pos {x : ℚ} (hx : 0 < x) : 0 < roundDouble x := by
  rw [roundDouble_of_pos hx]
  exact roundPos_pos hx

theorem roundDouble_nonneg {x : ℚ} (hx : 0 ≤ x) : 0 ≤ roundDouble x := by
  rcases eq_or_lt_of_le hx with h | h
  · rw [← h, roundDouble_zero]
  · exact le_of_lt (roundDouble_pos h)

/-- Rounding a double changes nothing. -/
theorem roundDouble_idem (x : ℚ) : roundDouble (roundDouble x) = roundDouble x := by
  rcases lt_trichotomy x 0 with h | h | h
  · have hp : 0 < roundPos (-x) := roundPos_pos (by linarith)
    rw [roundDouble_of_neg h, roundDouble_of_neg (by linarith), neg_neg,
      roundPos_idem (by linarith)]
  · rw [h, roundDouble_zero, roundDouble_zero]
  · rw [roundDouble_of_pos h, roundDouble_of_pos (roundPos_pos h), roundPos_idem h]

theorem roundDouble_one : roundDouble 1 = 1 := by
  rw [roundDouble_of_pos (by norm_num)]
  have e : (1 : ℚ) = ((2 ^ 52 : ℤ) : ℚ) * (2 : ℚ) ^ ((0 : ℤ) - 52) := by
    norm_num
  rw [e]
  exact roundPos_int (le_refl _) (by norm_num)

theorem doubleOfMs_pos {d : ℤ} (hd : 0 < d) : 0 < doubleOfMs d := by
  unfold doubleOfMs
  apply roundDouble_pos
  apply div_pos _ (by norm_num)
  apply roundDouble_pos
  exact_mod_cast hd

theorem doubleOfMs_nonneg {d : ℤ} (hd : 0 ≤ d) : 0 ≤ doubleOfMs d := by
  unfold doubleOfMs
  apply roundDouble_nonneg
  apply div_nonneg _ (by norm_num)
  apply roundDouble_nonneg
  exact_mod_cast hd


/-! ## The two arithmetics are lawful -/

theorem lawful_exactArith : Lawful exactArith :=
  ⟨by simp, fun d => by simp, fun d => by simp, fun n _ => by simp,
    fun d => by simp⟩

/-- Doubles satisfy the laws: the sum of a double and zero and the quotient of
a double by one are that double, because a double is its own rounding. -/
theorem lawful_doubleArith : Lawful doubleArith := by
  refine ⟨?_, ?_, ?_, ?_, ?_⟩
  · show doubleOfMs 0 = 0
    unfold doubleOfMs
    rw [Int.cast_zero, roundDouble_zero, zero_div, roundDouble_zero]
  · intro d
    show doubleAdd 0 (doubleOfMs d) = doubleOfMs d
    unfold doubleAdd doubleOfMs
    rw [zero_add, roundDouble_idem]
  · intro d
    show doubleAdd (doubleOfMs d) 0 = doubleOfMs d
    unfold doubleAdd doubleOfMs
    rw [add_zero, roundDouble_idem]
  · intro n _
    show doubleDivSize 0 n = 0
    unfold doubleDivSize
    rw [zero_div, roundDouble_zero]
  · intro d
    show doubleDivSize (doubleOfMs d) 1 = doubleOfMs d
    unfold doubleDivSize doubleOfMs
    rw [Nat.cast_one, roundDouble_one, div_one, roundDouble_idem]

/-- In doubles the quotient of the wall-clock time by itself is 1. -/
theorem parallelismDouble_self {ss : StartStop} (h : ss.start < ss.stop) :
    parallelismDouble ss (doubleOfMs (ss.stop - ss.start)) = some 1 := by
  have hpos : 0 < doubleOfMs (ss.stop - ss.start) := doubleOfMs_pos (by omega)
  unfold parallelismDouble
  rw [if_neg (ne_of_gt hpos), div_self (ne_of_gt hpos), roundDouble_one]

/-! ## Attributed times in doubles are not negative -/

theorem doubleDivSize_nonneg {a : ℚ} (ha : 0 ≤ a) (n : ℕ) : 0 ≤ doubleDivSize a n := by
  unfold doubleDivSize
  exact roundDouble_nonneg (div_nonneg ha (roundDouble_nonneg (Nat.cast_nonneg n)))

theorem doubleAdd_nonneg {a b : ℚ} (ha : 0 ≤ a) (hb : 0 ≤ b) : 0 ≤ doubleAdd a b := by
  unfold doubleAdd
  exact roundDouble_nonneg (add_nonneg ha hb)

/-- Every step of the sweep in doubles keeps the values non-negative: while a
task is active, time does not run backwards. -/
theorem nonneg_step {m : IntervalMap} (pre post : List Event) (e : Event) (s : SweepState)
    (sA sA' : SweepStateIn doubleArith) (hc : Admissible m (pre ++ e :: post))
    (hinv : SweepInv m pre s) (hsim : Sim doubleArith sA s)
    (hJ : (∀ k (v : ℚ), (k, v) ∈ sA.activeTasks → 0 ≤ v) ∧
      ∀ (v : ℚ) k, (v, k) ∈ sA.finishedTasks → 0 ≤ v)
    (hstep : stepIn doubleArith sA e = .ok sA') :
    (∀ k (v : ℚ), (k, v) ∈ sA'.activeTasks → 0 ≤ v) ∧
      ∀ (v : ℚ) k, (v, k) ∈ sA'.finishedTasks → 0 ≤ v := by
  have hupd : ∀ k (v₀ : ℚ), (k, v₀) ∈ sA.activeTasks →
      0 ≤ doubleAdd v₀ (doubleDivSize (doubleOfMs (e.time - sA.previousTime))
        sA.activeTasks.length) := by
    intro k v₀ hv₀
    have hkey : k ∈ s.activeTasks.map Prod.fst := by
      rw [← hsim.keys]
      exact List.mem_map.2 ⟨_, hv₀, rfl⟩
    obtain ⟨⟨k', v⟩, hmem, hkk⟩ := List.mem_map.1 hkey
    obtain ⟨ss', _, hstart, _, _⟩ := hinv.active_sound k' v hmem
    have hne : pre ≠ [] := by
      intro h
      rw [h] at hstart
      simp at hstart
    have hle : s.previousTime ≤ e.time := hinv.prev_le hc hne
    rw [hsim.time]
    exact doubleAdd_nonneg (hJ.1 k v₀ hv₀)
      (doubleDivSize_nonneg (doubleOfMs_nonneg (by omega)) _)
  constructor
  · intro k v hv
    rcases stepIn_active hstep hv with ⟨v₀, hv₀, rfl⟩ | ⟨_, _, rfl⟩
    · exact hupd k v₀ hv₀
    · exact le_refl _
  · intro v k hv
    rcases stepIn_finished hstep hv with hold | ⟨_, _, v₀, hv₀, rfl⟩
    · exact hJ.2 v k hold
    · exact hupd k v₀ hv₀

theorem mem_of_attributedIn {A : Arith} {fin : List (A.Dur × String)} {k : String} {a : A.Dur}
    (h : attributedIn A fin k = some a) : (a, k) ∈ fin := by
  unfold attributedIn at h
  cases hfind : fin.find? (fun w => w.2 == k) with
  | none => rw [hfind] at h; cases h
  | some w =>
    rw [hfind] at h
    simp only [Option.map_some', Option.some.injEq] at h
    have hw := List.mem_of_find?_eq_some hfind
    have hp := List.find?_some hfind
    have hwk : w.2 = k := by simpa using hp
    rw [← h, ← hwk]
    exact hw

/-- In doubles, a sweep that accepts a time-ascending arrangement of the events
of a table attributes no negative time. -/
theorem double_nonneg {m : IntervalMap} (hnd : NodupKeys m) {evs : List Event}
    (hperm : evs.Perm (pushEvents m)) (hsorted : evs.Sorted timeLE)
    {fin : List (ℚ × String)} (hok : finishedIn doubleArith evs = .ok fin) {k : String} {a : ℚ}
    (ha : attributedIn doubleArith fin k = some a) : 0 ≤ a := by
  obtain ⟨sA, hsA, rfl⟩ := finishedIn_ok hok
  have hc := admissible_of_sweepIn_ok hnd hperm hsorted hsA
  obtain ⟨s', sA', _, hA', _, _, hJ⟩ := sweepIn_inv
    (fun sA : SweepStateIn doubleArith => (∀ k (v : ℚ), (k, v) ∈ sA.activeTasks → 0 ≤ v) ∧
      ∀ (v : ℚ) k, (v, k) ∈ sA.finishedTasks → 0 ≤ v)
    nonneg_step evs [] SweepState.init (SweepStateIn.init doubleArith)
    (by simpa using hc) (sweepInv_init m) (sim_init doubleArith)
    ⟨fun k v hv => by simp [SweepStateIn.init] at hv,
      fun v k hv => by simp [SweepStateIn.init] at hv⟩
  rw [hsA] at hA'
  cases hA'
  exact hJ.2 a k (mem_of_attributedIn ha)

/-! ## Solo task (C3) and equal split (C4) -/

theorem countP_eq_one {α : Type} [DecidableEq α] (p : α → Bool) :
    ∀ (l : List α) (x : α), l.Nodup → x ∈ l → p x = true →
      (∀ y ∈ l, y ≠ x → p y = false) → l.countP p = 1 := by
  intro l
  induction l with
  | nil => intro x _ hx; simp at hx
  | cons a l ih =>
    intro x hnd hx hpx hothers
    rw [List.countP_cons]
    by_cases hax : a = x
    · subst hax
      have hzero : l.countP p = 0 := by
        rw [List.countP_eq_zero]
        intro y hy
        have hne : y ≠ a := fun h => (List.nodup_cons.1 hnd).1 (h ▸ hy)
        simp [hothers y (List.mem_cons_of_mem _ hy) hne]
      simp [hzero, hpx]
    · have hx' : x ∈ l := by
        rcases List.mem_cons.1 hx with h | h
        · exact absurd h.symm hax
        · exact h
      rw [ih x (List.nodup_cons.1 hnd).2 hx' hpx
        (fun y hy hne => hothers y (List.mem_cons_of_mem _ hy) hne)]
      simp [hothers a (List.mem_cons_self _ _) hax]

theorem card_Ico_cast {a b : ℤ} (hab : a ≤ b) :
    ((Finset.Ico a b).card : ℚ) = ((b - a : ℤ) : ℚ) := by
  rw [Int.card_Ico]
  have h1 : (((b - a).toNat : ℕ) : ℤ) = b - a := Int.toNat_of_nonneg (by omega)
  have h2 : ((((b - a).toNat : ℕ) : ℤ) : ℚ) = ((b - a : ℤ) : ℚ) := by rw [h1]
  rw [Int.cast_natCast] at h2
  exact h2

/-- A solo task runs alone during every millisecond of its interval. -/
theorem activeCount_of_solo {m : IntervalMap} (hnd : NodupKeys m) {k : String} {ss : StartStop}
    (hk : (k, ss) ∈ m) (hsolo : Solo m k ss) {t : ℤ} (ht : t ∈ Finset.Ico ss.start ss.stop) :
    activeCount m t = 1 := by
  rw [Finset.mem_Ico] at ht
  unfold activeCount
  apply countP_eq_one _ m (k, ss) (List.Nodup.of_map _ hnd) hk
  · simpa using ht
  · intro kv hkv hne
    have hkey : kv.1 ≠ k := fun h => hne (nodupKeys_eq hnd hkv hk h)
    have := hsolo kv hkv hkey
    simp only [decide_eq_false_iff_not, not_and, not_lt]
    intro h₁
    omega

theorem cellSum_of_solo {m : IntervalMap} (hnd : NodupKeys m) (hwf : WellFormed m) {k : String}
    {ss : StartStop} (hk : (k, ss) ∈ m) (hsolo : Solo m k ss) :
    cellSum m ss = ((ss.stop - ss.start : ℤ) : ℚ) := by
  unfold cellSum
  rw [Finset.sum_congr rfl (fun t ht => by rw [activeCount_of_solo hnd hk hsolo ht]),
    Finset.sum_const, nsmul_eq_mul, card_Ico_cast (hwf _ hk)]
  simp

theorem parallelismFactor_self {ss : StartStop} (h : ss.start < ss.stop) :
    parallelismFactor ss ((ss.stop - ss.start : ℤ) : ℚ) = some 1 := by
  have hne : ((ss.stop - ss.start : ℤ) : ℚ) ≠ 0 := by
    have : ss.stop - ss.start ≠ 0 := by omega
    exact_mod_cast this
  unfold parallelismFactor
  rw [if_neg hne, div_self hne]

/-- C3, amended. For a table with start ≤ stop for every task and a solo task
`k` (no other task is active at an instant strictly between its start and its
stop, a task being active from its start to its stop, both included), the
pipeline attributes to `k` exactly `stop - start`, and so does every run over a
time-ascending arrangement of the events that is processed without error. This
holds in exact arithmetic and in the doubles of the program, where the
attributed time is the very double `duration<double>(stop - start)` that the
presenter divides by it: the task receives the single increment
`(stop - start) / 1`, and zeros otherwise. When `start < stop` the parallelism
factor of `k` is 1, in exact arithmetic and in doubles. -/
theorem solo_task (m : IntervalMap) (hnd : NodupKeys m) (hwf : WellFormed m)
    (k : String) (ss : StartStop) (hk : (k, ss) ∈ m) (hsolo : Solo m k ss) :
    (∃ r, processEventsToWallClockTimeResponsibilities (createdSortedEvents m) = .ok r ∧
      attributedTime r k = some ((ss.stop - ss.start : ℤ) : ℚ)) ∧
    (∀ evs r, evs.Perm (pushEvents m) → evs.Sorted timeLE →
      processEventsToWallClockTimeResponsibilities evs = .ok r →
      attributedTime r k = some ((ss.stop - ss.start : ℤ) : ℚ)) ∧
    (∃ fin, finishedIn doubleArith (createdSortedEvents m) = .ok fin ∧
      attributedIn doubleArith fin k = some (doubleOfMs (ss.stop - ss.start))) ∧
    (∀ evs fin, evs.Perm (pushEvents m) → evs.Sorted timeLE →
      finishedIn doubleArith evs = .ok fin →
      attributedIn doubleArith fin k = some (doubleOfMs (ss.stop - ss.start))) ∧
    (ss.start < ss.stop →
      parallelismFactor ss ((ss.stop - ss.start : ℤ) : ℚ) = some 1 ∧
      parallelismDouble ss (doubleOfMs (ss.stop - ss.start)) = some 1) := by
  have hadm := admissible_createdSortedEvents hnd hwf
  refine ⟨?_, ?_, ?_, ?_, fun h => ⟨parallelismFactor_self h, parallelismDouble_self h⟩⟩
  · rw [← cellSum_of_solo hnd hwf hk hsolo]
    obtain ⟨r, hr, _, hperm, hval⟩ := process_admissible hadm
    exact ⟨r, hr, attributedTime_eq (cellSum m) hnd hperm hval hk⟩
  · intro evs r hperm hsorted hok
    rw [← cellSum_of_solo hnd hwf hk hsolo]
    obtain ⟨_, hp, hval⟩ := process_sorted_perm hnd hperm hsorted hok
    exact attributedTime_eq (cellSum m) hnd hp hval hk
  · obtain ⟨fin, hfin⟩ := finishedIn_completes doubleArith hadm
    exact ⟨fin, hfin, solo_finishedIn lawful_doubleArith hnd hwf hk hsolo hadm.perm
      hadm.sorted hfin⟩
  · intro evs fin hperm hsorted hok
    exact solo_finishedIn lawful_doubleArith hnd hwf hk hsolo hperm hsorted hok

/-- C3, amended, at the scenario table: task C is solo. -/
theorem solo_task_witness :
    (∃ r, processEventsToWallClockTimeResponsibilities (createdSortedEvents scenarioABC) = .ok r ∧
      attributedTime r "C" = some (((20 : ℤ) - 10 : ℤ) : ℚ)) ∧
    (∀ evs r, evs.Perm (pushEvents scenarioABC) → evs.Sorted timeLE →
      processEventsToWallClockTimeResponsibilities evs = .ok r →
      attributedTime r "C" = some (((20 : ℤ) - 10 : ℤ) : ℚ)) ∧
    (∃ fin, finishedIn doubleArith (createdSortedEvents scenarioABC) = .ok fin ∧
      attributedIn doubleArith fin "C" = some (doubleOfMs ((20 : ℤ) - 10))) ∧
    (∀ evs fin, evs.Perm (pushEvents scenarioABC) → evs.Sorted timeLE →
      finishedIn doubleArith evs = .ok fin →
      attributedIn doubleArith fin "C" = some (doubleOfMs ((20 : ℤ) - 10))) ∧
    ((10 : ℤ) < 20 →
      parallelismFactor ⟨10, 20⟩ (((20 : ℤ) - 10 : ℤ) : ℚ) = some 1 ∧
      parallelismDouble ⟨10, 20⟩ (doubleOfMs ((20 : ℤ) - 10)) = some 1) :=
  solo_task scenarioABC (by decide) (by decide) "C" ⟨10, 20⟩ (by decide) (by decide)

/-- C3 as stated fails: the only task of `zeroLengthTable` is solo and is
attributed `stop - start = 0`, and its parallelism factor is the quotient of
zero by zero, not 1, in exact arithmetic and in doubles. -/
theorem solo_task_zero_length_counterexample :
    (¬ ∀ (m : IntervalMap) (k : String) (ss : StartStop), NodupKeys m → WellFormed m →
      (k, ss) ∈ m → Solo m k ss →
      ∃ r, processEventsToWallClockTimeResponsibilities (createdSortedEvents m) = .ok r ∧
        attributedTime r k = some ((ss.stop - ss.start : ℤ) : ℚ) ∧
        parallelismFactor ss ((ss.stop - ss.start : ℤ) : ℚ) = some 1) ∧
    (¬ ∀ (m : IntervalMap) (k : String) (ss : StartStop), NodupKeys m → WellFormed m →
      (k, ss) ∈ m → Solo m k ss →
      ∃ fin a, finishedIn doubleArith (createdSortedEvents m) = .ok fin ∧
        attributedIn doubleArith fin k = some a ∧ parallelismDouble ss a = some 1) := by
  constructor
  · intro h
    obtain ⟨r, _, _, hp⟩ := h zeroLengthTable "Z" ⟨5, 5⟩ (by decide) (by decide) (by decide)
      (by decide)
    simp [parallelismFactor] at hp
  · intro h
    obtain ⟨fin, a, hfin, ha, hp⟩ := h zeroLengthTable "Z" ⟨5, 5⟩ (by decide) (by decide)
      (by decide) (by decide)
    have hfin' : finishedIn doubleArith (createdSortedEvents zeroLengthTable) =
        .ok [(0, "Z")] := by decide!
    rw [hfin'] at hfin
    cases hfin
    have ha' : attributedIn doubleArith [((0 : ℚ), "Z")] "Z" = some 0 := by decide!
    rw [ha'] at ha
    cases ha
    simp [parallelismDouble] at hp

/-- Why a task of length zero inside the interval counts as overlap: in
`roundingTable` no other task runs during any part of the interval of A, and
exact arithmetic attributes 300 ms to A; the doubles of the program add
0.1 + 0.0 + 0.2 and attribute 0.30000000000000004 s, more than the wall-clock
time 0.3 s, so the factor is 0.9999999999999998. -/
theorem zero_length_inside_rounds :
    ¬ Solo roundingTable "A" ⟨0, 300⟩ ∧
    wctrFor roundingTable "A" = some 300 ∧
    finishedIn doubleArith (createdSortedEvents roundingTable) =
      .ok [(0, "B"), (5404319552844596 / 2 ^ 54, "A")] ∧
    doubleOfMs (300 - 0) = 5404319552844595 / 2 ^ 54 ∧
    parallelismDouble ⟨0, 300⟩ (5404319552844596 / 2 ^ 54) = some (1 - 1 / 2 ^ 52) := by
  refine ⟨by decide, by decide!, by decide!, by decide!, by decide!⟩

theorem activeCount_of_same {m : IntervalMap} {s t : ℤ} (hall : ∀ kv ∈ m, kv.2 = ⟨s, t⟩)
    {x : ℤ} (hx : x ∈ Finset.Ico s t) : activeCount m x = m.length := by
  rw [Finset.mem_Ico] at hx
  unfold activeCount
  rw [List.countP_eq_length]
  intro kv hkv
  rw [hall kv hkv]
  simpa using hx

theorem cellSum_of_same {m : IntervalMap} {s t : ℤ} (hall : ∀ kv ∈ m, kv.2 = ⟨s, t⟩)
    (hst : s ≤ t) : cellSum m ⟨s, t⟩ = ((t - s : ℤ) : ℚ) / (m.length : ℚ) := by
  unfold cellSum
  rw [Finset.sum_congr rfl (fun x hx => by rw [activeCount_of_same hall hx]),
    Finset.sum_const, nsmul_eq_mul, card_Ico_cast hst, mul_one_div]

/-- C4. Equal split: when all `N ≥ 1` tasks of the table have the same start
`s` and the same stop `t`, with `s ≤ t`, the pipeline attributes `(t - s) / N`
to every task, and so does every run over a time-ascending arrangement of the
events that is processed without error; with `s < t` every such arrangement is
processed without error. -/
theorem equal_split (m : IntervalMap) (hnd : NodupKeys m) (s t : ℤ) (hst : s ≤ t)
    (hall : ∀ kv ∈ m, kv.2 = ⟨s, t⟩) (k : String) (ss : StartStop) (hk : (k, ss) ∈ m) :
    (∃ r, processEventsToWallClockTimeResponsibilities (createdSortedEvents m) = .ok r ∧
      attributedTime r k = some (((t - s : ℤ) : ℚ) / (m.length : ℚ))) ∧
    (∀ evs r, evs.Perm (pushEvents m) → evs.Sorted timeLE →
      processEventsToWallClockTimeResponsibilities evs = .ok r →
      attributedTime r k = some (((t - s : ℤ) : ℚ) / (m.length : ℚ))) ∧
    (s < t → ∀ evs, evs.Perm (pushEvents m) → evs.Sorted timeLE →
      ∃ r, processEventsToWallClockTimeResponsibilities evs = .ok r) := by
  have hwf : WellFormed m := by
    intro kv hkv
    rw [hall kv hkv]
    exact hst
  have hss : ss = ⟨s, t⟩ := hall _ hk
  rw [← cellSum_of_same hall hst, ← hss]
  refine ⟨?_, ?_, ?_⟩
  · obtain ⟨r, hr, _, hperm, hval⟩ := process_admissible (admissible_createdSortedEvents hnd hwf)
    exact ⟨r, hr, attributedTime_eq (cellSum m) hnd hperm hval hk⟩
  · intro evs r hperm hsorted hok
    obtain ⟨_, hp, hval⟩ := process_sorted_perm hnd hperm hsorted hok
    exact attributedTime_eq (cellSum m) hnd hp hval hk
  · intro hlt evs hperm hsorted
    have hstrict : ∀ kv ∈ m, kv.2.start < kv.2.stop := by
      intro kv hkv
      rw [hall kv hkv]
      exact hlt
    obtain ⟨r, hr, _⟩ := process_admissible (admissible_of_strict hnd hstrict hperm hsorted)
    exact ⟨r, hr⟩

/-- C4 at two tasks with identical start and stop: each gets half the shared duration. -/
theorem equal_split_witness :
    (∃ r, processEventsToWallClockTimeResponsibilities (createdSortedEvents twinTable) = .ok r ∧
      attributedTime r "A" = some ((((10 : ℤ) - 0 : ℤ) : ℚ) / (twinTable.length : ℚ))) ∧
    (∀ evs r, evs.Perm (pushEvents twinTable) → evs.Sorted timeLE →
      processEventsToWallClockTimeResponsibilities evs = .ok r →
      attributedTime r "A" = some ((((10 : ℤ) - 0 : ℤ) : ℚ) / (twinTable.length : ℚ))) ∧
    ((0 : ℤ) < 10 → ∀ evs, evs.Perm (pushEvents twinTable) → evs.Sorted timeLE →
      ∃ r, processEventsToWallClockTimeResponsibilities evs = .ok r) :=
  equal_split twinTable (by decide) 0 10 (by decide) (by decide) "A" ⟨0, 10⟩ (by decide)

/-! ## Ranking order (C5) and the concrete scenario (C6) -/

/-- C5. Ranking order: whenever the apportioner returns a list, every record of
the list has a time greater than or equal to the time of every record after it. -/
theorem ranking_order (evs : List Event) (r : List WallClockTimeResponsibility)
    (h : processEventsToWallClockTimeResponsibilities evs = .ok r) :
    r.Pairwise fun a b => b.time ≤ a.time := by
  unfold processEventsToWallClockTimeResponsibilities at h
  cases hs : sweep SweepState.init evs with
  | error err => rw [hs] at h; cases h
  | ok s =>
    rw [hs] at h
    simp only [Except.ok.injEq] at h
    rw [← h]
    exact List.sorted_insertionSort wctrGE s.finishedTasks

/-- C5 at the events of the scenario table. -/
theorem ranking_order_witness :
    List.Pairwise (fun a b : WallClockTimeResponsibility => b.time ≤ a.time)
      [⟨10, "C"⟩, ⟨5, "A"⟩, ⟨5, "B"⟩] :=
  ranking_order (createdSortedEvents scenarioABC) [⟨10, "C"⟩, ⟨5, "A"⟩, ⟨5, "B"⟩] (by decide!)

/-- C6. For the table A=[0,10], B=[0,10], C=[10,20] the pipeline returns the
ranked list [C(10), A(5), B(5)]; under every iteration order of the table it
returns C(10) first, followed by A(5) and B(5) in the order of the iteration. -/
theorem concrete_scenario :
    processEventsToWallClockTimeResponsibilities (createdSortedEvents scenarioABC) =
      .ok [⟨10, "C"⟩, ⟨5, "A"⟩, ⟨5, "B"⟩] ∧
    ∀ m ∈ scenarioABC.permutations,
      processEventsToWallClockTimeResponsibilities (createdSortedEvents m) =
        .ok [⟨10, "C"⟩, ⟨5, "A"⟩, ⟨5, "B"⟩] ∨
      processEventsToWallClockTimeResponsibilities (createdSortedEvents m) =
        .ok [⟨10, "C"⟩, ⟨5, "B"⟩, ⟨5, "A"⟩] := by
  decide!

/-! ## Last-wins collection (C7) -/

theorem lookup_eq_some_of_mem {m : IntervalMap} (hnd : NodupKeys m) {k : String}
    {ss : StartStop} (h : (k, ss) ∈ m) : m.lookup k = some ss := by
  cases hl : m.lookup k with
  | none =>
    exact absurd (List.mem_map.2 ⟨(k, ss), h, rfl⟩) (lookup_eq_none_iff_keys.1 hl)
  | some ss' =>
    have := nodupKeys_eq hnd (mem_of_lookup_eq_some hl) h rfl
    rw [(Prod.mk.injEq _ _ _ _ ▸ this : k = k ∧ ss' = ss).2]

/-- A table with an interval that stops before it starts makes the sweep
throw, whatever the order among events of equal time. -/
theorem process_error_of_inverted {m : IntervalMap} (hnd : NodupKeys m)
    {kv : String × StartStop} (hkv : kv ∈ m) (hinv : kv.2.stop < kv.2.start)
    {evs : List Event} (hperm : evs.Perm (pushEvents m)) (hsorted : evs.Sorted timeLE) :
    ∃ err, processEventsToWallClockTimeResponsibilities evs = .error err := by
  unfold processEventsToWallClockTimeResponsibilities
  cases hs : sweep SweepState.init evs with
  | error err => exact ⟨err, rfl⟩
  | ok s =>
    exfalso
    have hc := admissible_of_sweep_ok hnd hperm hsorted hs
    obtain ⟨pre, post, hsplit⟩ := List.append_of_mem (hc.mem_iff.2 ⟨kv, hkv, Or.inr rfl⟩)
    have hstart := hc.startFirst kv hkv pre post hsplit
    rw [hsplit] at hc
    have := hc.pre_le _ hstart
    have h₁ : (startEvent kv).time = kv.2.start := rfl
    have h₂ : (stopEvent kv).time = kv.2.stop := rfl
    omega

theorem attributedTime_eq_none {r : List WallClockTimeResponsibility} {k : String}
    (h : k ∉ r.map fun w => w.output) : attributedTime r k = none := by
  unfold attributedTime
  rw [Option.map_eq_none', List.find?_eq_none]
  intro w hw hk
  exact h (List.mem_map.2 ⟨w, hw, by simpa using hk⟩)

/-- Closed form of the pipeline: a well-formed table gives every task its
millisecond sum, any other table makes the sweep throw. -/
theorem wctrFor_eq {m : IntervalMap} (hnd : NodupKeys m) (k : String) :
    wctrFor m k = if WellFormed m then (m.lookup k).map (cellSum m) else none := by
  unfold wctrFor
  by_cases hwf : WellFormed m
  · rw [if_pos hwf]
    obtain ⟨r, hr, _, hperm, hval⟩ :=
      process_admissible (admissible_createdSortedEvents hnd hwf)
    rw [hr]
    cases hl : m.lookup k with
    | none =>
      exact attributedTime_eq_none fun hk =>
        lookup_eq_none_iff_keys.1 hl (hperm.mem_iff.1 hk)
    | some ss =>
      exact attributedTime_eq (cellSum m) hnd hperm hval (mem_of_lookup_eq_some hl)
  · rw [if_neg hwf]
    unfold WellFormed at hwf
    push_neg at hwf
    obtain ⟨kv, hkv, hlt⟩ := hwf
    obtain ⟨err, herr⟩ := process_error_of_inverted hnd hkv hlt
      (List.perm_insertionSort timeLE (pushEvents m)) (List.sorted_insertionSort timeLE _)
    have : processEventsToWallClockTimeResponsibilities (createdSortedEvents m) = .error err :=
      herr
    rw [this]

theorem step_error_iff (s : SweepState) (e : Event) (err : Failure) :
    step s e = .error err ↔
      e.isStart = false ∧ e.output ∉ s.activeTasks.map Prod.fst ∧
        err = .taskNotFound e.output := by
  unfold step
  cases hstart : e.isStart with
  | true => simp
  | false =>
    simp only [Bool.false_eq_true, if_false, true_and]
    cases hl : (addWctr s.activeTasks (e.time - s.previousTime)).lookup e.output with
    | none =>
      have := lookup_eq_none_iff_keys.1 hl
      rw [keys_addWctr] at this
      simp only [Except.error.injEq]
      constructor
      · intro h; exact ⟨this, h.symm⟩
      · intro h; exact h.2.symm
    | some d =>
      have : e.output ∈ (addWctr s.activeTasks (e.time - s.previousTime)).map Prod.fst :=
        List.mem_map.2 ⟨_, mem_of_lookup_eq_some hl, rfl⟩
      rw [keys_addWctr] at this
      constructor
      · intro h; cases h
      · intro h; exact absurd this h.1

theorem sweep_error {evs : List Event} : ∀ {s₀ : SweepState} {err : Failure},
    sweep s₀ evs = .error err →
    ∃ pre e post s, evs = pre ++ e :: post ∧ sweep s₀ pre = .ok s ∧ e.isStart = false ∧
      e.output ∉ s.activeTasks.map Prod.fst ∧ err = .taskNotFound e.output := by
  induction evs with
  | nil => intro s₀ err h; cases h
  | cons e rest ih =>
    intro s₀ err h
    rw [sweep_cons] at h
    cases hs : step s₀ e with
    | error err' =>
      rw [hs] at h
      simp only [Except.error.injEq] at h
      subst h
      obtain ⟨h₁, h₂, h₃⟩ := (step_error_iff s₀ e err').1 hs
      exact ⟨[], e, rest, s₀, rfl, rfl, h₁, h₂, h₃⟩
    | ok s₁ =>
      rw [hs] at h
      obtain ⟨pre, e', post, s, hsplit, hpre, h₁, h₂, h₃⟩ := ih h
      refine ⟨e :: pre, e', post, s, by rw [hsplit]; rfl, ?_, h₁, h₂, h₃⟩
      rw [sweep_cons, hs]
      exact hpre

theorem sweep_error_of_dangling {pre post : List Event} {e : Event} {s₀ s : SweepState}
    (hpre : sweep s₀ pre = .ok s) (hstop : e.isStart = false)
    (hact : e.output ∉ s.activeTasks.map Prod.fst) :
    sweep s₀ (pre ++ e :: post) = .error (.taskNotFound e.output) := by
  rw [sweep_append, hpre]
  show sweep s (e :: post) = _
  rw [sweep_cons, (step_error_iff s e _).2 ⟨hstop, hact, rfl⟩]

theorem process_error_iff (evs : List Event) (err : Failure) :
    processEventsToWallClockTimeResponsibilities evs = .error err ↔
      sweep SweepState.init evs = .error err := by
  unfold processEventsToWallClockTimeResponsibilities
  cases sweep SweepState.init evs with
  | error err' => simp
  | ok s => simp

/-- C8. DanglingStop: the apportioner fails exactly when the sweep reaches a
stop event whose task is not in the active set at that point; the failure names
that task, and a failing run returns no list. -/
theorem dangling_stop (evs : List Event) :
    (∀ err, processEventsToWallClockTimeResponsibilities evs = .error err ↔
      ∃ pre e post s, evs = pre ++ e :: post ∧ sweep SweepState.init pre = .ok s ∧
        e.isStart = false ∧ e.output ∉ s.activeTasks.map Prod.fst ∧
        err = .taskNotFound e.output) ∧
    ((∃ err, processEventsToWallClockTimeResponsibilities evs = .error err) ↔
      ∃ pre e post s, evs = pre ++ e :: post ∧ sweep SweepState.init pre = .ok s ∧
        e.isStart = false ∧ e.output ∉ s.activeTasks.map Prod.fst) ∧
    ((∃ err, processEventsToWallClockTimeResponsibilities evs = .error err) →
      ∀ r, processEventsToWallClockTimeResponsibilities evs ≠ .ok r) := by
  have h₁ : ∀ err, processEventsToWallClockTimeResponsibilities evs = .error err ↔
      ∃ pre e post s, evs = pre ++ e :: post ∧ sweep SweepState.init pre = .ok s ∧
        e.isStart = false ∧ e.output ∉ s.activeTasks.map Prod.fst ∧
        err = .taskNotFound e.output := by
    intro err
    rw [process_error_iff]
    constructor
    · exact sweep_error
    · rintro ⟨pre, e, post, s, rfl, hpre, hstop, hact, rfl⟩
      exact sweep_error_of_dangling hpre hstop hact
  refine ⟨h₁, ?_, ?_⟩
  · constructor
    · rintro ⟨err, herr⟩
      obtain ⟨pre, e, post, s, h⟩ := (h₁ err).1 herr
      exact ⟨pre, e, post, s, h.1, h.2.1, h.2.2.1, h.2.2.2.1⟩
    · rintro ⟨pre, e, post, s, h⟩
      exact ⟨_, (h₁ _).2 ⟨pre, e, post, s, h.1, h.2.1, h.2.2.1, h.2.2.2, rfl⟩⟩
  · rintro ⟨err, herr⟩ r hr
    rw [herr] at hr
    cases hr

/-- C9, amended. A start event for a task that is already in the active set
does not fail: no entry is added, the entry of the task keeps its accumulated
value (with the share of the elapsed time, like every active task), and the
sweep goes on with the events that follow. -/
theorem start_of_active_task (pre post : List Event) (e : Event) (s : SweepState)
    (hpre : sweep SweepState.init pre = .ok s) (hstart : e.isStart = true)
    (hact : e.output ∈ s.activeTasks.map Prod.fst) :
    step s e = .ok ⟨addWctr s.activeTasks (e.time - s.previousTime), s.finishedTasks, e.time⟩ ∧
    sweep SweepState.init (pre ++ e :: post) =
      sweep ⟨addWctr s.activeTasks (e.time - s.previousTime), s.finishedTasks, e.time⟩ post := by
  have hstep : step s e =
      .ok ⟨addWctr s.activeTasks (e.time - s.previousTime), s.finishedTasks, e.time⟩ := by
    unfold step
    rw [if_pos hstart, emplace_of_mem (by rw [keys_addWctr]; exact hact)]
  refine ⟨hstep, ?_⟩
  rw [sweep_append, hpre]
  show sweep s (e :: post) = _
  rw [sweep_cons, hstep]

/-- C9, amended, at the second start of task A in `doubleStart`. -/
theorem start_of_active_task_witness :
    step ⟨[("A", 0)], [], 0⟩ ⟨5, "A", true⟩ = .ok ⟨addWctr [("A", 0)] (5 - 0), [], 5⟩ ∧
    sweep SweepState.init ([⟨0, "A", true⟩] ++ ⟨5, "A", true⟩ :: [⟨10, "A", false⟩]) =
      sweep ⟨addWctr [("A", 0)] (5 - 0), [], 5⟩ [⟨10, "A", false⟩] :=
  start_of_active_task [⟨0, "A", true⟩] [⟨10, "A", false⟩] ⟨5, "A", true⟩ ⟨[("A", 0)], [], 0⟩
    (by decide!) rfl (by decide)

/-- C9 as stated fails: in `doubleStart` the second start of A is processed
while A is active, and the apportioner returns a list. -/
theorem double_start_counterexample :
    ¬ ∀ (evs pre post : List Event) (e : Event) (s : SweepState), evs = pre ++ e :: post →
      sweep SweepState.init pre = .ok s → e.isStart = true →
      e.output ∈ s.activeTasks.map Prod.fst →
      ∃ err, processEventsToWallClockTimeResponsibilities evs = .error err := by
  intro h
  obtain ⟨err, herr⟩ := h doubleStart [⟨0, "A", true⟩] [⟨10, "A", false⟩] ⟨5, "A", true⟩
    ⟨[("A", 0)], [], 0⟩ rfl (by decide!) rfl (by decide)
  have hok : processEventsToWallClockTimeResponsibilities doubleStart = .ok [⟨10, "A"⟩] := by
    decide!
  rw [hok] at herr
  cases herr

/-! ## Event sequencing (C10) -/

theorem mem_createdSortedEvents {m : IntervalMap} {e : Event} :
    e ∈ createdSortedEvents m ↔ ∃ kv ∈ m, e = startEvent kv ∨ e = stopEvent kv := by
  unfold createdSortedEvents
  rw [List.mem_insertionSort, mem_pushEvents]

theorem nodup_createdSortedEvents {m : IntervalMap} (hnd : NodupKeys m) :
    (createdSortedEvents m).Nodup :=
  (List.perm_insertionSort _ _).nodup_iff.2 (nodup_pushEvents hnd)

/-- C10. Event sequencing: the event list of a table has two events per task,
ascends by time, holds nothing but start and stop events of tasks of the table,
and for every task of the table exactly one start event, which carries the
start instant, and exactly one stop event, which carries the stop instant. -/
theorem event_sequencing (m : IntervalMap) (hnd : NodupKeys m) :
    (createdSortedEvents m).length = 2 * m.length ∧
    (createdSortedEvents m).Pairwise (fun a b => a.time ≤ b.time) ∧
    (∀ e ∈ createdSortedEvents m, ∃ kv ∈ m,
      e = ⟨kv.2.start, kv.1, true⟩ ∨ e = ⟨kv.2.stop, kv.1, false⟩) ∧
    (∀ kv ∈ m,
      (⟨kv.2.start, kv.1, true⟩ : Event) ∈ createdSortedEvents m ∧
      (createdSortedEvents m).countP (fun e => e.output == kv.1 && e.isStart) = 1 ∧
      (⟨kv.2.stop, kv.1, false⟩ : Event) ∈ createdSortedEvents m ∧
      (createdSortedEvents m).countP (fun e => e.output == kv.1 && !e.isStart) = 1) := by
  refine ⟨?_, List.sorted_insertionSort timeLE _, ?_, ?_⟩
  · unfold createdSortedEvents
    rw [List.length_insertionSort, length_pushEvents]
  · intro e he
    exact mem_createdSortedEvents.1 he
  · intro kv hkv
    have hstart : startEvent kv ∈ createdSortedEvents m :=
      mem_createdSortedEvents.2 ⟨kv, hkv, Or.inl rfl⟩
    have hstop : stopEvent kv ∈ createdSortedEvents m :=
      mem_createdSortedEvents.2 ⟨kv, hkv, Or.inr rfl⟩
    refine ⟨hstart, ?_, hstop, ?_⟩
    · apply countP_eq_one _ _ (startEvent kv) (nodup_createdSortedEvents hnd) hstart
      · simp [startEvent]
      · intro e he hne
        obtain ⟨kv', hkv', h | h⟩ := mem_createdSortedEvents.1 he
        · have hk : kv'.1 ≠ kv.1 := fun hk =>
            hne (by rw [h, nodupKeys_eq hnd hkv' hkv hk])
          simp [h, startEvent, hk]
        · simp [h, stopEvent]
    · apply countP_eq_one _ _ (stopEvent kv) (nodup_createdSortedEvents hnd) hstop
      · simp [stopEvent]
      · intro e he hne
        obtain ⟨kv', hkv', h | h⟩ := mem_createdSortedEvents.1 he
        · simp [h, startEvent]
        · have hk : kv'.1 ≠ kv.1 := fun hk =>
            hne (by rw [h, nodupKeys_eq hnd hkv' hkv hk])
          simp [h, stopEvent, hk]

/-- C10 at the scenario table. -/
theorem event_sequencing_witness :
    (createdSortedEvents scenarioABC).length = 2 * scenarioABC.length ∧
    (createdSortedEvents scenarioABC).Pairwise (fun a b => a.time ≤ b.time) ∧
    (∀ e ∈ createdSortedEvents scenarioABC, ∃ kv ∈ scenarioABC,
      e = ⟨kv.2.start, kv.1, true⟩ ∨ e = ⟨kv.2.stop, kv.1, false⟩) ∧
    (∀ kv ∈ scenarioABC,
      (⟨kv.2.start, kv.1, true⟩ : Event) ∈ createdSortedEvents scenarioABC ∧
      (createdSortedEvents scenarioABC).countP (fun e => e.output == kv.1 && e.isStart) = 1 ∧
      (⟨kv.2.stop, kv.1, false⟩ : Event) ∈ createdSortedEvents scenarioABC ∧
      (createdSortedEvents scenarioABC).countP (fun e => e.output == kv.1 && !e.isStart) = 1) :=
  event_sequencing scenarioABC (by decide)

/-! ## One record per task (C11) -/

/-- C11. One record per task: when the apportioner returns a list for a
time-ascending arrangement of the events of a table, the outputs of the list
are a permutation of the keys of the table, so no output occurs twice and the
lookup of the presenter finds every listed task. -/
theorem one_record_per_task (m : IntervalMap) (hnd : NodupKeys m) (evs : List Event)
    (hperm : evs.Perm (pushEvents m)) (hsorted : evs.Sorted timeLE)
    (r : List WallClockTimeResponsibility)
    (hok : processEventsToWallClockTimeResponsibilities evs = .ok r) :
    (r.map fun w => w.output).Perm (m.map Prod.fst) ∧
    (r.map fun w => w.output).Nodup ∧
    r.length = m.length ∧
    ∀ w ∈ r, ∃ ss, m.lookup w.output = some ss := by
  obtain ⟨_, hp, hval⟩ := process_sorted_perm hnd hperm hsorted hok
  refine ⟨hp, hp.nodup_iff.2 hnd, ?_, ?_⟩
  · have := hp.length_eq
    simpa using this
  · intro w hw
    obtain ⟨ss, hm, _⟩ := hval w hw
    exact ⟨ss, lookup_eq_some_of_mem hnd hm⟩

/-- C11 at the scenario table. -/
theorem one_record_per_task_witness :
    (([⟨10, "C"⟩, ⟨5, "A"⟩, ⟨5, "B"⟩] : List WallClockTimeResponsibility).map
      fun w => w.output).Perm (scenarioABC.map Prod.fst) ∧
    (([⟨10, "C"⟩, ⟨5, "A"⟩, ⟨5, "B"⟩] : List WallClockTimeResponsibility).map
      fun w => w.output).Nodup ∧
    ([⟨10, "C"⟩, ⟨5, "A"⟩, ⟨5, "B"⟩] : List WallClockTimeResponsibility).length =
      scenarioABC.length ∧
    ∀ w ∈ ([⟨10, "C"⟩, ⟨5, "A"⟩, ⟨5, "B"⟩] : List WallClockTimeResponsibility),
      ∃ ss, scenarioABC.lookup w.output = some ss :=
  one_record_per_task scenarioABC (by decide) (createdSortedEvents scenarioABC)
    (List.perm_insertionSort _ _) (List.sorted_insertionSort _ _)
    [⟨10, "C"⟩, ⟨5, "A"⟩, ⟨5, "B"⟩] (by decide!)

/-! ## Membership in the active set (C16) -/

theorem mem_keys_emplace {act : List (String × ℚ)} {o k : String} :
    k ∈ (emplace act o).map Prod.fst ↔ k ∈ act.map Prod.fst ∨ k = o := by
  constructor
  · exact keys_emplace
  · rintro (h | h)
    · by_cases ho : o ∈ act.map Prod.fst
      · rw [emplace_of_mem ho]; exact h
      · rw [emplace_of_not_mem ho, List.map_append]
        exact List.mem_append_left _ h
    · by_cases ho : o ∈ act.map Prod.fst
      · rw [emplace_of_mem ho, h]; exact ho
      · rw [emplace_of_not_mem ho, List.map_append, h]
        exact List.mem_append_right _ (by simp)

/-- A start event adds its task to the active set and nothing else. -/
theorem step_start_keys {s s' : SweepState} {e : Event} (hstart : e.isStart = true)
    (h : step s e = .ok s') (k : String) :
    k ∈ s'.activeTasks.map Prod.fst ↔ k ∈ s.activeTasks.map Prod.fst ∨ k = e.output := by
  unfold step at h
  simp only [hstart, if_true, Except.ok.injEq] at h
  subst h
  rw [mem_keys_emplace, keys_addWctr]

/-- An accepted stop event removes its task, which was active, and nothing else. -/
theorem step_stop_keys {s s' : SweepState} {e : Event} (hstop : e.isStart = false)
    (h : step s e = .ok s') (k : String) :
    k ∈ s'.activeTasks.map Prod.fst ↔ k ∈ s.activeTasks.map Prod.fst ∧ k ≠ e.output := by
  unfold step at h
  simp only [hstop, Bool.false_eq_true, if_false] at h
  cases hl : (addWctr s.activeTasks (e.time - s.previousTime)).lookup e.output with
  | none => rw [hl] at h; cases h
  | some d =>
    rw [hl] at h
    simp only [Except.ok.injEq] at h
    subst h
    rw [keys_eraseKey, keys_addWctr, List.mem_filter]
    simp

theorem sweep_snoc_ok {pre : List Event} {e : Event} {s₀ s : SweepState}
    (h : sweep s₀ (pre ++ [e]) = .ok s) : ∃ s₁, sweep s₀ pre = .ok s₁ ∧ step s₁ e = .ok s := by
  obtain ⟨s₁, hpre, hrest⟩ := sweep_append_ok h
  obtain ⟨s₂, hstep, hnil⟩ := sweep_cons_ok hrest
  simp only [sweep, Except.ok.injEq] at hnil
  exact ⟨s₁, hpre, hnil ▸ hstep⟩

/-- After every prefix of an arrangement of the events of a table that the
sweep has accepted, the active tasks are those whose start is in the prefix and
whose stop is not, and every stop of the prefix has its start in the prefix. -/
theorem active_keys_after {m : IntervalMap} (hnd : NodupKeys m) {evs : List Event}
    (hperm : evs.Perm (pushEvents m)) :
    ∀ (pre post : List Event) (s : SweepState), evs = pre ++ post →
      sweep SweepState.init pre = .ok s →
      (∀ k, k ∈ s.activeTasks.map Prod.fst ↔
        ∃ ss, (k, ss) ∈ m ∧ startEvent (k, ss) ∈ pre ∧ stopEvent (k, ss) ∉ pre) ∧
      (∀ kv ∈ m, stopEvent kv ∈ pre → startEvent kv ∈ pre) := by
  intro pre
  induction pre using List.reverseRecOn with
  | nil =>
    intro post s _ hs
    simp only [sweep, Except.ok.injEq] at hs
    subst hs
    simp [SweepState.init]
  | append_singleton pre e ih =>
    intro post s hsplit hs
    obtain ⟨s₁, hpre, hstep⟩ := sweep_snoc_ok hs
    have hsplit' : evs = pre ++ e :: post := by rw [hsplit, List.append_assoc]; rfl
    obtain ⟨hkeys, hpairs⟩ := ih (e :: post) s₁ hsplit' hpre
    have hnodup : (pre ++ e :: post).Nodup :=
      hsplit' ▸ hperm.nodup_iff.2 (nodup_pushEvents hnd)
    have he_pre : e ∉ pre := fun h =>
      (List.nodup_append.1 hnodup).2.2 h (List.mem_cons_self _ _)
    have hmem : e ∈ pushEvents m :=
      hperm.mem_iff.1 (hsplit' ▸ List.mem_append_right _ (List.mem_cons_self _ _))
    obtain ⟨kv, hkv, rfl | rfl⟩ := mem_pushEvents.1 hmem
    · -- a start event
      have hnostop : stopEvent kv ∉ pre := fun h => he_pre (hpairs kv hkv h)
      constructor
      · intro k
        rw [step_start_keys rfl hstep, hkeys]
        constructor
        · rintro (⟨ss, hm, h₁, h₂⟩ | rfl)
          · refine ⟨ss, hm, List.mem_append_left _ h₁, ?_⟩
            intro hcon
            rcases List.mem_append.1 hcon with h | h
            · exact h₂ h
            · exact startEvent_ne_stopEvent _ _ (List.mem_singleton.1 h).symm
          · refine ⟨kv.2, hkv, List.mem_append_right _ (List.mem_singleton_self _), ?_⟩
            intro hcon
            rcases List.mem_append.1 hcon with h | h
            · exact hnostop h
            · exact startEvent_ne_stopEvent _ _ (List.mem_singleton.1 h).symm
        · rintro ⟨ss, hm, h₁, h₂⟩
          rcases List.mem_append.1 h₁ with h | h
          · exact Or.inl ⟨ss, hm, h, fun hc => h₂ (List.mem_append_left _ hc)⟩
          · exact Or.inr (congrArg Event.output (List.mem_singleton.1 h))
      · intro kv' hkv' h
        rcases List.mem_append.1 h with h | h
        · exact List.mem_append_left _ (hpairs kv' hkv' h)
        · exact absurd (List.mem_singleton.1 h).symm (startEvent_ne_stopEvent _ _)
    · -- a stop event
      have hact : kv.1 ∈ s₁.activeTasks.map Prod.fst := step_stop_ok hstep rfl
      obtain ⟨ss, hm, hstart, _⟩ := (hkeys kv.1).1 hact
      have hkv_eq : (kv.1, ss) = kv := nodupKeys_eq hnd hm hkv rfl
      rw [hkv_eq] at hstart
      constructor
      · intro k
        rw [step_stop_keys rfl hstep, hkeys]
        constructor
        · rintro ⟨⟨ss', hm', h₁, h₂⟩, hne⟩
          refine ⟨ss', hm', List.mem_append_left _ h₁, ?_⟩
          intro hcon
          rcases List.mem_append.1 hcon with h | h
          · exact h₂ h
          · exact hne (congrArg Event.output (List.mem_singleton.1 h))
        · rintro ⟨ss', hm', h₁, h₂⟩
          have h₁' : startEvent (k, ss') ∈ pre := by
            rcases List.mem_append.1 h₁ with h | h
            · exact h
            · exact absurd (List.mem_singleton.1 h) (startEvent_ne_stopEvent _ _)
          refine ⟨⟨ss', hm', h₁', fun hc => h₂ (List.mem_append_left _ hc)⟩, ?_⟩
          intro hk
          have : (k, ss') = kv := nodupKeys_eq hnd hm' hkv hk
          exact h₂ (this ▸ List.mem_append_right _ (List.mem_singleton_self _))
      · intro kv' hkv' h
        rcases List.mem_append.1 h with h | h
        · exact List.mem_append_left _ (hpairs kv' hkv' h)
        · have : kv' = kv :=
            nodupKeys_eq hnd hkv' hkv (congrArg Event.output (List.mem_singleton.1 h))
          rw [this]
          exact List.mem_append_left _ hstart

/-- The sweep accepts every prefix of an admissible event list. -/
theorem sweep_prefix_ok {m : IntervalMap} {pre post : List Event}
    (hc : Admissible m (pre ++ post)) : ∃ s, sweep SweepState.init pre = .ok s := by
  obtain ⟨s', hs, _⟩ := sweep_inv (pre ++ post) [] SweepState.init (by simpa using hc)
    (sweepInv_init m)
  obtain ⟨s, hpre, _⟩ := sweep_append_ok hs
  exact ⟨s, hpre⟩

/-- C16. Active Set invariant: in the sweep over the event list of a table
with start ≤ stop for every task, the sweep accepts every prefix of the list,
and after it a task is in the active set exactly when its start event is in the
prefix and its stop event is not. The same holds after every prefix that the
sweep accepts of any arrangement of the events of a table. -/
theorem active_set_invariant (m : IntervalMap) (hnd : NodupKeys m) (hwf : WellFormed m) :
    (∀ pre post, createdSortedEvents m = pre ++ post →
      ∃ s, sweep SweepState.init pre = .ok s ∧
        ∀ k, k ∈ s.activeTasks.map Prod.fst ↔
          ∃ ss, (k, ss) ∈ m ∧ startEvent (k, ss) ∈ pre ∧ stopEvent (k, ss) ∉ pre) ∧
    (∀ evs pre post s, evs.Perm (pushEvents m) → evs = pre ++ post →
      sweep SweepState.init pre = .ok s →
      ∀ k, k ∈ s.activeTasks.map Prod.fst ↔
        ∃ ss, (k, ss) ∈ m ∧ startEvent (k, ss) ∈ pre ∧ stopEvent (k, ss) ∉ pre) := by
  constructor
  · intro pre post hsplit
    have hc : Admissible m (pre ++ post) := hsplit ▸ admissible_createdSortedEvents hnd hwf
    obtain ⟨s, hs⟩ := sweep_prefix_ok hc
    exact ⟨s, hs, (active_keys_after hnd hc.perm pre post s rfl hs).1⟩
  · intro evs pre post s hperm hsplit hs
    exact (active_keys_after hnd hperm pre post s hsplit hs).1

/-- C16 at the scenario table. -/
theorem active_set_invariant_witness :
    (∀ pre post, createdSortedEvents scenarioABC = pre ++ post →
      ∃ s, sweep SweepState.init pre = .ok s ∧
        ∀ k, k ∈ s.activeTasks.map Prod.fst ↔
          ∃ ss, (k, ss) ∈ scenarioABC ∧ startEvent (k, ss) ∈ pre ∧ stopEvent (k, ss) ∉ pre) ∧
    (∀ evs pre post s, evs.Perm (pushEvents scenarioABC) → evs = pre ++ post →
      sweep SweepState.init pre = .ok s →
      ∀ k, k ∈ s.activeTasks.map Prod.fst ↔
        ∃ ss, (k, ss) ∈ scenarioABC ∧ startEvent (k, ss) ∈ pre ∧ stopEvent (k, ss) ∉ pre) :=
  active_set_invariant scenarioABC (by decide) (by decide)

/-! ## Well-formed tables and the order of ties (C15, C17) -/

/-- A sweep that accepts all events of a table ends with an empty active set. -/
theorem active_empty_of_sweep_ok {m : IntervalMap} (hnd : NodupKeys m) {evs : List Event}
    (hperm : evs.Perm (pushEvents m)) {s : SweepState}
    (hs : sweep SweepState.init evs = .ok s) : s.activeTasks = [] := by
  have h := (active_keys_after hnd hperm evs [] s (by simp) hs).1
  have hkeys : s.activeTasks.map Prod.fst = [] := by
    rw [List.eq_nil_iff_forall_not_mem]
    intro k hk
    obtain ⟨ss, hm, _, hstop⟩ := (h k).1 hk
    exact hstop (hperm.mem_iff.2 (mem_pushEvents.2 ⟨(k, ss), hm, Or.inr rfl⟩))
  exact List.map_eq_nil_iff.1 hkeys

/-- With an order-preserving sort the sweep over the events of a table with
start ≤ stop for every task completes with an empty active set; with start <
stop for every task it does so for every time-ascending arrangement. -/
theorem sweep_completes (m : IntervalMap) (hnd : NodupKeys m) (hwf : WellFormed m) :
    (∃ s, sweep SweepState.init (createdSortedEvents m) = .ok s ∧ s.activeTasks = []) ∧
    ((∀ kv ∈ m, kv.2.start < kv.2.stop) → ∀ evs, evs.Perm (pushEvents m) →
      evs.Sorted timeLE → ∃ s, sweep SweepState.init evs = .ok s ∧ s.activeTasks = []) := by
  constructor
  · have hc := admissible_createdSortedEvents hnd hwf
    obtain ⟨s, hs, _⟩ := sweep_inv (createdSortedEvents m) [] SweepState.init
      (by simpa using hc) (sweepInv_init m)
    exact ⟨s, hs, active_empty_of_sweep_ok hnd hc.perm hs⟩
  · intro hstrict evs hperm hsorted
    have hc := admissible_of_strict hnd hstrict hperm hsorted
    obtain ⟨s, hs, _⟩ := sweep_inv evs [] SweepState.init (by simpa using hc) (sweepInv_init m)
    exact ⟨s, hs, active_empty_of_sweep_ok hnd hperm hs⟩

theorem tiedOrder18_perm (l : List Event) : (tiedOrder18 l).Perm l := by
  unfold tiedOrder18
  have h₁ : l = l.take 1 ++ ((l.drop 1).take 8 ++ ((l.drop 9).take 1 ++ l.drop 10)) := by
    have e₁ : (l.drop 9).take 1 ++ l.drop 10 = l.drop 9 := by
      have := List.take_append_drop 1 (l.drop 9)
      rw [List.drop_drop] at this
      exact this
    have e₂ : (l.drop 1).take 8 ++ l.drop 9 = l.drop 1 := by
      have := List.take_append_drop 8 (l.drop 1)
      rw [List.drop_drop] at this
      exact this
    rw [e₁, e₂, List.take_append_drop]
  have h₂ : ((l.drop 9).take 1 ++ (l.drop 10).reverse ++ l.take 1 ++
      ((l.drop 1).take 8).reverse).Perm
      (l.take 1 ++ ((l.drop 1).take 8 ++ ((l.drop 9).take 1 ++ l.drop 10))) := by
    rw [List.perm_iff_count]
    intro a
    simp only [List.count_append, List.count_reverse]
    omega
  exact h₂.trans (h₁ ▸ List.Perm.refl _)

theorem eq_of_length_nine {α : Type} (l : List α) (h : l.length = 9) :
    ∃ kv0 kv1 kv2 kv3 kv4 kv5 kv6 kv7 kv8, l = [kv0, kv1, kv2, kv3, kv4, kv5, kv6, kv7, kv8] := by
  cases l with
  | nil => simp at h
  | cons kv0 l =>
    cases l with
    | nil => simp at h
    | cons kv1 l =>
      cases l with
      | nil => simp at h
      | cons kv2 l =>
        cases l with
        | nil => simp at h
        | cons kv3 l =>
          cases l with
          | nil => simp at h
          | cons kv4 l =>
            cases l with
            | nil => simp at h
            | cons kv5 l =>
              cases l with
              | nil => simp at h
              | cons kv6 l =>
                cases l with
                | nil => simp at h
                | cons kv7 l =>
                  cases l with
                  | nil => simp at h
                  | cons kv8 l =>
                    cases l with
                    | nil => exact ⟨kv0, kv1, kv2, kv3, kv4, kv5, kv6, kv7, kv8, rfl⟩
                    | cons x l => simp at h

/-- C15. A table with start ≤ stop for every task on which the run fails: for
nine tasks of length zero at one instant, the arrangement `tiedOrder18` of the
events is a time-ascending arrangement, as `std::sort` by time alone may return
it, and it begins with a stop event, so the sweep throws `task not found` at
the first event, whatever the iteration order of the table. -/
theorem zero_length_ties_fail (m : IntervalMap) (t : ℤ) (hlen : m.length = 9)
    (hall : ∀ kv ∈ m, kv.2 = ⟨t, t⟩) :
    WellFormed m ∧ (tiedOrder18 (pushEvents m)).Perm (pushEvents m) ∧
    (tiedOrder18 (pushEvents m)).Sorted timeLE ∧
    ∃ k ∈ m.map Prod.fst,
      processEventsToWallClockTimeResponsibilities (tiedOrder18 (pushEvents m)) =
        .error (.taskNotFound k) := by
  have htime : ∀ e ∈ tiedOrder18 (pushEvents m), e.time = t := by
    intro e he
    obtain ⟨kv, hkv, h | h⟩ := mem_pushEvents.1 ((tiedOrder18_perm _).mem_iff.1 he)
    · rw [h]; simp [startEvent, hall kv hkv]
    · rw [h]; simp [stopEvent, hall kv hkv]
  refine ⟨?_, tiedOrder18_perm _, ?_, ?_⟩
  · intro kv hkv
    rw [hall kv hkv]
  · apply List.pairwise_of_forall_mem_list
    intro a ha b hb
    unfold timeLE
    rw [htime a ha, htime b hb]
  · obtain ⟨kv0, kv1, kv2, kv3, kv4, kv5, kv6, kv7, kv8, rfl⟩ := eq_of_length_nine m hlen
    refine ⟨kv4.1, by simp, ?_⟩
    obtain ⟨rest, hrest⟩ : ∃ rest, tiedOrder18
        (pushEvents [kv0, kv1, kv2, kv3, kv4, kv5, kv6, kv7, kv8]) = stopEvent kv4 :: rest :=
      ⟨_, rfl⟩
    rw [hrest, process_error_iff]
    exact sweep_error_of_dangling (rfl : sweep SweepState.init [] = .ok SweepState.init) rfl
      (by simp [SweepState.init])

/-- C15 at nine tasks of length zero at instant 5. -/
theorem zero_length_ties_fail_witness :
    WellFormed nineZeroLength ∧
    (tiedOrder18 (pushEvents nineZeroLength)).Perm (pushEvents nineZeroLength) ∧
    (tiedOrder18 (pushEvents nineZeroLength)).Sorted timeLE ∧
    ∃ k ∈ nineZeroLength.map Prod.fst,
      processEventsToWallClockTimeResponsibilities (tiedOrder18 (pushEvents nineZeroLength)) =
        .error (.taskNotFound k) :=
  zero_length_ties_fail nineZeroLength 5 (by decide) (by decide)

/-- The time found for an output in the list returned for a time-ascending
arrangement of the events of a table depends on the table only. -/
theorem attributedTime_of_ok {m : IntervalMap} (hnd : NodupKeys m) {evs : List Event}
    (hperm : evs.Perm (pushEvents m)) (hsorted : evs.Sorted timeLE)
    {r : List WallClockTimeResponsibility}
    (hok : processEventsToWallClockTimeResponsibilities evs = .ok r) (k : String) :
    attributedTime r k = (m.lookup k).map (cellSum m) := by
  obtain ⟨_, hp, hval⟩ := process_sorted_perm hnd hperm hsorted hok
  cases hl : m.lookup k with
  | none =>
    exact attributedTime_eq_none fun hk => lookup_eq_none_iff_keys.1 hl (hp.mem_iff.1 hk)
  | some ss =>
    exact attributedTime_eq (cellSum m) hnd hp hval (mem_of_lookup_eq_some hl)

/-- C17, amended. The order among events of equal time never changes an
attributed time: two time-ascending arrangements of the events of a table that
are both processed without error give every task the same time. What the order
of ties decides is whether the sweep completes: for a task of length zero, the
arrangement with the start first is accepted and the one with the stop first
throws. -/
theorem tie_order_independence (m : IntervalMap) (hnd : NodupKeys m) :
    (∀ evs₁ evs₂ r₁ r₂, evs₁.Perm (pushEvents m) → evs₁.Sorted timeLE →
      evs₂.Perm (pushEvents m) → evs₂.Sorted timeLE →
      processEventsToWallClockTimeResponsibilities evs₁ = .ok r₁ →
      processEventsToWallClockTimeResponsibilities evs₂ = .ok r₂ →
      ∀ k, attributedTime r₁ k = attributedTime r₂ k) ∧
    (processEventsToWallClockTimeResponsibilities [⟨5, "Z", true⟩, ⟨5, "Z", false⟩] =
        .ok [⟨0, "Z"⟩] ∧
      processEventsToWallClockTimeResponsibilities [⟨5, "Z", false⟩, ⟨5, "Z", true⟩] =
        .error (.taskNotFound "Z")) := by
  constructor
  · intro evs₁ evs₂ r₁ r₂ hp₁ hs₁ hp₂ hs₂ h₁ h₂ k
    rw [attributedTime_of_ok hnd hp₁ hs₁ h₁, attributedTime_of_ok hnd hp₂ hs₂ h₂]
  · decide!

/-- C17, amended, at the scenario table: the start of C processed before or
after the stops of A and B at instant 10. -/
theorem tie_order_independence_witness :
    (∀ evs₁ evs₂ r₁ r₂, evs₁.Perm (pushEvents scenarioABC) → evs₁.Sorted timeLE →
      evs₂.Perm (pushEvents scenarioABC) → evs₂.Sorted timeLE →
      processEventsToWallClockTimeResponsibilities evs₁ = .ok r₁ →
      processEventsToWallClockTimeResponsibilities evs₂ = .ok r₂ →
      ∀ k, attributedTime r₁ k = attributedTime r₂ k) ∧
    (processEventsToWallClockTimeResponsibilities [⟨5, "Z", true⟩, ⟨5, "Z", false⟩] =
        .ok [⟨0, "Z"⟩] ∧
      processEventsToWallClockTimeResponsibilities [⟨5, "Z", false⟩, ⟨5, "Z", true⟩] =
        .error (.taskNotFound "Z")) :=
  tie_order_independence scenarioABC (by decide)

/-- C17 as stated fails: there is no table with two time-ascending arrangements
of its events, both processed without error, that give some task different
times. -/
theorem tie_break_sensitivity_counterexample :
    ¬ ∃ (m : IntervalMap) (evs₁ evs₂ : List Event)
      (r₁ r₂ : List WallClockTimeResponsibility) (k : String),
      NodupKeys m ∧ WellFormed m ∧
      evs₁.Perm (pushEvents m) ∧ evs₁.Sorted timeLE ∧
      evs₂.Perm (pushEvents m) ∧ evs₂.Sorted timeLE ∧
      processEventsToWallClockTimeResponsibilities evs₁ = .ok r₁ ∧
      processEventsToWallClockTimeResponsibilities evs₂ = .ok r₂ ∧
      attributedTime r₁ k ≠ attributedTime r₂ k := by
  rintro ⟨m, evs₁, evs₂, r₁, r₂, k, hnd, _, hp₁, hs₁, hp₂, hs₂, h₁, h₂, hne⟩
  exact hne (by rw [attributedTime_of_ok hnd hp₁ hs₁ h₁, attributedTime_of_ok hnd hp₂ hs₂ h₂])

/-- The two arrangements of the scenario events at instant 10 are both
accepted and give the same list. -/
theorem scenario_tie_orders :
    scenarioStartFirst.Perm (pushEvents scenarioABC) ∧ scenarioStartFirst.Sorted timeLE ∧
    scenarioStartFirst ≠ createdSortedEvents scenarioABC ∧
    processEventsToWallClockTimeResponsibilities scenarioStartFirst =
      processEventsToWallClockTimeResponsibilities (createdSortedEvents scenarioABC) := by
  decide!

/-! ## Inverted intervals (C19) -/

/-- A failing run over an arrangement of the events of a table stops at the
stop event of a task whose start event has not been processed, and names it. -/
theorem error_names_task {m : IntervalMap} (hnd : NodupKeys m) {evs : List Event}
    (hperm : evs.Perm (pushEvents m)) {err : Failure}
    (herr : processEventsToWallClockTimeResponsibilities evs = .error err) :
    ∃ pre post kv, kv ∈ m ∧ evs = pre ++ stopEvent kv :: post ∧ startEvent kv ∉ pre ∧
      err = .taskNotFound kv.1 := by
  obtain ⟨pre, e, post, s, hsplit, hpre, hstop, hact, herr'⟩ :=
    sweep_error ((process_error_iff evs err).1 herr)
  have hmem : e ∈ pushEvents m :=
    hperm.mem_iff.1 (hsplit ▸ List.mem_append_right _ (List.mem_cons_self _ _))
  obtain ⟨kv, hkv, h | h⟩ := mem_pushEvents.1 hmem
  · rw [h] at hstop
    simp [startEvent] at hstop
  · subst h
    refine ⟨pre, post, kv, hkv, hsplit, ?_, herr'⟩
    intro hstart
    have hnodup : (pre ++ stopEvent kv :: post).Nodup :=
      hsplit ▸ hperm.nodup_iff.2 (nodup_pushEvents hnd)
    have hnot : stopEvent kv ∉ pre := fun h =>
      (List.nodup_append.1 hnodup).2.2 h (List.mem_cons_self _ _)
    exact hact (((active_keys_after hnd hperm pre (stopEvent kv :: post) s hsplit hpre).1
      kv.1).2 ⟨kv.2, hkv, hstart, hnot⟩)

/-- C19. Inverted intervals are detected: for a table with a task whose stop
is before its start, the pipeline fails with `task not found`, naming a task
whose stop is before its start, and returns no list; every time-ascending
arrangement of the events fails as well. -/
theorem inverted_interval_detected (m : IntervalMap) (hnd : NodupKeys m)
    (kv : String × StartStop) (hkv : kv ∈ m) (hinv : kv.2.stop < kv.2.start) :
    (∃ kv' ∈ m, kv'.2.stop < kv'.2.start ∧
      processEventsToWallClockTimeResponsibilities (createdSortedEvents m) =
        .error (.taskNotFound kv'.1)) ∧
    (∀ r, processEventsToWallClockTimeResponsibilities (createdSortedEvents m) ≠ .ok r) ∧
    (∀ evs, evs.Perm (pushEvents m) → evs.Sorted timeLE →
      ∃ kv' ∈ m, processEventsToWallClockTimeResponsibilities evs =
        .error (.taskNotFound kv'.1)) := by
  have hgen : ∀ evs, evs.Perm (pushEvents m) → evs.Sorted timeLE →
      ∃ pre post kv', kv' ∈ m ∧ evs = pre ++ stopEvent kv' :: post ∧ startEvent kv' ∉ pre ∧
        processEventsToWallClockTimeResponsibilities evs = .error (.taskNotFound kv'.1) := by
    intro evs hperm hsorted
    obtain ⟨err, herr⟩ := process_error_of_inverted hnd hkv hinv hperm hsorted
    obtain ⟨pre, post, kv', hkv', hsplit, hstart, rfl⟩ := error_names_task hnd hperm herr
    exact ⟨pre, post, kv', hkv', hsplit, hstart, herr⟩
  have hp : (createdSortedEvents m).Perm (pushEvents m) := List.perm_insertionSort _ _
  have hs : (createdSortedEvents m).Sorted timeLE := List.sorted_insertionSort _ _
  obtain ⟨pre, post, kv', hkv', hsplit, hstart, herr⟩ := hgen _ hp hs
  refine ⟨⟨kv', hkv', ?_, herr⟩, ?_, ?_⟩
  · by_contra hle
    have hsub : List.Sublist [startEvent kv', stopEvent kv'] (createdSortedEvents m) :=
      List.pair_sublist_insertionSort (not_lt.1 hle) (pair_sublist_pushEvents hkv')
    have hnodup := nodup_createdSortedEvents hnd
    rw [hsplit] at hsub hnodup
    exact hstart (mem_pre_of_pair_sublist hsub hnodup)
  · intro r hr
    rw [herr] at hr
    cases hr
  · intro evs hperm hsorted
    obtain ⟨_, _, kv'', hkv'', _, _, herr'⟩ := hgen evs hperm hsorted
    exact ⟨kv'', hkv'', herr'⟩

/-- C19 at a table with the interval [7, 3]. -/
theorem inverted_interval_detected_witness :
    (∃ kv' ∈ invertedTable, kv'.2.stop < kv'.2.start ∧
      processEventsToWallClockTimeResponsibilities (createdSortedEvents invertedTable) =
        .error (.taskNotFound kv'.1)) ∧
    (∀ r, processEventsToWallClockTimeResponsibilities (createdSortedEvents invertedTable) ≠
      .ok r) ∧
    (∀ evs, evs.Perm (pushEvents invertedTable) → evs.Sorted timeLE →
      ∃ kv' ∈ invertedTable, processEventsToWallClockTimeResponsibilities evs =
        .error (.taskNotFound kv'.1)) :=
  inverted_interval_detected invertedTable (by decide) ("X", ⟨7, 3⟩) (by decide) (by decide)

/-! ## Bounds of the attributed time (C18) -/

theorem activeCount_pos {m : IntervalMap} {k : String} {ss : StartStop} (hk : (k, ss) ∈ m)
    {t : ℤ} (ht : t ∈ Finset.Ico ss.start ss.stop) : 0 < activeCount m t := by
  unfold activeCount
  rw [List.countP_pos_iff]
  exact ⟨(k, ss), hk, by simpa using ht⟩

theorem cellSum_bounds {m : IntervalMap} (hwf : WellFormed m) {k : String} {ss : StartStop}
    (hk : (k, ss) ∈ m) :
    0 ≤ cellSum m ss ∧ cellSum m ss ≤ ((ss.stop - ss.start : ℤ) : ℚ) ∧
      ((ss.stop - ss.start : ℤ) : ℚ) / (m.length : ℚ) ≤ cellSum m ss := by
  have hcard := card_Ico_cast (hwf _ hk)
  simp only at hcard
  refine ⟨?_, ?_, ?_⟩
  · unfold cellSum
    apply Finset.sum_nonneg
    intro t _
    positivity
  · have h : cellSum m ss ≤ ∑ _t ∈ Finset.Ico ss.start ss.stop, (1 : ℚ) := by
      unfold cellSum
      apply Finset.sum_le_sum
      intro t ht
      have hpos : (0 : ℚ) < (activeCount m t : ℚ) := by exact_mod_cast activeCount_pos hk ht
      rw [div_le_one hpos]
      exact_mod_cast activeCount_pos hk ht
    rw [Finset.sum_const, nsmul_eq_mul, mul_one, hcard] at h
    exact h
  · have h : ∑ _t ∈ Finset.Ico ss.start ss.stop, (1 / (m.length : ℚ)) ≤ cellSum m ss := by
      unfold cellSum
      apply Finset.sum_le_sum
      intro t ht
      have hpos : (0 : ℚ) < (activeCount m t : ℚ) := by exact_mod_cast activeCount_pos hk ht
      apply one_div_le_one_div_of_le hpos
      have : activeCount m t ≤ m.length := List.countP_le_length _
      exact_mod_cast this
    rw [Finset.sum_const, nsmul_eq_mul, hcard, mul_one_div] at h
    exact h

theorem parallelismFactor_ge_one {ss : StartStop} {a f : ℚ} (h₀ : 0 ≤ a)
    (h₁ : a ≤ ((ss.stop - ss.start : ℤ) : ℚ)) (hf : parallelismFactor ss a = some f) :
    1 ≤ f := by
  unfold parallelismFactor at hf
  by_cases ha : a = 0
  · rw [if_pos ha] at hf; cases hf
  · rw [if_neg ha] at hf
    simp only [Option.some.injEq] at hf
    rw [← hf, one_le_div (lt_of_le_of_ne h₀ (Ne.symm ha))]
    exact h₁

/-- C18, amended. Bounds in exact arithmetic: for a table with start ≤ stop
for every task, the time `a` attributed to a task with interval `[start, stop]`
satisfies `0 ≤ a ≤ stop - start` and `(stop - start) / n ≤ a`, where `n` is the
number of tasks, and the parallelism factor, where it is a number, is at least
1; the same holds for every time-ascending arrangement of the events that is
processed without error. In the doubles of the program the attributed time is
not negative; the upper bound is not claimed there. -/
theorem attribution_bounds (m : IntervalMap) (hnd : NodupKeys m) (hwf : WellFormed m)
    (k : String) (ss : StartStop) (hk : (k, ss) ∈ m) :
    (∃ r a, processEventsToWallClockTimeResponsibilities (createdSortedEvents m) = .ok r ∧
      attributedTime r k = some a ∧ 0 ≤ a ∧ a ≤ ((ss.stop - ss.start : ℤ) : ℚ) ∧
      ((ss.stop - ss.start : ℤ) : ℚ) / (m.length : ℚ) ≤ a ∧
      ∀ f, parallelismFactor ss a = some f → 1 ≤ f) ∧
    (∀ evs r, evs.Perm (pushEvents m) → evs.Sorted timeLE →
      processEventsToWallClockTimeResponsibilities evs = .ok r →
      ∃ a, attributedTime r k = some a ∧ 0 ≤ a ∧ a ≤ ((ss.stop - ss.start : ℤ) : ℚ) ∧
        ((ss.stop - ss.start : ℤ) : ℚ) / (m.length : ℚ) ≤ a ∧
        ∀ f, parallelismFactor ss a = some f → 1 ≤ f) ∧
    (∃ fin a, finishedIn doubleArith (createdSortedEvents m) = .ok fin ∧
      attributedIn doubleArith fin k = some a ∧ 0 ≤ a) ∧
    (∀ evs fin, evs.Perm (pushEvents m) → evs.Sorted timeLE →
      finishedIn doubleArith evs = .ok fin →
      ∃ a, attributedIn doubleArith fin k = some a ∧ 0 ≤ a) := by
  obtain ⟨h₀, h₁, h₂⟩ := cellSum_bounds hwf hk
  have hgen : ∀ evs r, evs.Perm (pushEvents m) → evs.Sorted timeLE →
      processEventsToWallClockTimeResponsibilities evs = .ok r →
      ∃ a, attributedTime r k = some a ∧ 0 ≤ a ∧ a ≤ ((ss.stop - ss.start : ℤ) : ℚ) ∧
        ((ss.stop - ss.start : ℤ) : ℚ) / (m.length : ℚ) ≤ a ∧
        ∀ f, parallelismFactor ss a = some f → 1 ≤ f := by
    intro evs r hperm hsorted hok
    refine ⟨cellSum m ss, ?_, h₀, h₁, h₂, fun f hf => parallelismFactor_ge_one h₀ h₁ hf⟩
    rw [attributedTime_of_ok hnd hperm hsorted hok, lookup_eq_some_of_mem hnd hk]
    rfl
  have hdbl : ∀ evs fin, evs.Perm (pushEvents m) → evs.Sorted timeLE →
      finishedIn doubleArith evs = .ok fin →
      ∃ a, attributedIn doubleArith fin k = some a ∧ 0 ≤ a := by
    intro evs fin hperm hsorted hok
    obtain ⟨a, ha⟩ := attributedIn_isSome hnd hk hperm hsorted hok
    exact ⟨a, ha, double_nonneg hnd hperm hsorted hok ha⟩
  have hadm := admissible_createdSortedEvents hnd hwf
  refine ⟨?_, hgen, ?_, hdbl⟩
  · obtain ⟨r, hr, _⟩ := process_admissible hadm
    obtain ⟨a, ha⟩ := hgen _ r (List.perm_insertionSort _ _) (List.sorted_insertionSort _ _) hr
    exact ⟨r, a, hr, ha⟩
  · obtain ⟨fin, hfin⟩ := finishedIn_completes doubleArith hadm
    obtain ⟨a, ha⟩ := hdbl _ fin hadm.perm hadm.sorted hfin
    exact ⟨fin, a, hfin, ha⟩

/-- C18, amended, at the scenario table, task A. -/
theorem attribution_bounds_witness :
    (∃ r a, processEventsToWallClockTimeResponsibilities (createdSortedEvents scenarioABC) =
        .ok r ∧
      attributedTime r "A" = some a ∧ 0 ≤ a ∧ a ≤ (((10 : ℤ) - 0 : ℤ) : ℚ) ∧
      (((10 : ℤ) - 0 : ℤ) : ℚ) / (scenarioABC.length : ℚ) ≤ a ∧
      ∀ f, parallelismFactor ⟨0, 10⟩ a = some f → 1 ≤ f) ∧
    (∀ evs r, evs.Perm (pushEvents scenarioABC) → evs.Sorted timeLE →
      processEventsToWallClockTimeResponsibilities evs = .ok r →
      ∃ a, attributedTime r "A" = some a ∧ 0 ≤ a ∧ a ≤ (((10 : ℤ) - 0 : ℤ) : ℚ) ∧
        (((10 : ℤ) - 0 : ℤ) : ℚ) / (scenarioABC.length : ℚ) ≤ a ∧
        ∀ f, parallelismFactor ⟨0, 10⟩ a = some f → 1 ≤ f) ∧
    (∃ fin a, finishedIn doubleArith (createdSortedEvents scenarioABC) = .ok fin ∧
      attributedIn doubleArith fin "A" = some a ∧ 0 ≤ a) ∧
    (∀ evs fin, evs.Perm (pushEvents scenarioABC) → evs.Sorted timeLE →
      finishedIn doubleArith evs = .ok fin →
      ∃ a, attributedIn doubleArith fin "A" = some a ∧ 0 ≤ a) :=
  attribution_bounds scenarioABC (by decide) (by decide) "A" ⟨0, 10⟩ (by decide)

/-- C18 as stated fails for the doubles of the program: in `roundingTable`,
A=[0,300] and B=[100,100], the sweep adds 0.1, 0.0 and 0.2 seconds for A and
attributes 0.30000000000000004 s, more than `stop - start` = 0.3 s and more
than the double `wallClockTime`, so the parallelism factor is
0.9999999999999998, below 1. -/
theorem attribution_bounds_double_counterexample :
    NodupKeys roundingTable ∧ WellFormed roundingTable ∧
    ("A", (⟨0, 300⟩ : StartStop)) ∈ roundingTable ∧
    ∃ (fin : List (ℚ × String)) (a f : ℚ),
      finishedIn doubleArith (createdSortedEvents roundingTable) = .ok fin ∧
      attributedIn doubleArith fin "A" = some a ∧
      (((300 : ℤ) - 0 : ℤ) : ℚ) / 1000 < a ∧ doubleOfMs (300 - 0) < a ∧
      parallelismDouble ⟨0, 300⟩ a = some f ∧ f < 1 := by
  refine ⟨by decide, by decide, by decide, [(0, "B"), (5404319552844596 / 2 ^ 54, "A")],
    5404319552844596 / 2 ^ 54, 1 - 1 / 2 ^ 52, by decide!, by decide!, by decide!, by decide!,
    by decide!, by decide!⟩

/-! ## Epoch independence (C20) -/

theorem keys_shift (c : ℤ) (m : IntervalMap) : (shift c m).map Prod.fst = m.map Prod.fst := by
  unfold shift
  rw [List.map_map]
  rfl

theorem nodupKeys_shift {m : IntervalMap} (hnd : NodupKeys m) (c : ℤ) :
    NodupKeys (shift c m) := by
  unfold NodupKeys
  rw [keys_shift]
  exact hnd

theorem wellFormed_shift (c : ℤ) (m : IntervalMap) : WellFormed (shift c m) ↔ WellFormed m := by
  unfold WellFormed shift
  simp only [List.mem_map, forall_exists_index, and_imp]
  constructor
  · intro h kv hkv
    have := h _ kv hkv rfl
    simp only at this
    omega
  · rintro h _ kv hkv rfl
    have := h kv hkv
    simp only
    omega

theorem lookup_shift (c : ℤ) (k : String) : ∀ m : IntervalMap,
    (shift c m).lookup k = (m.lookup k).map fun ss => ⟨ss.start + c, ss.stop + c⟩ := by
  intro m
  induction m with
  | nil => rfl
  | cons kv rest ih =>
    obtain ⟨k₁, v₁⟩ := kv
    have hcons : shift c ((k₁, v₁) :: rest) =
        (k₁, ⟨v₁.start + c, v₁.stop + c⟩) :: shift c rest := rfl
    rw [hcons, List.lookup_cons, List.lookup_cons]
    cases hb : k == k₁ with
    | true => rfl
    | false => exact ih

theorem activeCount_shift (c : ℤ) (m : IntervalMap) (t : ℤ) :
    activeCount (shift c m) (t + c) = activeCount m t := by
  unfold activeCount shift
  rw [List.countP_map]
  apply List.countP_congr
  intro kv _
  simp only [Function.comp_apply, decide_eq_true_eq]
  constructor <;> rintro ⟨h₁, h₂⟩ <;> constructor <;> omega

theorem cellSum_shift (c : ℤ) (m : IntervalMap) (ss : StartStop) :
    cellSum (shift c m) ⟨ss.start + c, ss.stop + c⟩ = cellSum m ss := by
  unfold cellSum
  rw [← Finset.sum_Ico_add' (fun t => 1 / (activeCount (shift c m) t : ℚ)) ss.start ss.stop c]
  apply Finset.sum_congr rfl
  intro t _
  rw [activeCount_shift]

/-- The first event finds an empty active set, so the initial value of
`previousTime` does not enter the result. -/
theorem sweep_previousTime_irrelevant (p : ℤ) (e : Event) (rest : List Event) :
    sweep ⟨[], [], p⟩ (e :: rest) = sweep SweepState.init (e :: rest) := by
  have hstep : step ⟨[], [], p⟩ e = step SweepState.init e := by
    unfold step SweepState.init addWctr
    rfl
  rw [sweep_cons, sweep_cons, hstep]

/-- C20. Epoch independence: moving every start and stop of a table by a
constant `c` changes no attributed time, for the pipeline and for every pair of
time-ascending arrangements of the two event sets that are processed without
error; for a table with start ≤ stop for every task both pipelines return a
value for every task. The first event is processed with an empty active set, so
the initial value of `previousTime` has no influence. -/
theorem epoch_independence (m : IntervalMap) (hnd : NodupKeys m) (hwf : WellFormed m) (c : ℤ) :
    (∀ k, wctrFor (shift c m) k = wctrFor m k) ∧
    (∀ k ss, (k, ss) ∈ m → ∃ a, wctrFor m k = some a ∧ wctrFor (shift c m) k = some a) ∧
    (∀ evs evs' r r', evs.Perm (pushEvents m) → evs.Sorted timeLE →
      evs'.Perm (pushEvents (shift c m)) → evs'.Sorted timeLE →
      processEventsToWallClockTimeResponsibilities evs = .ok r →
      processEventsToWallClockTimeResponsibilities evs' = .ok r' →
      ∀ k, attributedTime r' k = attributedTime r k) ∧
    (∀ p e rest, sweep ⟨[], [], p⟩ (e :: rest) = sweep SweepState.init (e :: rest)) := by
  have hmap : ∀ k, ((shift c m).lookup k).map (cellSum (shift c m)) =
      (m.lookup k).map (cellSum m) := by
    intro k
    rw [lookup_shift]
    cases m.lookup k with
    | none => rfl
    | some ss => simp only [Option.map_some', cellSum_shift]
  have hfor : ∀ k, wctrFor (shift c m) k = wctrFor m k := by
    intro k
    rw [wctrFor_eq hnd, wctrFor_eq (nodupKeys_shift hnd c), if_pos hwf,
      if_pos ((wellFormed_shift c m).2 hwf), hmap]
  refine ⟨hfor, ?_, ?_, sweep_previousTime_irrelevant⟩
  · intro k ss hk
    refine ⟨cellSum m ss, ?_, ?_⟩
    · rw [wctrFor_eq hnd, if_pos hwf, lookup_eq_some_of_mem hnd hk]; rfl
    · rw [hfor, wctrFor_eq hnd, if_pos hwf, lookup_eq_some_of_mem hnd hk]; rfl
  · intro evs evs' r r' hp hs hp' hs' hok hok' k
    rw [attributedTime_of_ok hnd hp hs hok,
      attributedTime_of_ok (nodupKeys_shift hnd c) hp' hs' hok', hmap]

/-- C20 at the scenario table moved by -1000. -/
theorem epoch_independence_witness :
    (∀ k, wctrFor (shift (-1000) scenarioABC) k = wctrFor scenarioABC k) ∧
    (∀ k ss, (k, ss) ∈ scenarioABC →
      ∃ a, wctrFor scenarioABC k = some a ∧ wctrFor (shift (-1000) scenarioABC) k = some a) ∧
    (∀ evs evs' r r', evs.Perm (pushEvents scenarioABC) → evs.Sorted timeLE →
      evs'.Perm (pushEvents (shift (-1000) scenarioABC)) → evs'.Sorted timeLE →
      processEventsToWallClockTimeResponsibilities evs = .ok r →
      processEventsToWallClockTimeResponsibilities evs' = .ok r' →
      ∀ k, attributedTime r' k = attributedTime r k) ∧
    (∀ p e rest, sweep ⟨[], [], p⟩ (e :: rest) = sweep SweepState.init (e :: rest)) :=
  epoch_independence scenarioABC (by decide) (by decide) (-1000)

/-! ## Top-K selection (C12) -/

theorem range_map_getElem {α β : Type} (l : List α) (f : α → Option β) :
    ∀ n, n ≤ l.length →
      (List.range n).map (fun i => (l[i]?).bind f) = (l.take n).map f := by
  intro n
  induction n with
  | zero => intro _; rfl
  | succ n ih =>
    intro hn
    have hlt : n < l.length := hn
    rw [List.range_succ, List.map_append, ih (Nat.le_of_lt hlt), List.take_succ,
      List.map_append]
    simp only [List.map_cons, List.map_nil, List.getElem?_eq_getElem hlt, Option.some_bind,
      Option.toList_some]

/-- C12. Top-K selection: for `0 < K ≤ n` the presenter emits the lines of the
first `K` records of the list, in the order of the list; for `K = 0` and for
`K > n` it emits the lines of all `n` records. -/
theorem top_k_selection (wctrs : List WallClockTimeResponsibility) (m : IntervalMap) (K : ℕ) :
    (0 < K → K ≤ wctrs.length →
      printWallClockTimeResponsibilities wctrs m K = (wctrs.take K).map (printRow m) ∧
      (printWallClockTimeResponsibilities wctrs m K).length = K) ∧
    (K = 0 ∨ wctrs.length < K →
      printWallClockTimeResponsibilities wctrs m K = wctrs.map (printRow m) ∧
      (printWallClockTimeResponsibilities wctrs m K).length = wctrs.length) := by
  constructor
  · intro hpos hle
    have hcond : ¬ (K = 0 ∨ K > wctrs.length) := by omega
    have h : printWallClockTimeResponsibilities wctrs m K = (wctrs.take K).map (printRow m) := by
      unfold printWallClockTimeResponsibilities
      simp only [if_neg hcond]
      exact range_map_getElem wctrs (printRow m) K hle
    refine ⟨h, ?_⟩
    rw [h, List.length_map, List.length_take]
    omega
  · intro hcond
    have hcond' : K = 0 ∨ K > wctrs.length := hcond
    have h : printWallClockTimeResponsibilities wctrs m K = wctrs.map (printRow m) := by
      unfold printWallClockTimeResponsibilities
      simp only [if_pos hcond']
      rw [range_map_getElem wctrs (printRow m) wctrs.length (le_refl _), List.take_length]
    exact ⟨h, by rw [h, List.length_map]⟩

/-- C12 at the ranked list of the scenario: two lines for `K = 2`, all three
for `K = 0` and for `K = 7`. -/
theorem top_k_selection_witness :
    printWallClockTimeResponsibilities [⟨10, "C"⟩, ⟨5, "A"⟩, ⟨5, "B"⟩] scenarioABC 2 =
      [some ⟨10, 10, some 1, "C"⟩, some ⟨5, 10, some 2, "A"⟩] ∧
    printWallClockTimeResponsibilities [⟨10, "C"⟩, ⟨5, "A"⟩, ⟨5, "B"⟩] scenarioABC 0 =
      [some ⟨10, 10, some 1, "C"⟩, some ⟨5, 10, some 2, "A"⟩, some ⟨5, 10, some 2, "B"⟩] ∧
    printWallClockTimeResponsibilities [⟨10, "C"⟩, ⟨5, "A"⟩, ⟨5, "B"⟩] scenarioABC 7 =
      [some ⟨10, 10, some 1, "C"⟩, some ⟨5, 10, some 2, "A"⟩, some ⟨5, 10, some 2, "B"⟩] := by
  have h := top_k_selection [⟨10, "C"⟩, ⟨5, "A"⟩, ⟨5, "B"⟩] scenarioABC
  refine ⟨?_, ?_, ?_⟩
  · rw [((h 2).1 (by decide) (by decide)).1]; decide!
  · rw [((h 0).2 (Or.inl rfl)).1]; decide!
  · rw [((h 7).2 (Or.inr (by decide))).1]; decide!

/-! ## The log reader (C13, C14) -/

theorem takeWhile_line {line : List Char} (hline : '\n' ∉ line) (rest : List Char) :
    (line ++ '\n' :: rest).takeWhile (fun c => c != '\n') = line ∧
    (line ++ '\n' :: rest).dropWhile (fun c => c != '\n') = '\n' :: rest := by
  induction line with
  | nil => simp
  | cons c line ih =>
    have hc : c ≠ '\n' := fun h => hline (h ▸ List.mem_cons_self _ _)
    have hrest : '\n' ∉ line := fun h => hline (List.mem_cons_of_mem _ h)
    have hb : (c != '\n') = true := by simpa using hc
    obtain ⟨h₁, h₂⟩ := ih hrest
    constructor
    · rw [List.cons_append, List.takeWhile_cons, hb, if_pos rfl, h₁]
    · rw [List.cons_append, List.dropWhile_cons, hb, if_pos rfl, h₂]

theorem takeWhile_no_newline {line : List Char} (hline : '\n' ∉ line) :
    line.takeWhile (fun c => c != '\n') = line ∧
    line.dropWhile (fun c => c != '\n') = [] := by
  induction line with
  | nil => simp
  | cons c line ih =>
    have hc : c ≠ '\n' := fun h => hline (h ▸ List.mem_cons_self _ _)
    have hrest : '\n' ∉ line := fun h => hline (List.mem_cons_of_mem _ h)
    have hb : (c != '\n') = true := by simpa using hc
    obtain ⟨h₁, h₂⟩ := ih hrest
    constructor
    · rw [List.takeWhile_cons, hb, if_pos rfl, h₁]
    · rw [List.dropWhile_cons, hb, if_pos rfl, h₂]

theorem getline_append {line : List Char} (hline : '\n' ∉ line) (rest : List Char) :
    getline (line ++ '\n' :: rest) = (String.mk line, rest) := by
  unfold getline
  rw [(takeWhile_line hline rest).1, (takeWhile_line hline rest).2]
  rfl

theorem getline_of_no_newline {line : List Char} (hline : '\n' ∉ line) :
    getline line = (String.mk line, []) := by
  unfold getline
  rw [(takeWhile_no_newline hline).1, (takeWhile_no_newline hline).2]
  rfl

/-- C13. FormatMismatch: when the first line of the log is not the marker
`# ninja log v5`, `parseNinjaLog` fails with the error that quotes the line and
returns no table, whether or not records follow; when the first line is the
marker, it does not fail and returns the table collected from the body. -/
theorem format_mismatch (line rest : List Char) (hline : '\n' ∉ line) :
    (String.mk line ≠ expectedFirstLine →
      parseNinjaLog (some (line ++ '\n' :: rest)) =
        .error (.unexpectedFirstLine (String.mk line)) ∧
      parseNinjaLog (some line) = .error (.unexpectedFirstLine (String.mk line))) ∧
    (String.mk line = expectedFirstLine →
      parseNinjaLog (some (line ++ '\n' :: rest)) =
        .ok (collect (readRecords rest.length rest))) := by
  constructor
  · intro hne
    constructor
    · unfold parseNinjaLog
      simp only [getline_append hline, ne_eq, hne, not_false_eq_true, if_true]
    · unfold parseNinjaLog
      simp only [getline_of_no_newline hline, ne_eq, hne, not_false_eq_true, if_true]
  · intro heq
    unfold parseNinjaLog
    simp only [getline_append hline, ne_eq, heq, not_true_eq_false, if_false]

/-- C13 at a log of format version 4. -/
theorem format_mismatch_witness :
    (String.mk "# ninja log v4".toList ≠ expectedFirstLine →
      parseNinjaLog (some ("# ninja log v4".toList ++ '\n' :: "10 20 0 a.o h1".toList)) =
        .error (.unexpectedFirstLine (String.mk "# ninja log v4".toList)) ∧
      parseNinjaLog (some "# ninja log v4".toList) =
        .error (.unexpectedFirstLine (String.mk "# ninja log v4".toList))) ∧
    (String.mk "# ninja log v4".toList = expectedFirstLine →
      parseNinjaLog (some ("# ninja log v4".toList ++ '\n' :: "10 20 0 a.o h1".toList)) =
        .ok (collect (readRecords "10 20 0 a.o h1".toList.length "10 20 0 a.o h1".toList))) :=
  format_mismatch "# ninja log v4".toList "10 20 0 a.o h1".toList (by decide)

theorem length_afterSign_le (cs : List Char) : (afterSign cs).length ≤ cs.length := by
  unfold afterSign
  split <;> simp

theorem length_dropWhile_le {p : Char → Bool} (cs : List Char) :
    (cs.dropWhile p).length ≤ cs.length :=
  (List.dropWhile_sublist p).length_le

theorem length_dropWhile_lt {p : Char → Bool} {cs : List Char} (h : cs.takeWhile p ≠ []) :
    (cs.dropWhile p).length < cs.length := by
  have h₁ := congrArg List.length (List.takeWhile_append_dropWhile p cs)
  rw [List.length_append] at h₁
  have h₂ : 0 < (cs.takeWhile p).length := List.length_pos.2 h
  omega

/-- A successful extraction of a number consumes at least one character. -/
theorem readInt64_length {cs rest : List Char} {v : ℤ} (h : readInt64 cs = some (v, rest)) :
    rest.length < cs.length := by
  unfold readInt64 at h
  simp only at h
  have h₃ := length_afterSign_le (cs.dropWhile isSpace)
  have h₄ := length_dropWhile_le (p := isSpace) cs
  by_cases h₁ : (afterSign (cs.dropWhile isSpace)).takeWhile Char.isDigit = []
  · rw [if_pos h₁] at h; cases h
  · rw [if_neg h₁] at h
    have h₂ := length_dropWhile_lt h₁
    split_ifs at h
    all_goals
      simp only [Option.some.injEq, Prod.mk.injEq] at h
      rw [← h.2]
      omega

/-- A successful extraction of a string consumes at least one character. -/
theorem readString_length {cs rest : List Char} {v : String}
    (h : readString cs = some (v, rest)) : rest.length < cs.length := by
  unfold readString at h
  simp only at h
  have h₄ := length_dropWhile_le (p := isSpace) cs
  by_cases h₁ : (cs.dropWhile isSpace).takeWhile (fun c => !isSpace c) = []
  · rw [if_pos h₁] at h; cases h
  · rw [if_neg h₁] at h
    have h₂ := length_dropWhile_lt h₁
    simp only [Option.some.injEq, Prod.mk.injEq] at h
    rw [← h.2]
    omega

/-- A successful extraction of a record consumes at least one character. -/
theorem readRecord_length {cs rest : List Char} {r : LogRecord}
    (h : readRecord cs = some (r, rest)) : rest.length < cs.length := by
  unfold readRecord at h
  cases h₁ : readInt64 cs with
  | none => rw [h₁] at h; cases h
  | some p₁ =>
    obtain ⟨v₁, cs₁⟩ := p₁
    rw [h₁] at h
    simp only at h
    cases h₂ : readInt64 cs₁ with
    | none => rw [h₂] at h; cases h
    | some p₂ =>
      obtain ⟨v₂, cs₂⟩ := p₂
      rw [h₂] at h
      simp only at h
      cases h₃ : readInt64 cs₂ with
      | none => rw [h₃] at h; cases h
      | some p₃ =>
        obtain ⟨v₃, cs₃⟩ := p₃
        rw [h₃] at h
        simp only at h
        cases h₄ : readString cs₃ with
        | none => rw [h₄] at h; cases h
        | some p₄ =>
          obtain ⟨v₄, cs₄⟩ := p₄
          rw [h₄] at h
          simp only at h
          cases h₅ : readString cs₄ with
          | none => rw [h₅] at h; cases h
          | some p₅ =>
            obtain ⟨v₅, cs₅⟩ := p₅
            rw [h₅] at h
            simp only [Option.some.injEq, Prod.mk.injEq] at h
            rw [← h.2]
            have := readInt64_length h₁
            have := readInt64_length h₂
            have := readInt64_length h₃
            have := readString_length h₄
            have := readString_length h₅
            omega

/-- With fuel for every character, the loop reads exactly the records up to
the first extraction that fails. -/
theorem readRecords_of_readsTo {cs final : List Char} {rs : List LogRecord}
    (hread : ReadsTo cs rs final) (hfail : readRecord final = none) :
    ∀ fuel, cs.length ≤ fuel → readRecords fuel cs = rs := by
  induction hread with
  | done cs =>
    intro fuel _
    cases fuel with
    | zero => rfl
    | succ fuel => simp only [readRecords, hfail]
  | step hrec _ ih =>
    intro fuel hfuel
    have hlt := readRecord_length hrec
    cases fuel with
    | zero => omega
    | succ fuel =>
      simp only [readRecords, hrec]
      rw [ih hfail fuel (by omega)]

/-- Every stream splits into the records read and the place of the first
extraction that fails. -/
theorem readsTo_total : ∀ (n : ℕ) (cs : List Char), cs.length ≤ n →
    ∃ rs final, ReadsTo cs rs final ∧ readRecord final = none := by
  intro n
  induction n with
  | zero =>
    intro cs hcs
    have : cs = [] := List.length_eq_zero.1 (Nat.le_zero.1 hcs)
    subst this
    exact ⟨[], [], ReadsTo.done [], by decide⟩
  | succ n ih =>
    intro cs hcs
    cases hrec : readRecord cs with
    | none => exact ⟨[], cs, ReadsTo.done cs, hrec⟩
    | some p =>
      obtain ⟨r, cs'⟩ := p
      have hlt := readRecord_length hrec
      obtain ⟨rs, final, hread, hfail⟩ := ih cs' (by omega)
      exact ⟨r :: rs, final, ReadsTo.step hrec hread, hfail⟩

/-- After the marker line, the result is the table of the records read up to
the first extraction that fails. -/
theorem parseNinjaLog_of_readsTo {line rest final : List Char} {rs : List LogRecord}
    (hline : '\n' ∉ line) (hmark : String.mk line = expectedFirstLine)
    (hread : ReadsTo rest rs final) (hfail : readRecord final = none) :
    parseNinjaLog (some (line ++ '\n' :: rest)) = .ok (collect rs) := by
  unfold parseNinjaLog
  simp only [getline_append hline, ne_eq, hmark, not_true_eq_false, if_false]
  rw [readRecords_of_readsTo hread hfail _ (le_refl _)]

/-- The failures of `parseNinjaLog`: the file cannot be opened, or its first
line is not the marker. -/
theorem parseNinjaLog_error {file : Option (List Char)} {err : ParseFailure}
    (h : parseNinjaLog file = .error err) :
    (file = none ∧ err = .couldNotOpen) ∨
    ∃ content, file = some content ∧ (getline content).1 ≠ expectedFirstLine ∧
      err = .unexpectedFirstLine (getline content).1 := by
  unfold parseNinjaLog at h
  cases file with
  | none =>
    simp only [Except.error.injEq] at h
    exact Or.inl ⟨rfl, h.symm⟩
  | some content =>
    right
    simp only at h
    split_ifs at h with hne
    simp only [Except.error.injEq] at h
    exact ⟨content, rfl, hne, h.symm⟩

/-- C14, amended. A record that cannot be decomposed ends the reading loop
without an error: after the marker line, `parseNinjaLog` returns the table
collected from the records read before the first extraction that fails, and
what follows in the file is ignored. The only failures of `parseNinjaLog` are
the file that cannot be opened and the first line that is not the marker. -/
theorem malformed_record_ends_reading (line rest final : List Char) (rs : List LogRecord)
    (hline : '\n' ∉ line) (hmark : String.mk line = expectedFirstLine)
    (hread : ReadsTo rest rs final) (hfail : readRecord final = none) :
    parseNinjaLog (some (line ++ '\n' :: rest)) = .ok (collect rs) ∧
    (∀ err, parseNinjaLog (some (line ++ '\n' :: rest)) ≠ .error err) ∧
    (∀ file err, parseNinjaLog file = .error err →
      (file = none ∧ err = .couldNotOpen) ∨
      ∃ content, file = some content ∧ (getline content).1 ≠ expectedFirstLine ∧
        err = .unexpectedFirstLine (getline content).1) := by
  have h := parseNinjaLog_of_readsTo hline hmark hread hfail
  refine ⟨h, ?_, fun _ _ => parseNinjaLog_error⟩
  intro err herr
  rw [h] at herr
  cases herr

/-- C14, amended, at `malformedLog`: the record `xx 30 0 b.o h2` ends the
reading, and the table holds the record before it. -/
theorem malformed_record_ends_reading_witness :
    parseNinjaLog (some ("# ninja log v5".toList ++ '\n' :: malformedBody)) =
      .ok (collect [⟨10, 20, 0, "a.o", "h1"⟩]) ∧
    (∀ err, parseNinjaLog (some ("# ninja log v5".toList ++ '\n' :: malformedBody)) ≠
      .error err) ∧
    (∀ file err, parseNinjaLog file = .error err →
      (file = none ∧ err = .couldNotOpen) ∨
      ∃ content, file = some content ∧ (getline content).1 ≠ expectedFirstLine ∧
        err = .unexpectedFirstLine (getline content).1) :=
  malformed_record_ends_reading "# ninja log v5".toList malformedBody malformedTail
    [⟨10, 20, 0, "a.o", "h1"⟩] (by decide) (by decide)
    (ReadsTo.step (by decide!) (ReadsTo.done malformedTail)) (by decide!)

/-- C14 as stated fails: the body of `malformedLog` holds the record
`xx 30 0 b.o h2`, which cannot be decomposed, and `parseNinjaLog` returns a
table instead of an error. -/
theorem malformed_record_counterexample :
    ¬ ∀ (line rest final : List Char) (rs : List LogRecord), '\n' ∉ line →
      String.mk line = expectedFirstLine → ReadsTo rest rs final →
      readRecord final = none → (∃ c ∈ final, isSpace c = false) →
      ∃ err, parseNinjaLog (some (line ++ '\n' :: rest)) = .error err := by
  intro h
  have hread : ReadsTo malformedBody [⟨10, 20, 0, "a.o", "h1"⟩] malformedTail :=
    ReadsTo.step (by decide!) (ReadsTo.done malformedTail)
  have hfail : readRecord malformedTail = none := by decide!
  obtain ⟨err, herr⟩ := h "# ninja log v5".toList malformedBody malformedTail
    [⟨10, 20, 0, "a.o", "h1"⟩] (by decide) (by decide) hread hfail (by decide)
  rw [parseNinjaLog_of_readsTo (by decide) (by decide) hread hfail] at herr
  cases herr

/-- The log `malformedLog` is the marker line followed by `malformedBody`, and
its table is the one of its first record. -/
theorem parseNinjaLog_malformedLog :
    malformedLog = "# ninja log v5".toList ++ '\n' :: malformedBody ∧
    parseNinjaLog (some malformedLog) = .ok [("a.o", ⟨10, 20⟩)] ∧
    parseNinjaLog (some oldFormatLog) = .error (.unexpectedFirstLine "# ninja log v4") := by
  decide!

end Ninja2wctr
